import Mathlib

/-!
Verification of the huffman codec in hpxro7/compressor-head.

The definitions below are a shallow embedding of the Go sources
(src/huffman, src/bits, src/unnamed/part_001 being the complete
`package huffman` file).  Go bytes are modelled as `Nat`; every Go
arithmetic operation that can wrap modulo 256 carries an explicit
`% 256`.  A `*node` pointer is modelled as a `node` with an explicit
`nil` constructor.  Go maps are modelled as association lists in
first-insertion order (Go iterates maps in unspecified order; theorems
quantify over the association list, and concrete inputs used in
counterexamples are chosen so that all heap merges are forced, making
the result independent of the iteration order).  The loops of
`container/heap` are embedded with an explicit fuel argument; each
wrapper passes a fuel that is provably larger than the number of
iterations the Go loop performs, so the embedded function computes the
same result.  `io.Writer` / `io.Reader` capabilities are modelled as
in-memory byte lists: the sink accepts a full write and returns its
length, the source returns `min(len(buf), len(source))` bytes and
`io.EOF` when empty, as `bytes.Reader` does.
-/

namespace Huff

/-- Model of the Go struct `node` (part_001 lines 72-79) together with
the `*node` pointer: `nil` is the nil pointer, `mk l r val cnt` a node
with child pointers `l`, `r`, byte value `val` and frequency `cnt`. -/
inductive node : Type where
  | nil : node
  | mk (l : node) (r : node) (val : Nat) (cnt : Nat)
deriving DecidableEq

instance : Inhabited node := ⟨node.nil⟩

/-- Frequency stored in a node (0 for the nil pointer, which Go never
dereferences on the paths modelled here). -/
def node.cnt : node → Nat
  | .nil => 0
  | .mk _ _ _ c => c

/-- Value stored in a node. -/
def node.val : node → Nat
  | .nil => 0
  | .mk _ _ v _ => v

/-- Model of the Go struct `code` (part_001 lines 12-15): `path` is the
bit pattern (a Go `byte`), `len` the number of bits (a Go `uint32`). -/
structure code where
  path : Nat
  len : Nat
deriving DecidableEq

/-- Model of the Go struct `Distribution` (part_001 lines 26-29):
`cnts` is the Go map `map[byte]uint64` as an association list in
insertion order, `total` the running total. -/
structure Distribution where
  cnts : List (Nat × Nat)
  total : Nat
deriving DecidableEq

/-- One step of `d.cnts[val]++`: bump the count of `v` in the
association list, appending a fresh entry when absent. -/
def bumpCnt : List (Nat × Nat) → Nat → List (Nat × Nat)
  | [], v => [(v, 1)]
  | (k, c) :: rest, v =>
    if k = v then (k, c + 1) :: rest else (k, c) :: bumpCnt rest v

/-- Model of `NewDistribution` (part_001 lines 35-45): count each byte
of the sample and keep a running total.  It cannot fail; an empty
sample yields the distribution with no counts and total 0. -/
def NewDistribution (bs : List Nat) : Distribution :=
  bs.foldl (fun d v => { cnts := bumpCnt d.cnts v, total := d.total + 1 })
    { cnts := [], total := 0 }

/-! ### The `container/heap` operations used through `nodeHeap`

`nodeHeap.Less` compares `cnt` (part_001 lines 87-89), `Swap` swaps
(91-94), `Push` appends (104-107), `Pop` removes the last element
(96-102).  `heap.Init`, `heap.Push`, `heap.Pop` from the Go standard
library are the sift procedures `down` and `up` over those methods;
they are embedded here over a `List node`, their `for` loops running on
fuel that the wrappers instantiate generously enough (the sift index
moves at least one level per iteration). -/

/-- Key of heap slot `i`: the `cnt` ordered by `nodeHeap.Less`. -/
def key (h : List node) (i : Nat) : Nat := (h.getD i default).cnt

/-- Model of `nodeHeap.Swap`: exchange slots `i` and `j`. -/
def hswap (h : List node) (i j : Nat) : List node :=
  (h.set i (h.getD j default)).set j (h.getD i default)

/-- The loop of `container/heap.down` specialised to `nodeHeap`: sift
the element at `i` down within the first `n` slots.  The Go `for` loop
is unrolled into the two possible choices of the smaller child. -/
def downAux : Nat → List node → Nat → Nat → List node
  | 0, h, _, _ => h
  | fuel + 1, h, i, n =>
    if 2 * i + 1 < n then
      if 2 * i + 2 < n ∧ key h (2 * i + 2) < key h (2 * i + 1) then
        if key h (2 * i + 2) < key h i then downAux fuel (hswap h i (2 * i + 2)) (2 * i + 2) n
        else h
      else
        if key h (2 * i + 1) < key h i then downAux fuel (hswap h i (2 * i + 1)) (2 * i + 1) n
        else h
    else h

/-- Model of `container/heap.down`: the sift index at least increments
each iteration, so `n - i` iterations always suffice. -/
def down (h : List node) (i n : Nat) : List node := downAux (n - i) h i n

/-- The loop of `container/heap.up` specialised to `nodeHeap`: sift the
element at `j` up towards the root. -/
def upAux : Nat → List node → Nat → List node
  | 0, h, _ => h
  | fuel + 1, h, j =>
    if (j - 1) / 2 = j ∨ ¬ key h j < key h ((j - 1) / 2) then h
    else upAux fuel (hswap h ((j - 1) / 2) j) ((j - 1) / 2)

/-- Model of `container/heap.up`: the index strictly decreases, so `j`
iterations always suffice. -/
def up (h : List node) (j : Nat) : List node := upAux j h j

/-- The loop of `container/heap.Init`: run `down` at indices
`k-1, k-2, ..., 0` (callers pass `k = n/2`). -/
def initDowns (n : Nat) : List node → Nat → List node
  | h, 0 => h
  | h, k + 1 => initDowns n (down h k n) k

/-- Model of `container/heap.Init`. -/
def initHeap (h : List node) : List node := initDowns h.length h (h.length / 2)

/-- Model of `container/heap.Push`: append then sift up from the last
index. -/
def heapPush (h : List node) (x : node) : List node := up (h ++ [x]) h.length

/-- Model of `container/heap.Pop`: swap the root with the last live
slot, sift down within the shortened range, then remove and return the
last element (`nodeHeap.Pop`). -/
def heapPop (h : List node) : node × List node :=
  ((down (hswap h 0 (h.length - 1)) 0 (h.length - 1)).getD (h.length - 1) default,
    (down (hswap h 0 (h.length - 1)) 0 (h.length - 1)).take (h.length - 1))

theorem hswap_length (h : List node) (i j : Nat) : (hswap h i j).length = h.length := by
  simp [hswap]

theorem downAux_length (fuel : Nat) (h : List node) (i n : Nat) :
    (downAux fuel h i n).length = h.length := by
  induction fuel generalizing h i with
  | zero => rfl
  | succ fuel ih =>
    simp only [downAux]
    split
    · split
      · split
        · rw [ih, hswap_length]
        · rfl
      · split
        · rw [ih, hswap_length]
        · rfl
    · rfl

theorem down_length (h : List node) (i n : Nat) : (down h i n).length = h.length :=
  downAux_length _ h i n

theorem upAux_length (fuel : Nat) (h : List node) (j : Nat) :
    (upAux fuel h j).length = h.length := by
  induction fuel generalizing h j with
  | zero => rfl
  | succ fuel ih =>
    simp only [upAux]
    split
    · rfl
    · rw [ih, hswap_length]

theorem up_length (h : List node) (j : Nat) : (up h j).length = h.length :=
  upAux_length _ h j

theorem heapPop_length (h : List node) : (heapPop h).2.length = h.length - 1 := by
  simp [heapPop, down_length, hswap_length]

theorem heapPush_length (h : List node) (x : node) :
    (heapPush h x).length = h.length + 1 := by
  simp [heapPush, up_length]

/-- The merge loop of `nodeHeap.buildTree` (part_001 lines 112-119):
while at least two nodes remain, pop `l` then `r`, push the merged
internal node with count `r.cnt + l.cnt`. -/
def buildLoopAux : Nat → List node → List node
  | 0, h => h
  | fuel + 1, h =>
    if 2 ≤ h.length then
      buildLoopAux fuel (heapPush (heapPop (heapPop h).2).2
        (node.mk (heapPop h).1 (heapPop (heapPop h).2).1 0
          ((heapPop (heapPop h).2).1.cnt + (heapPop h).1.cnt)))
    else h

/-- The merge loop with its fuel: each iteration shrinks the heap by
one, so `h.length` iterations always suffice. -/
def buildLoop (h : List node) : List node := buildLoopAux h.length h

/-- Model of `nodeHeap.buildTree` (part_001 lines 110-124): nil when
the heap is empty, otherwise the final popped node. -/
def buildTree (h : List node) : node :=
  if 1 ≤ h.length then (heapPop (buildLoop h)).1 else node.nil

/-- Model of `Distribution.toHeap` (part_001 lines 53-60): one leaf per
counted byte value, then `heap.Init`.  The map iteration order is the
association-list order. -/
def toHeap (d : Distribution) : List node :=
  initHeap (d.cnts.map (fun vc => node.mk node.nil node.nil vc.1 vc.2))

/-! ### Code table -/

/-- Go map assignment `mapping[k] = v` on the association list. -/
def mupd (m : List (Nat × code)) (k : Nat) (v : code) : List (Nat × code) :=
  match m with
  | [] => [(k, v)]
  | (k0, v0) :: rest => if k0 = k then (k, v) :: rest else (k0, v0) :: mupd rest k v

/-- Go map lookup `c, ok := mapping[k]` on the association list. -/
def mapGet (m : List (Nat × code)) (k : Nat) : Option code :=
  match m with
  | [] => none
  | (k0, v0) :: rest => if k0 = k then some v0 else mapGet rest k

/-- Model of `expandPaths` (part_001 lines 148-165).  `path` is a Go
`byte`, so the right-branch arithmetic `path + (2 << (depth-1))` wraps
modulo 256 (and the shifted constant is itself a `byte`); this is kept
verbatim.  The left subtree is processed first, then the right, both
mutating the same map. -/
def expandPaths : Nat → Nat → node → List (Nat × code) → List (Nat × code)
  | _, _, .nil, mapping => mapping
  | path, depth, .mk l r v _, mapping =>
    if l = node.nil ∧ r = node.nil then
      mupd mapping v { path := path, len := depth }
    else
      expandPaths
        (if depth = 0 then (path + 1) % 256
         else (path + (2 <<< (depth - 1)) % 256) % 256)
        (depth + 1) r (expandPaths path (depth + 1) l mapping)

/-- Model of `getMapping` (part_001 lines 126-130). -/
def getMapping (root : node) : List (Nat × code) := expandPaths 0 0 root []

/-- The tree a `NewWriter` over distribution `d` stores (part_001 line
186). -/
def writerRoot (d : Distribution) : node := buildTree (toHeap d)

/-- The code table a `NewWriter` over distribution `d` stores
(part_001 line 187). -/
def writerMapping (d : Distribution) : List (Nat × code) := getMapping (writerRoot d)

/-! ### Writer.Write -/

/-- The mutable locals of `Writer.Write`'s loop: the output buffer, the
byte being filled and the number of free bits left in it. -/
structure WState where
  encoded : List Nat
  curr : Nat
  left : Nat
deriving DecidableEq

/-- The inner bit loop of `Writer.Write` (part_001 lines 201-216):
place the remaining bits of `p` (low bit first) into the current
byte, sealing it into `encoded` whenever it fills.  Returns the new
state and the `wrote` flag. -/
def packCodeBits : Nat → Nat → WState → Bool → WState × Bool
  | _, 0, st, wrote => (st, wrote)
  | p, rem + 1, st, wrote =>
    if st.left = 1 then
      packCodeBits (p / 2) rem
        { encoded := st.encoded ++
            [if st.left = 8 then (st.curr + p % 2) % 256
             else (st.curr + p % 2 * (2 <<< (8 - st.left - 1) % 256)) % 256],
          curr := 0, left := 8 } true
    else
      packCodeBits (p / 2) rem
        { encoded := st.encoded,
          curr := if st.left = 8 then (st.curr + p % 2) % 256
            else (st.curr + p % 2 * (2 <<< (8 - st.left - 1) % 256)) % 256,
          left := st.left - 1 } wrote

/-- The symbol loop of `Writer.Write` (part_001 lines 195-221): look
each symbol up (an unknown symbol aborts with the error naming it,
nothing reaching the sink), pack its code bits, and after the last
symbol append the partial byte when no byte was sealed during that
symbol (`i == len(p)-1 && !wrote`). -/
def writeSyms (m : List (Nat × code)) : List Nat → WState → Except Nat (List Nat)
  | [], st => .ok st.encoded
  | v :: rest, st =>
    match mapGet m v with
    | none => .error v
    | some c =>
      if rest = [] then
        if (packCodeBits c.path c.len st false).2 then
          .ok (packCodeBits c.path c.len st false).1.encoded
        else .ok ((packCodeBits c.path c.len st false).1.encoded ++
          [(packCodeBits c.path c.len st false).1.curr])
      else writeSyms m rest (packCodeBits c.path c.len st false).1

/-- Model of `Writer.Write` (part_001 lines 191-223): on success the
value is the byte list handed to the underlying sink, on failure the
offending symbol (nothing is written).  The returned count is the
sink's count, i.e. the length of that list. -/
def hWrite (m : List (Nat × code)) (p : List Nat) : Except Nat (List Nat) :=
  writeSyms m p { encoded := [], curr := 0, left := 8 }

/-- The `n` returned by `Writer.Write`: the underlying writer's count
(full write of the encoded bytes), 0 on error. -/
def hWriteCount (m : List (Nat × code)) (p : List Nat) : Nat :=
  match hWrite m p with
  | .ok bs => bs.length
  | .error _ => 0

/-! ### Bit stream and Reader.Read -/

/-- The closure state of `toBitStream` (part_001 lines 239-257) and of
`bits.ToStream` (src/bits/bits.go, same code): the remaining buffer
(front byte already half-consumed) and the bits left in it. -/
structure BState where
  buf : List Nat
  left : Nat
deriving DecidableEq

/-- The initial stream state over `input` (the Go closure copies the
bytes; Lean lists are values, so the copy is implicit). -/
def toBitStream (input : List Nat) : BState := { buf := input, left := 8 }

/-- One call of the stream closure: `none` models `io.EOF`; otherwise
the low bit of the front byte is produced, the byte is halved, and the
byte is dropped after its eighth bit (`left` is a Go `byte`, so its
decrement is `(left + 255) % 256`). -/
def bsNext : BState → Option (Nat × BState)
  | { buf := [], left := _ } => none
  | { buf := b :: rest, left := l } =>
    if (l + 255) % 256 = 0 then some (b % 2, { buf := rest, left := 8 })
    else some (b % 2, { buf := b / 2 :: rest, left := (l + 255) % 256 })

/-- Errors a `Reader.Read` can surface: `eof` is `io.EOF` from the bit
stream (or from the byte source); `nilChild` marks the nil-pointer
dereference `decode` would hit on a half-empty node, which cannot occur
on built trees. -/
inductive rdErr where
  | eof : rdErr
  | nilChild : rdErr
deriving DecidableEq

/-- Model of `decode` (part_001 lines 132-146): walk from `curr`,
consuming one bit per internal node, 0 to the left and 1 to the
right. -/
def decode : node → BState → Except rdErr (Nat × BState)
  | .nil, _ => .error .nilChild
  | .mk l r v _, st =>
    if l = node.nil ∧ r = node.nil then .ok (v, st)
    else
      match bsNext st with
      | none => .error .eof
      | some (dir, st1) => if dir = 0 then decode l st1 else decode r st1

/-- The decode loop of `Reader.Read` (part_001 lines 267-270): fill up
to `k` slots; a decode error stores 0 in the current slot, which is
still counted (`n++` runs after the failed call). -/
def readLoop (root : node) : Nat → BState → List Nat × Option rdErr
  | 0, _ => ([], none)
  | k + 1, st =>
    match decode root st with
    | .error e => ([0], some e)
    | .ok (v, st1) =>
      let r := readLoop root k st1
      (v :: r.1, r.2)

/-- Model of `Reader.Read` (part_001 lines 259-273) with an in-memory
byte source: a fresh zeroed buffer of length `N` receives
`min(N, len(source))` bytes (an empty source yields `(0, io.EOF)` as
`bytes.Reader` does), the whole buffer is turned into a bit stream,
and up to `N` symbols are decoded.  Returns the filled buffer, the
count `n` and the error. -/
def hRead (root : node) (source : List Nat) (N : Nat) :
    List Nat × Nat × Option rdErr :=
  if source = [] then ([], 0, some .eof)
  else
    ((readLoop root N (toBitStream (source.take N ++ List.replicate (N - source.length) 0))).1
        ++ List.replicate
          (N - (readLoop root N
            (toBitStream (source.take N ++ List.replicate (N - source.length) 0))).1.length) 0,
      (readLoop root N
        (toBitStream (source.take N ++ List.replicate (N - source.length) 0))).1.length,
      (readLoop root N (toBitStream (source.take N ++ List.replicate (N - source.length) 0))).2)

/-! ### Reference (specification-side) definitions

These restate, directly from the spec's wording, what the bit-level
loops are supposed to produce; the theorems below compare the embedded
code against them. -/

/-- The low `k` bits of `b`, least significant first. -/
def lowBits : Nat → Nat → List Nat
  | _, 0 => []
  | b, k + 1 => b % 2 :: lowBits (b / 2) k

/-- All eight bits of a byte, least significant first. -/
def byteBits (b : Nat) : List Nat := lowBits b 8

/-- The bit sequence of a `code`: `len` bits of `path`, least
significant first (exactly what `code.String`, part_001 lines 17-23,
prints). -/
def codeBits (c : code) : List Nat := lowBits c.path c.len

/-- The concatenated code bits of a symbol sequence under table `m`
(meaningful when every symbol is present in `m`). -/
def encodeBits (m : List (Nat × code)) (p : List Nat) : List Nat :=
  p.flatMap (fun v => codeBits ((mapGet m v).getD { path := 0, len := 0 }))

/-- The byte value of up to eight bits, least significant first. -/
def chunkVal (bs : List Nat) : Nat := bs.foldr (fun b acc => b + 2 * acc) 0

/-- One bit of least-significant-bit-first packing: append the bit to
the pending partial byte, sealing it once it holds eight bits. -/
def pbStep (s : List Nat × List Nat) (b : Nat) : List Nat × List Nat :=
  if (s.2 ++ [b]).length = 8 then (s.1 ++ [chunkVal (s.2 ++ [b])], []) else (s.1, s.2 ++ [b])

/-- Packing state (sealed bytes, pending bits) after a bit list. -/
def pbFold (bs : List Nat) : List Nat × List Nat := bs.foldl pbStep ([], [])

/-- Reference packing from the spec: seal full bytes LSB-first and
flush a non-empty partial final byte with its high bits zero. -/
def packBits (bs : List Nat) : List Nat :=
  if (pbFold bs).2 = [] then (pbFold bs).1 else (pbFold bs).1 ++ [chunkVal (pbFold bs).2]

/-- Depth of the deepest leaf of a tree (0 for nil and for a leaf). -/
def treeDepth : node → Nat
  | .nil => 0
  | .mk l r _ _ =>
    if l = node.nil ∧ r = node.nil then 0 else 1 + max (treeDepth l) (treeDepth r)

/-- The result of the `k`-th call (0-based) to a bit-stream closure
started in state `st`. -/
def bsNth (st : BState) : Nat → Option Nat
  | 0 => (bsNext st).map (fun x => x.1)
  | k + 1 =>
    match bsNext st with
    | none => none
    | some (_, st1) => bsNth st1 k

/-- The bits a stream state still holds: the remaining low bits of the
half-consumed front byte, then all bits of the later bytes. -/
def stateBits : BState → List Nat
  | { buf := [], left := _ } => []
  | { buf := b :: rest, left := l } => lowBits b l ++ rest.flatMap byteBits

/-- How many whole symbols sequential decoding from `st` completes
within `k` attempts. -/
def goodCount (root : node) : Nat → BState → Nat
  | 0, _ => 0
  | k + 1, st =>
    match decode root st with
    | .error _ => 0
    | .ok (_, st1) => 1 + goodCount root k st1

/-! ### Trees: leaves, fullness, codes -/

/-- The (value, count) pairs at the leaves of a tree, left to right. -/
def leafPairs : node → List (Nat × Nat)
  | .nil => []
  | .mk l r v c =>
    if l = node.nil ∧ r = node.nil then [(v, c)] else leafPairs l ++ leafPairs r

/-- A tree the builder can produce: every node is a leaf or has two
non-nil children. -/
def isFull : node → Bool
  | .nil => false
  | .mk l r _ _ =>
    if l = node.nil ∧ r = node.nil then true else isFull l && isFull r

/-- The exact root-to-leaf bit paths of a tree: 0 for a left edge, 1
for a right edge, paired with the leaf value. -/
def treeCodes : node → List (Nat × List Nat)
  | .nil => []
  | .mk l r v _ =>
    if l = node.nil ∧ r = node.nil then [(v, [])]
    else (treeCodes l).map (fun e => (e.1, 0 :: e.2))
      ++ (treeCodes r).map (fun e => (e.1, 1 :: e.2))

/-! ### Heap contents: every operation permutes the elements -/

theorem set_getD_cons_perm (t : List node) : ∀ (k : Nat) (a : node), k < t.length →
    List.Perm (t.getD k default :: t.set k a) (a :: t) := by
  induction t with
  | nil => intro k a hk; simp at hk
  | cons x t ih =>
    intro k a hk
    cases k with
    | zero => exact List.Perm.swap a x t
    | succ k =>
      show List.Perm (t.getD k default :: x :: t.set k a) (a :: x :: t)
      have h1 : List.Perm (t.getD k default :: x :: t.set k a)
          (x :: t.getD k default :: t.set k a) := List.Perm.swap x _ _
      have h2 : List.Perm (x :: t.getD k default :: t.set k a) (x :: a :: t) :=
        List.Perm.cons x (ih k a (by simpa using hk))
      have h3 : List.Perm (x :: a :: t) (a :: x :: t) := List.Perm.swap a x t
      exact h1.trans (h2.trans h3)

theorem set_getD_self (t : List node) : ∀ (k : Nat), k < t.length →
    t.set k (t.getD k default) = t := by
  induction t with
  | nil => intro k hk; simp at hk
  | cons x t ih =>
    intro k hk
    cases k with
    | zero => rfl
    | succ k =>
      show x :: t.set k (t.getD k default) = x :: t
      rw [ih k (by simpa using hk)]

theorem hswap_perm_lt : ∀ (h : List node) (i j : Nat), i < j → j < h.length →
    List.Perm (hswap h i j) h := by
  intro h
  induction h with
  | nil => intro i j _ hj; simp at hj
  | cons x t ih =>
    intro i j hij hj
    obtain ⟨k, rfl⟩ : ∃ k, j = k + 1 := ⟨j - 1, by omega⟩
    cases i with
    | zero =>
      show List.Perm (t.getD k default :: t.set k x) (x :: t)
      exact set_getD_cons_perm t k x (by simpa using hj)
    | succ m =>
      show List.Perm (x :: hswap t m k) (x :: t)
      exact List.Perm.cons x (ih m k (by omega) (by simpa using hj))

theorem hswap_perm (h : List node) (i j : Nat) (hij : i ≤ j) (hj : j < h.length) :
    List.Perm (hswap h i j) h := by
  rcases Nat.lt_or_ge i j with hlt | hge
  · exact hswap_perm_lt h i j hlt hj
  · have hij2 : i = j := by omega
    subst hij2
    show List.Perm ((h.set i (h.getD i default)).set i (h.getD i default)) h
    rw [List.set_set, set_getD_self h i hj]

theorem downAux_perm (fuel : Nat) : ∀ (h : List node) (i n : Nat), n ≤ h.length →
    List.Perm (downAux fuel h i n) h := by
  induction fuel with
  | zero => intro h i n _; exact List.Perm.refl h
  | succ fuel ih =>
    intro h i n hn
    rw [downAux]
    split
    · split
      · split
        · rename_i h1 h2 h3
          exact ((ih _ _ n (by rw [hswap_length]; exact hn)).trans
            (hswap_perm h i (2 * i + 2) (by omega) (by omega)))
        · exact List.Perm.refl h
      · split
        · rename_i h1 h2 h3
          exact ((ih _ _ n (by rw [hswap_length]; exact hn)).trans
            (hswap_perm h i (2 * i + 1) (by omega) (by omega)))
        · exact List.Perm.refl h
    · exact List.Perm.refl h

theorem down_perm (h : List node) (i n : Nat) (hn : n ≤ h.length) :
    List.Perm (down h i n) h := downAux_perm _ h i n hn

theorem upAux_perm (fuel : Nat) : ∀ (h : List node) (j : Nat), j < h.length →
    List.Perm (upAux fuel h j) h := by
  induction fuel with
  | zero => intro h j _; exact List.Perm.refl h
  | succ fuel ih =>
    intro h j hj
    rw [upAux]
    split
    · exact List.Perm.refl h
    · rename_i hcond
      have hne : (j - 1) / 2 ≠ j := fun hc => hcond (Or.inl hc)
      exact ((ih _ _ (by rw [hswap_length]; omega)).trans
        (hswap_perm h ((j - 1) / 2) j (by omega) hj))

theorem up_perm (h : List node) (j : Nat) (hj : j < h.length) :
    List.Perm (up h j) h := upAux_perm _ h j hj

theorem initDowns_perm (n : Nat) : ∀ (k : Nat) (h : List node), n ≤ h.length →
    List.Perm (initDowns n h k) h := by
  intro k
  induction k with
  | zero => intro h _; exact List.Perm.refl h
  | succ k ih =>
    intro h hn
    exact (ih (down h k n) (by rw [down_length]; exact hn)).trans (down_perm h k n hn)

theorem initHeap_perm (h : List node) : List.Perm (initHeap h) h :=
  initDowns_perm h.length (h.length / 2) h (le_refl _)

theorem heapPush_perm (h : List node) (x : node) :
    List.Perm (heapPush h x) (x :: h) := by
  have h1 : List.Perm (up (h ++ [x]) h.length) (h ++ [x]) :=
    up_perm (h ++ [x]) h.length (by simp)
  exact h1.trans (List.perm_append_singleton x h)

theorem heapPop_perm (h : List node) (hne : h ≠ []) :
    List.Perm ((heapPop h).1 :: (heapPop h).2) h := by
  have hlen : 1 ≤ h.length := by
    cases h with
    | nil => exact absurd rfl hne
    | cons a t => simp
  have hperm : List.Perm (down (hswap h 0 (h.length - 1)) 0 (h.length - 1)) h := by
    refine (down_perm _ 0 (h.length - 1) (by rw [hswap_length]; omega)).trans ?_
    exact hswap_perm h 0 (h.length - 1) (by omega) (by omega)
  have hlen2 : (down (hswap h 0 (h.length - 1)) 0 (h.length - 1)).length = h.length := by
    rw [down_length, hswap_length]
  have hsplit : (heapPop h).2 ++ [(heapPop h).1]
      = down (hswap h 0 (h.length - 1)) 0 (h.length - 1) := by
    show List.take (h.length - 1) _ ++ [List.getD _ (h.length - 1) default] = _
    rw [List.getD_eq_getElem _ _ (by omega)]
    rw [List.take_concat_get' _ (h.length - 1) (by omega)]
    rw [List.take_of_length_le (by omega)]
  refine List.Perm.trans ?_ hperm
  rw [← hsplit]
  exact (List.perm_append_singleton _ _).symm

/-! ### What the tree builder produces -/

/-- All leaf pairs across a heap. -/
def heapLP (h : List node) : List (Nat × Nat) := h.flatMap leafPairs

theorem heapLP_perm {h1 h2 : List node} (hp : List.Perm h1 h2) :
    List.Perm (heapLP h1) (heapLP h2) := hp.flatMap_right leafPairs

/-- A property preserved by the heap merge is a property of everything
left in the heap after the merge loop. -/
theorem buildLoopAux_forall (P : node → Prop)
    (hmerge : ∀ a b, P a → P b → P (node.mk a b 0 (b.cnt + a.cnt))) :
    ∀ (fuel : Nat) (h : List node), (∀ x ∈ h, P x) →
      ∀ x ∈ buildLoopAux fuel h, P x := by
  intro fuel
  induction fuel with
  | zero => intro h hP; exact hP
  | succ fuel ih =>
    intro h hP
    rw [buildLoopAux]
    split
    · rename_i hlen
      have hne : h ≠ [] := by
        intro hc
        rw [hc] at hlen
        simp at hlen
      have hp1 := heapPop_perm h hne
      have hP1 : P (heapPop h).1 := hP _ (hp1.mem_iff.1 (by simp))
      have hP2 : ∀ x ∈ (heapPop h).2, P x :=
        fun x hx => hP x (hp1.mem_iff.1 (List.mem_cons_of_mem _ hx))
      have hne2 : (heapPop h).2 ≠ [] := by
        have := heapPop_length h
        intro hc
        rw [hc] at this
        simp at this
        omega
      have hp2 := heapPop_perm (heapPop h).2 hne2
      have hP3 : P (heapPop (heapPop h).2).1 := hP2 _ (hp2.mem_iff.1 (by simp))
      have hP4 : ∀ x ∈ (heapPop (heapPop h).2).2, P x :=
        fun x hx => hP2 x (hp2.mem_iff.1 (List.mem_cons_of_mem _ hx))
      refine ih _ ?_
      intro x hx
      have := (heapPush_perm (heapPop (heapPop h).2).2 _).mem_iff.1 hx
      rcases List.mem_cons.1 this with h | h
      · rw [h]
        exact hmerge _ _ hP1 hP3
      · exact hP4 x h
    · exact hP

/-- The merge invariant actually used: heap nodes are non-nil and
full. -/
def goodNode (x : node) : Prop := x ≠ node.nil ∧ isFull x = true

theorem goodNode_merge (a b : node) (ha : goodNode a) (hb : goodNode b) :
    goodNode (node.mk a b 0 (b.cnt + a.cnt)) := by
  refine ⟨by simp, ?_⟩
  rw [isFull]
  rw [if_neg (by intro hc; exact ha.1 hc.1)]
  rw [ha.2, hb.2]
  rfl

theorem leafPairs_merge (a b : node) (ha : a ≠ node.nil) :
    leafPairs (node.mk a b 0 (b.cnt + a.cnt)) = leafPairs a ++ leafPairs b := by
  rw [leafPairs]
  rw [if_neg (by intro hc; exact ha hc.1)]

/-- The merge loop preserves the multiset of leaf pairs. -/
theorem buildLoopAux_lp : ∀ (fuel : Nat) (h : List node), (∀ x ∈ h, goodNode x) →
    List.Perm (heapLP (buildLoopAux fuel h)) (heapLP h) := by
  intro fuel
  induction fuel with
  | zero => intro h _; exact List.Perm.refl _
  | succ fuel ih =>
    intro h hP
    rw [buildLoopAux]
    split
    · rename_i hlen
      have hne : h ≠ [] := by
        intro hc
        rw [hc] at hlen
        simp at hlen
      have hp1 := heapPop_perm h hne
      have hP1 : goodNode (heapPop h).1 := hP _ (hp1.mem_iff.1 (by simp))
      have hP2 : ∀ x ∈ (heapPop h).2, goodNode x :=
        fun x hx => hP x (hp1.mem_iff.1 (List.mem_cons_of_mem _ hx))
      have hne2 : (heapPop h).2 ≠ [] := by
        have := heapPop_length h
        intro hc
        rw [hc] at this
        simp at this
        omega
      have hp2 := heapPop_perm (heapPop h).2 hne2
      have hP3 : goodNode (heapPop (heapPop h).2).1 := hP2 _ (hp2.mem_iff.1 (by simp))
      have hP4 : ∀ x ∈ (heapPop (heapPop h).2).2, goodNode x :=
        fun x hx => hP2 x (hp2.mem_iff.1 (List.mem_cons_of_mem _ hx))
      have hPnew : ∀ x ∈ heapPush (heapPop (heapPop h).2).2
          (node.mk (heapPop h).1 (heapPop (heapPop h).2).1 0
            ((heapPop (heapPop h).2).1.cnt + (heapPop h).1.cnt)), goodNode x := by
        intro x hx
        have := (heapPush_perm _ _).mem_iff.1 hx
        rcases List.mem_cons.1 this with h | h
        · rw [h]
          exact goodNode_merge _ _ hP1 hP3
        · exact hP4 x h
      refine (ih _ hPnew).trans ?_
      have e1 : List.Perm (heapLP (heapPush (heapPop (heapPop h).2).2
            (node.mk (heapPop h).1 (heapPop (heapPop h).2).1 0
              ((heapPop (heapPop h).2).1.cnt + (heapPop h).1.cnt))))
          (leafPairs (heapPop h).1 ++ (leafPairs (heapPop (heapPop h).2).1
            ++ heapLP (heapPop (heapPop h).2).2)) := by
        refine (heapLP_perm (heapPush_perm _ _)).trans ?_
        show List.Perm (leafPairs (node.mk (heapPop h).1 (heapPop (heapPop h).2).1 0
            ((heapPop (heapPop h).2).1.cnt + (heapPop h).1.cnt))
          ++ heapLP (heapPop (heapPop h).2).2) _
        rw [leafPairs_merge _ _ hP1.1, List.append_assoc]
      have e2 : List.Perm (heapLP h)
          (leafPairs (heapPop h).1 ++ (leafPairs (heapPop (heapPop h).2).1
            ++ heapLP (heapPop (heapPop h).2).2)) := by
        refine (heapLP_perm hp1.symm).trans ?_
        show List.Perm (leafPairs (heapPop h).1 ++ heapLP (heapPop h).2) _
        refine List.Perm.append_left _ ?_
        exact (heapLP_perm hp2.symm).trans (List.Perm.refl _)
      exact e1.trans e2.symm
    · exact List.Perm.refl _

theorem buildLoopAux_length_one : ∀ (fuel : Nat) (h : List node),
    h.length ≤ fuel + 1 → 1 ≤ h.length → (buildLoopAux fuel h).length = 1 := by
  intro fuel
  induction fuel with
  | zero =>
    intro h h1 h2
    show h.length = 1
    omega
  | succ fuel ih =>
    intro h h1 h2
    rw [buildLoopAux]
    split
    · rename_i hlen
      refine ih _ ?_ ?_
      · rw [heapPush_length, heapPop_length, heapPop_length]
        omega
      · rw [heapPush_length]
        omega
    · rename_i hlen
      show h.length = 1
      omega

theorem initDowns_length (n : Nat) : ∀ (k : Nat) (h : List node),
    (initDowns n h k).length = h.length := by
  intro k
  induction k with
  | zero => intro h; rfl
  | succ k ih => intro h; rw [initDowns, ih, down_length]

theorem initHeap_length (h : List node) : (initHeap h).length = h.length :=
  initDowns_length _ _ h

theorem heapLP_leaves (cnts : List (Nat × Nat)) :
    heapLP (cnts.map (fun vc => node.mk node.nil node.nil vc.1 vc.2)) = cnts := by
  induction cnts with
  | nil => rfl
  | cons x rest ih =>
    have hstep : heapLP ((x :: rest).map (fun vc => node.mk node.nil node.nil vc.1 vc.2))
        = leafPairs (node.mk node.nil node.nil x.1 x.2)
          ++ heapLP (rest.map (fun vc => node.mk node.nil node.nil vc.1 vc.2)) := by
      rw [List.map_cons, heapLP, List.flatMap_cons]
      rfl
    rw [hstep, ih, leafPairs, if_pos ⟨rfl, rfl⟩]
    rfl

/-- The tree a writer builds from a non-empty distribution: a full
non-nil tree whose leaf pairs are a permutation of the distribution
counts. -/
theorem writerRoot_spec (d : Distribution) (hne : d.cnts ≠ []) :
    List.Perm (leafPairs (writerRoot d)) d.cnts ∧ goodNode (writerRoot d) := by
  have hlen0 : (toHeap d).length = d.cnts.length := by
    rw [toHeap, initHeap_length, List.length_map]
  have hlen1 : 1 ≤ (toHeap d).length := by
    rw [hlen0]
    cases hc : d.cnts with
    | nil => exact absurd hc hne
    | cons a t => simp [hc]
  have hinv : ∀ x ∈ toHeap d, goodNode x := by
    intro x hx
    have := (initHeap_perm _).mem_iff.1 hx
    obtain ⟨vc, _, hvc⟩ := List.mem_map.1 this
    rw [← hvc]
    exact ⟨by simp, rfl⟩
  have hBLlen : (buildLoop (toHeap d)).length = 1 := by
    rw [buildLoop]
    exact buildLoopAux_length_one _ _ (by omega) hlen1
  have hBLne : buildLoop (toHeap d) ≠ [] := by
    intro hc
    rw [hc] at hBLlen
    simp at hBLlen
  have hBLinv : ∀ x ∈ buildLoop (toHeap d), goodNode x :=
    buildLoopAux_forall goodNode goodNode_merge _ _ hinv
  have hBLlp : List.Perm (heapLP (buildLoop (toHeap d))) (heapLP (toHeap d)) :=
    buildLoopAux_lp _ _ hinv
  have hpop := heapPop_perm (buildLoop (toHeap d)) hBLne
  have hpop2nil : (heapPop (buildLoop (toHeap d))).2 = [] := by
    have := heapPop_length (buildLoop (toHeap d))
    rw [hBLlen] at this
    exact List.eq_nil_of_length_eq_zero this
  have hroot : writerRoot d = (heapPop (buildLoop (toHeap d))).1 := by
    rw [writerRoot, buildTree, if_pos hlen1]
  constructor
  · rw [hroot]
    have h1 : List.Perm (heapLP ((heapPop (buildLoop (toHeap d))).1
        :: (heapPop (buildLoop (toHeap d))).2)) (heapLP (buildLoop (toHeap d))) :=
      heapLP_perm hpop
    rw [hpop2nil] at h1
    have h2 : heapLP [(heapPop (buildLoop (toHeap d))).1]
        = leafPairs (heapPop (buildLoop (toHeap d))).1 := by
      show leafPairs _ ++ [] = _
      simp
    rw [h2] at h1
    refine h1.trans (hBLlp.trans ?_)
    rw [toHeap]
    refine (heapLP_perm (initHeap_perm _)).trans ?_
    rw [heapLP_leaves]
  · rw [hroot]
    exact hBLinv _ (hpop.mem_iff.1 (by simp))

/-! ### C4: building from an empty sample -/

theorem newDistribution_foldl_total (bs : List Nat) (d : Distribution) :
    (bs.foldl (fun d v => { cnts := bumpCnt d.cnts v, total := d.total + 1 }) d).total
      = d.total + bs.length := by
  induction bs generalizing d with
  | nil => simp
  | cons v rest ih => simp [ih]; omega

/-- C4 counterexample: `NewDistribution` has no failure path at all; on
the empty sample it returns precisely the `Distribution` with no counts
and total 0, which the claim asserts it must not do. -/
theorem newDistribution_empty_no_error :
    NewDistribution [] = { cnts := [], total := 0 } := rfl

/-- C4 amended: building a distribution never fails; the empty sample
yields empty counts and total 0, and in general the total is the sample
length (the code defines no `EmptyDistributionError`). -/
theorem newDistribution_total_spec :
    (NewDistribution []).cnts = [] ∧
      ∀ bs : List Nat, (NewDistribution bs).total = bs.length := by
  refine ⟨rfl, fun bs => ?_⟩
  have := newDistribution_foldl_total bs { cnts := [], total := 0 }
  simpa [NewDistribution] using this

/-! ### C5: single-symbol alphabet -/

/-- C5 counterexample: the distribution over the single byte 97 maps 97
to a code of length 0, not length at least 1 (the single leaf is never
wrapped). -/
theorem singleton_code_len_zero :
    mapGet (writerMapping (NewDistribution [97])) 97 = some { path := 0, len := 0 } := by
  decide

theorem singleton_writeSyms (s pth : Nat) (T : List Nat) (st : WState)
    (hT : T ≠ []) (hall : ∀ x ∈ T, x = s) :
    writeSyms [(s, { path := pth, len := 0 })] T st = .ok (st.encoded ++ [st.curr]) := by
  induction T generalizing st with
  | nil => exact absurd rfl hT
  | cons x rest ih =>
    have hx : x = s := hall x (by simp)
    subst hx
    cases rest with
    | nil => simp [writeSyms, mapGet, packCodeBits]
    | cons y t =>
      have hstep : writeSyms [(x, { path := pth, len := 0 })] (x :: y :: t) st
          = writeSyms [(x, { path := pth, len := 0 })] (y :: t) st := by
        simp [writeSyms, mapGet, packCodeBits]
      rw [hstep]
      exact ih _ (List.cons_ne_nil y t) (fun z hz => hall z (List.mem_cons_of_mem x hz))

theorem singleton_readLoop (s c : Nat) (N : Nat) (st : BState) :
    readLoop (node.mk node.nil node.nil s c) N st = (List.replicate N s, none) := by
  induction N generalizing st with
  | zero => simp [readLoop]
  | succ k ih => simp [readLoop, decode, List.replicate, ih]

/-- C5 amended: a distribution whose alphabet is exactly one symbol `s`
builds a tree that is that single leaf, assigns `s` the code of length
0 (not ≥ 1), and still round-trips: encoding any non-empty all-`s`
sequence yields the single byte 0, and decoding it back while
requesting `len T` symbols returns exactly `T` with no error. -/
theorem singleton_roundtrip (s c tot : Nat) (T : List Nat)
    (hT : T ≠ []) (hall : ∀ x ∈ T, x = s) :
    writerRoot { cnts := [(s, c)], total := tot } = node.mk node.nil node.nil s c ∧
    mapGet (writerMapping { cnts := [(s, c)], total := tot }) s = some { path := 0, len := 0 } ∧
    hWrite (writerMapping { cnts := [(s, c)], total := tot }) T = .ok [0] ∧
    hRead (writerRoot { cnts := [(s, c)], total := tot }) [0] T.length
      = (T, T.length, none) := by
  have hroot : writerRoot { cnts := [(s, c)], total := tot } = node.mk node.nil node.nil s c := by
    simp [writerRoot, toHeap, initHeap, initDowns, buildTree, buildLoop, buildLoopAux,
      heapPop, hswap, down, downAux]
  have hmap : writerMapping { cnts := [(s, c)], total := tot }
      = [(s, { path := 0, len := 0 })] := by
    rw [writerMapping, hroot]
    simp [getMapping, expandPaths, mupd]
  refine ⟨hroot, ?_, ?_, ?_⟩
  · rw [hmap]; simp [mapGet]
  · rw [hWrite, hmap, singleton_writeSyms s _ T _ hT hall]; rfl
  · rw [hroot, hRead]
    have hne : ([0] : List Nat) ≠ [] := by simp
    have hrep : T = List.replicate T.length s := (List.eq_replicate_iff).2 ⟨rfl, hall⟩
    simp only [if_neg hne, singleton_readLoop]
    rw [← hrep]
    simp

/-! ### C3: unknown symbols abort the write with no output -/

theorem writeSyms_unknown (m : List (Nat × code)) (v : Nat) (p2 : List Nat)
    (hv : mapGet m v = none) :
    ∀ (p1 : List Nat) (st : WState), (∀ x ∈ p1, mapGet m x ≠ none) →
      writeSyms m (p1 ++ v :: p2) st = .error v := by
  intro p1
  induction p1 with
  | nil => intro st _; simp [writeSyms, hv]
  | cons x p1t ih =>
    intro st hknown
    obtain ⟨c, hc⟩ := Option.ne_none_iff_exists'.1 (hknown x (by simp))
    have hne : p1t ++ v :: p2 ≠ [] := by
      cases p1t <;> simp
    have hstep : writeSyms m ((x :: p1t) ++ v :: p2) st
        = writeSyms m (p1t ++ v :: p2) (packCodeBits c.path c.len st false).1 := by
      simp [writeSyms, hc, hne]
    rw [hstep]
    exact ih _ (fun z hz => hknown z (List.mem_cons_of_mem x hz))

/-- C3 confirmed: a `Write` whose input contains a symbol absent from
the code table fails with the error naming the first such symbol
(regardless of how many earlier symbols were known) and passes nothing
to the sink: the call carries no output and the returned count is 0. -/
theorem write_unknown_symbol_aborts (m : List (Nat × code)) (p1 p2 : List Nat) (v : Nat)
    (hknown : ∀ x ∈ p1, mapGet m x ≠ none) (hv : mapGet m v = none) :
    hWrite m (p1 ++ v :: p2) = .error v ∧ hWriteCount m (p1 ++ v :: p2) = 0 := by
  have h := writeSyms_unknown m v p2 hv p1 { encoded := [], curr := 0, left := 8 } hknown
  refine ⟨h, ?_⟩
  simp [hWriteCount, hWrite, h]

theorem write_unknown_symbol_aborts_witness :
    hWrite [(97, { path := 1, len := 1 })] ([97] ++ 98 :: [97]) = .error 98 ∧
      hWriteCount [(97, { path := 1, len := 1 })] ([97] ++ 98 :: [97]) = 0 :=
  write_unknown_symbol_aborts [(97, { path := 1, len := 1 })] [97] [97] 98
    (by decide) (by decide)

theorem singleton_roundtrip_witness :
    ([97, 97] : List Nat) ≠ [] ∧
      writerRoot { cnts := [(97, 3)], total := 3 } = node.mk node.nil node.nil 97 3 ∧
      hWrite (writerMapping { cnts := [(97, 3)], total := 3 }) [97, 97] = .ok [0] ∧
      hRead (writerRoot { cnts := [(97, 3)], total := 3 }) [0] ([97, 97] : List Nat).length
        = ([97, 97], 2, none) := by
  have h := singleton_roundtrip 97 3 3 [97, 97] (by decide) (by decide)
  exact ⟨by decide, h.1, h.2.2.1, h.2.2.2⟩

/-! ### C10: the byte-to-bit stream adapter -/

theorem lowBits_length (b m : Nat) : (lowBits b m).length = m := by
  induction m generalizing b with
  | zero => rfl
  | succ m ih => simp [lowBits, ih]

theorem lowBits_get (m : Nat) : ∀ (b k : Nat),
    (lowBits b m).get? k = if k < m then some (b / 2 ^ k % 2) else none := by
  induction m with
  | zero => intro b k; simp [lowBits]
  | succ m ih =>
    intro b k
    cases k with
    | zero => simp [lowBits]
    | succ k =>
      simp only [lowBits, List.get?_cons_succ, ih (b / 2) k]
      have hdiv : b / 2 / 2 ^ k = b / 2 ^ (k + 1) := by
        rw [Nat.div_div_eq_div_mul, pow_succ, mul_comm 2 (2 ^ k), mul_comm]
      rw [hdiv]
      by_cases hk : k < m
      · rw [if_pos hk, if_pos (by omega)]
      · rw [if_neg hk, if_neg (by omega)]

theorem flatBits_get (input : List Nat) : ∀ k : Nat,
    (input.flatMap byteBits).get? k =
      if k < 8 * input.length then some (input.getD (k / 8) 0 / 2 ^ (k % 8) % 2) else none := by
  induction input with
  | nil => intro k; simp
  | cons b rest ih =>
    intro k
    have hlen : (byteBits b).length = 8 := lowBits_length b 8
    by_cases hk : k < 8
    · rw [List.flatMap_cons, List.get?_append (by omega)]
      rw [byteBits, lowBits_get 8 b k, if_pos hk, if_pos (by simp; omega)]
      have h8 : k / 8 = 0 := Nat.div_eq_of_lt hk
      have h8m : k % 8 = k := Nat.mod_eq_of_lt hk
      rw [h8, h8m]
      rfl
    · push_neg at hk
      rw [List.flatMap_cons, List.get?_append_right (by omega), hlen, ih (k - 8)]
      have hmod : (k - 8) % 8 = k % 8 := by omega
      have hdiv : (k - 8) / 8 + 1 = k / 8 := by omega
      by_cases hr : k - 8 < 8 * rest.length
      · rw [if_pos hr, if_pos (by simp; omega), hmod]
        have : rest.getD ((k - 8) / 8) 0 = (b :: rest).getD (k / 8) 0 := by
          rw [← hdiv]; rfl
        rw [this]
      · rw [if_neg hr, if_neg (by simp; omega)]

theorem stateBits_full (buf : List Nat) : stateBits { buf := buf, left := 8 } = buf.flatMap byteBits := by
  cases buf with
  | nil => rfl
  | cons b rest => rfl

theorem bsNext_step (st : BState) (h1 : 1 ≤ st.left) (h8 : st.left ≤ 8) :
    (bsNext st = none ∧ stateBits st = []) ∨
      (∃ bit st1, bsNext st = some (bit, st1) ∧ stateBits st = bit :: stateBits st1 ∧
        1 ≤ st1.left ∧ st1.left ≤ 8) := by
  obtain ⟨buf, l⟩ := st
  cases buf with
  | nil => left; exact ⟨rfl, rfl⟩
  | cons b rest =>
    right
    simp only at h1 h8
    have hmod : (l + 255) % 256 = l - 1 := by omega
    by_cases hl : l = 1
    · refine ⟨b % 2, { buf := rest, left := 8 }, ?_, ?_, by simp, by simp⟩
      · simp [bsNext, hmod, hl]
      · subst hl
        show lowBits b 1 ++ rest.flatMap byteBits = b % 2 :: stateBits { buf := rest, left := 8 }
        rw [stateBits_full]
        simp [lowBits]
    · refine ⟨b % 2, { buf := b / 2 :: rest, left := (l + 255) % 256 }, ?_, ?_,
        by show 1 ≤ (l + 255) % 256; omega, by show (l + 255) % 256 ≤ 8; omega⟩
      · simp only [bsNext, hmod]
        rw [if_neg (by omega)]
      · show lowBits b l ++ rest.flatMap byteBits = b % 2 :: stateBits _
        obtain ⟨m, rfl⟩ : ∃ m, l = m + 1 := ⟨l - 1, by omega⟩
        show lowBits b (m + 1) ++ _ = _
        rw [lowBits]
        simp only [hmod]
        show b % 2 :: (lowBits (b / 2) m ++ _) = b % 2 :: stateBits { buf := b / 2 :: rest, left := m + 1 - 1 }
        rfl

theorem bsNth_stateBits : ∀ (k : Nat) (st : BState), 1 ≤ st.left → st.left ≤ 8 →
    bsNth st k = (stateBits st).get? k := by
  intro k
  induction k with
  | zero =>
    intro st h1 h8
    rcases bsNext_step st h1 h8 with ⟨hn, hb⟩ | ⟨bit, st1, hn, hb, _, _⟩
    · simp [bsNth, hn, hb]
    · simp [bsNth, hn, hb]
  | succ k ih =>
    intro st h1 h8
    rcases bsNext_step st h1 h8 with ⟨hn, hb⟩ | ⟨bit, st1, hn, hb, g1, g8⟩
    · simp [bsNth, hn, hb]
    · simp only [bsNth, hn, hb, List.get?_cons_succ]
      exact ih st1 g1 g8

/-- C10 confirmed: the stream returned by the bit-stream adapter
(`bits.ToStream` and the identical `toBitStream`) yields, on its `k`-th
call, bit `k % 8` (least significant first) of input byte `k / 8` for
`k < 8·len(input)`, and `io.EOF` (`none`) from call `8·len(input)` on.
The adapter copies the input bytes up front (here: lists are values),
so later mutation of the caller's slice cannot affect the stream. -/
theorem toStream_bits_spec (input : List Nat) (k : Nat) :
    bsNth (toBitStream input) k =
      if k < 8 * input.length then some (input.getD (k / 8) 0 / 2 ^ (k % 8) % 2) else none := by
  rw [bsNth_stateBits k (toBitStream input) (by simp [toBitStream]) (by simp [toBitStream])]
  show (stateBits { buf := input, left := 8 }).get? k = _
  rw [stateBits_full, flatBits_get]

/-! ### C7: what Read returns when the bit source runs out -/

theorem readLoop_length_eq (root : node) : ∀ (k : Nat) (st : BState),
    (readLoop root k st).1.length =
      goodCount root k st +
        (match (readLoop root k st).2 with | none => 0 | some _ => 1) := by
  intro k
  induction k with
  | zero => intro st; rfl
  | succ k ih =>
    intro st
    simp only [readLoop, goodCount]
    cases hd : decode root st with
    | error e => rfl
    | ok v =>
      simp only [List.length_cons, ih v.2]
      omega

theorem readLoop_none_length (root : node) : ∀ (k : Nat) (st : BState),
    (readLoop root k st).2 = none → (readLoop root k st).1.length = k := by
  intro k
  induction k with
  | zero => intro st _; rfl
  | succ k ih =>
    intro st herr
    simp only [readLoop] at herr ⊢
    cases hd : decode root st with
    | error e => rw [hd] at herr; simp at herr
    | ok v =>
      rw [hd] at herr
      simp only at herr
      simp [ih v.2 herr]

/-- C7 amended: the count `Read` returns is the number of fully decoded
symbols, plus one more when a decode attempt fails: the slot of the
incomplete symbol is zero-filled and still counted (`n++` runs after
the failed `decode`).  The code defines no `TruncatedStreamError`: the
only exhaustion signal is `io.EOF`, returned alike whether the bit
source dies mid-symbol or at a symbol boundary with more output
requested; only reaching the requested count ends the call with no
error. -/
theorem read_count_spec (root : node) (source : List Nat) (N : Nat) (hsrc : source ≠ []) :
    (hRead root source N).2.1 =
        goodCount root N (toBitStream (source.take N ++ List.replicate (N - source.length) 0)) +
          (match (hRead root source N).2.2 with | none => 0 | some _ => 1) ∧
      ((hRead root source N).2.2 = none → (hRead root source N).2.1 = N) := by
  simp only [hRead, if_neg hsrc]
  exact ⟨readLoop_length_eq root N _, readLoop_none_length root N _⟩

theorem read_count_spec_witness :
    ([7] : List Nat) ≠ [] ∧
      (hRead (node.mk (node.mk node.nil node.nil 98 1) (node.mk node.nil node.nil 97 3) 0 4)
        [7] 4).2.1 = 4 :=
  ⟨by decide,
    by
      have h := read_count_spec
        (node.mk (node.mk node.nil node.nil 98 1) (node.mk node.nil node.nil 97 3) 0 4)
        [7] 4 (by decide)
      rw [h.1]
      decide⟩

/-- The ten-symbol distribution with counts 1,2,4,...,512: every merge
of the tree builder is forced (all weights and all partial sums are
distinct), and the two rarest symbols end at depth 9. -/
def dDeep : Distribution :=
  { cnts := [(0, 1), (1, 2), (2, 4), (3, 8), (4, 16), (5, 32), (6, 64), (7, 128),
      (8, 256), (9, 512)],
    total := 1023 }

/-- C7 counterexample: reading one symbol of the depth-9 tree from the
one-byte source `[0]` exhausts the bit source strictly mid-symbol (the
lone decode attempt itself fails with `io.EOF`, so zero symbols were
fully decoded), yet the call returns count 1 with `io.EOF` — not a
count of fully decoded symbols, and no `TruncatedStreamError` exists to
be returned. -/
theorem read_counts_incomplete_symbol :
    hRead (writerRoot dDeep) [0] 1 = ([0], 1, some rdErr.eof) ∧
      decode (writerRoot dDeep) (toBitStream [0]) = .error rdErr.eof := by
  constructor
  · rfl
  · rfl

/-! ### Packing lemmas: the Write loop against the reference packer -/

/-- The writer state that corresponds to having packed the bit list
`bs` since the start of the call. -/
def mkSt (bs : List Nat) : WState :=
  { encoded := (pbFold bs).1, curr := chunkVal (pbFold bs).2, left := 8 - (pbFold bs).2.length }

theorem chunkVal_append_bit (r : List Nat) (b : Nat) :
    chunkVal (r ++ [b]) = chunkVal r + b * 2 ^ r.length := by
  induction r with
  | nil => simp [chunkVal]
  | cons x r ih =>
    simp only [chunkVal, List.cons_append, List.foldr_cons] at ih ⊢
    rw [ih, List.length_cons, pow_succ]
    ring

theorem chunkVal_lt (r : List Nat) (hr : ∀ x ∈ r, x ≤ 1) :
    chunkVal r < 2 ^ r.length := by
  induction r with
  | nil => simp [chunkVal]
  | cons x r ih =>
    have hx : x ≤ 1 := hr x (by simp)
    have := ih (fun z hz => hr z (by simp [hz]))
    simp only [chunkVal, List.foldr_cons] at this ⊢
    rw [List.length_cons, pow_succ]
    omega

theorem pbFold_snoc (bs : List Nat) (b : Nat) :
    pbFold (bs ++ [b]) = pbStep (pbFold bs) b := by
  simp [pbFold]

theorem pbFold_rem_lt (bs : List Nat) : (pbFold bs).2.length < 8 := by
  induction bs using List.reverseRecOn with
  | nil => simp [pbFold]
  | append_singleton bs b ih =>
    rw [pbFold_snoc, pbStep]
    split
    · simp
    · rename_i hcond
      simp only [List.length_append, List.length_singleton] at hcond ⊢
      omega

theorem pbFold_rem_bits (bs : List Nat) (hb : ∀ x ∈ bs, x ≤ 1) :
    ∀ x ∈ (pbFold bs).2, x ≤ 1 := by
  induction bs using List.reverseRecOn with
  | nil => simp [pbFold]
  | append_singleton bs b ih =>
    have hb0 : ∀ x ∈ bs, x ≤ 1 := fun x hx => hb x (by simp [hx])
    have hbb : b ≤ 1 := hb b (by simp)
    rw [pbFold_snoc, pbStep]
    split
    · simp
    · intro x hx
      rcases List.mem_append.1 hx with h | h
      · exact ih hb0 x h
      · simp at h; omega

theorem pbFold_fst_mono (xs ys : List Nat) :
    (pbFold xs).1.length ≤ (pbFold (xs ++ ys)).1.length := by
  induction ys using List.reverseRecOn with
  | nil => simp
  | append_singleton ys b ih =>
    rw [← List.append_assoc, pbFold_snoc, pbStep]
    split
    · simp only [List.length_append, List.length_singleton]
      omega
    · exact ih

/-- The inner bit loop is the reference packer: starting from the state
of `bs`, packing the low `len` bits of `p` lands in the state of
`bs ++ lowBits p len`, and the `wrote` flag records whether a byte was
sealed on the way. -/
theorem packCodeBits_spec (len : Nat) : ∀ (p : Nat) (bs : List Nat) (w : Bool),
    (∀ x ∈ bs, x ≤ 1) →
    packCodeBits p len (mkSt bs) w =
      (mkSt (bs ++ lowBits p len),
        w || decide ((pbFold bs).1.length < (pbFold (bs ++ lowBits p len)).1.length)) := by
  induction len with
  | zero =>
    intro p bs w hb
    simp [packCodeBits, lowBits]
  | succ len ih =>
    intro p bs w hb
    have hrem : (pbFold bs).2.length < 8 := pbFold_rem_lt bs
    have hrbits : ∀ x ∈ (pbFold bs).2, x ≤ 1 := pbFold_rem_bits bs hb
    have hcv : chunkVal (pbFold bs).2 < 2 ^ (pbFold bs).2.length := chunkVal_lt _ hrbits
    have hbit : p % 2 ≤ 1 := by omega
    have hb1 : ∀ x ∈ bs ++ [p % 2], x ≤ 1 := by
      intro x hx
      rcases List.mem_append.1 hx with h | h
      · exact hb x h
      · simp at h; omega
    have hbits : bs ++ [p % 2] ++ lowBits (p / 2) len = bs ++ lowBits p (len + 1) := by
      rw [List.append_assoc]
      rfl
    have hpow : (2 : Nat) ^ (pbFold bs).2.length ≤ 128 := by
      calc (2 : Nat) ^ (pbFold bs).2.length ≤ 2 ^ 7 :=
            Nat.pow_le_pow_right (by norm_num) (by omega)
        _ = 128 := by norm_num
    have hmul : p % 2 * 2 ^ (pbFold bs).2.length ≤ 128 := by
      calc p % 2 * 2 ^ (pbFold bs).2.length ≤ 1 * 128 := Nat.mul_le_mul hbit hpow
        _ = 128 := by norm_num
    have hcurr : (if (mkSt bs).left = 8 then ((mkSt bs).curr + p % 2) % 256
        else ((mkSt bs).curr + p % 2 * (2 <<< (8 - (mkSt bs).left - 1) % 256)) % 256)
        = chunkVal ((pbFold bs).2 ++ [p % 2]) := by
      rw [chunkVal_append_bit]
      simp only [mkSt]
      by_cases h0 : (pbFold bs).2.length = 0
      · rw [if_pos (by omega), h0, pow_zero]
        have h1 : chunkVal (pbFold bs).2 = 0 := by
          rw [h0, pow_zero] at hcv; omega
        rw [h1]
        simp
        omega
      · rw [if_neg (by omega)]
        have hq1 : 8 - (8 - (pbFold bs).2.length) - 1 = (pbFold bs).2.length - 1 := by omega
        rw [hq1, Nat.shiftLeft_eq]
        have h2 : (2 : Nat) * 2 ^ ((pbFold bs).2.length - 1) = 2 ^ (pbFold bs).2.length := by
          rw [← pow_succ']
          congr 1
          omega
        have hin : (2 : Nat) ^ (pbFold bs).2.length % 256 = 2 ^ (pbFold bs).2.length :=
          Nat.mod_eq_of_lt (by omega)
        rw [h2, hin, Nat.mod_eq_of_lt (by omega)]
    by_cases hseal : (pbFold bs).2.length = 7
    · have hleft : (mkSt bs).left = 1 := by
        show 8 - (pbFold bs).2.length = 1
        omega
      rw [packCodeBits, if_pos hleft, hcurr]
      have hstep : pbFold (bs ++ [p % 2])
          = ((pbFold bs).1 ++ [chunkVal ((pbFold bs).2 ++ [p % 2])], []) := by
        rw [pbFold_snoc, pbStep, if_pos (by simp [hseal])]
      have hmk : WState.mk ((mkSt bs).encoded ++ [chunkVal ((pbFold bs).2 ++ [p % 2])]) 0 8
          = mkSt (bs ++ [p % 2]) := by
        simp [mkSt, hstep, chunkVal]
      rw [hmk, ih (p / 2) (bs ++ [p % 2]) true hb1, hbits]
      have hmono : (pbFold bs).1.length < (pbFold (bs ++ lowBits p (len + 1))).1.length := by
        have h1 : (pbFold (bs ++ [p % 2])).1.length = (pbFold bs).1.length + 1 := by
          rw [hstep]
          simp
        have h2 := pbFold_fst_mono (bs ++ [p % 2]) (lowBits (p / 2) len)
        rw [hbits] at h2
        omega
      simp [hmono]
    · have hleft : ¬ (mkSt bs).left = 1 := by
        show ¬ 8 - (pbFold bs).2.length = 1
        omega
      rw [packCodeBits, if_neg hleft, hcurr]
      have hstep : pbFold (bs ++ [p % 2])
          = ((pbFold bs).1, (pbFold bs).2 ++ [p % 2]) := by
        rw [pbFold_snoc, pbStep, if_neg (by simp; omega)]
      have hmk : WState.mk (mkSt bs).encoded (chunkVal ((pbFold bs).2 ++ [p % 2]))
          ((mkSt bs).left - 1) = mkSt (bs ++ [p % 2]) := by
        rw [show mkSt (bs ++ [p % 2]) = WState.mk (pbFold (bs ++ [p % 2])).1
            (chunkVal (pbFold (bs ++ [p % 2])).2) (8 - (pbFold (bs ++ [p % 2])).2.length)
          from rfl, hstep]
        show WState.mk (pbFold bs).1 (chunkVal ((pbFold bs).2 ++ [p % 2]))
            (8 - (pbFold bs).2.length - 1)
          = WState.mk (pbFold bs).1 (chunkVal ((pbFold bs).2 ++ [p % 2]))
            (8 - ((pbFold bs).2 ++ [p % 2]).length)
        congr 1
        simp only [List.length_append, List.length_singleton]
        omega
      rw [hmk, ih (p / 2) (bs ++ [p % 2]) w hb1, hbits]
      have hsame : (pbFold (bs ++ [p % 2])).1.length = (pbFold bs).1.length := by
        rw [hstep]
      rw [hsame]

theorem lowBits_le_one (k : Nat) : ∀ (b : Nat), ∀ x ∈ lowBits b k, x ≤ 1 := by
  induction k with
  | zero => intro b x hx; simp [lowBits] at hx
  | succ k ih =>
    intro b x hx
    rcases List.mem_cons.1 hx with h | h
    · omega
    · exact ih (b / 2) x h

theorem lowBits_zero_val (k : Nat) : lowBits 0 k = List.replicate k 0 := by
  induction k with
  | zero => rfl
  | succ k ih => simp [lowBits, ih, List.replicate]

theorem lowBits_chunkVal (r : List Nat) : ∀ (k : Nat), (∀ x ∈ r, x ≤ 1) → r.length ≤ k →
    lowBits (chunkVal r) k = r ++ List.replicate (k - r.length) 0 := by
  induction r with
  | nil => intro k _ _; simp [chunkVal, lowBits_zero_val]
  | cons b r ih =>
    intro k hb hk
    obtain ⟨k, rfl⟩ : ∃ j, k = j + 1 := ⟨k - 1, by simp at hk; omega⟩
    have hb1 : b ≤ 1 := hb b (by simp)
    have hcv : chunkVal (b :: r) = b + 2 * chunkVal r := rfl
    have hmod : (b + 2 * chunkVal r) % 2 = b := by omega
    have hdiv : (b + 2 * chunkVal r) / 2 = chunkVal r := by omega
    rw [lowBits, hcv, hmod, hdiv, ih k (fun z hz => hb z (by simp [hz])) (by simp at hk; omega)]
    simp

theorem flatMap_byteBits_length (l : List Nat) : (l.flatMap byteBits).length = 8 * l.length := by
  induction l with
  | nil => rfl
  | cons b rest ih =>
    rw [List.flatMap_cons, List.length_append, ih]
    rw [byteBits, lowBits_length, List.length_cons]
    ring

/-- The sealed bytes of the packer hold exactly the full eight-bit
chunks of `bs`, and the pending bits are the remainder. -/
theorem pbFold_struct (bs : List Nat) (hb : ∀ x ∈ bs, x ≤ 1) :
    (pbFold bs).1.flatMap byteBits = bs.take (8 * (bs.length / 8)) ∧
      (pbFold bs).2 = bs.drop (8 * (bs.length / 8)) := by
  induction bs using List.reverseRecOn with
  | nil => exact ⟨rfl, rfl⟩
  | append_singleton bs b ih =>
    have hb0 : ∀ x ∈ bs, x ≤ 1 := fun x hx => hb x (by simp [hx])
    have hbb : b ≤ 1 := hb b (by simp)
    obtain ⟨ih1, ih2⟩ := ih hb0
    have hlen2 : (pbFold bs).2.length = bs.length - 8 * (bs.length / 8) := by
      rw [ih2, List.length_drop]
    have hmodlt : bs.length - 8 * (bs.length / 8) = bs.length % 8 := by omega
    rw [pbFold_snoc, pbStep]
    by_cases hseal : ((pbFold bs).2 ++ [b]).length = 8
    · have hq : bs.length % 8 = 7 := by
        simp only [List.length_append, List.length_singleton] at hseal
        omega
      rw [if_pos hseal]
      constructor
      · show ((pbFold bs).1 ++ [chunkVal ((pbFold bs).2 ++ [b])]).flatMap byteBits = _
        rw [List.flatMap_append, ih1]
        have hbits : ∀ x ∈ (pbFold bs).2 ++ [b], x ≤ 1 := by
          intro x hx
          rcases List.mem_append.1 hx with h | h
          · exact pbFold_rem_bits bs hb0 x h
          · simp at h; omega
        have hby : byteBits (chunkVal ((pbFold bs).2 ++ [b]))
            = (pbFold bs).2 ++ [b] := by
          rw [byteBits, lowBits_chunkVal _ 8 hbits (by rw [hseal]), hseal]
          simp
        rw [List.flatMap_singleton, hby, ih2]
        rw [← List.append_assoc, List.take_append_drop]
        have harith : 8 * ((bs.length + 1) / 8) = bs.length + 1 := by omega
        rw [List.length_append, List.length_singleton, harith]
        rw [List.take_of_length_le (by simp)]
      · show ([] : List Nat) = _
        have harith : 8 * ((bs.length + 1) / 8) = bs.length + 1 := by omega
        rw [List.length_append, List.length_singleton, harith]
        rw [List.drop_of_length_le (by simp)]
    · have hq : bs.length % 8 ≠ 7 := by
        simp only [List.length_append, List.length_singleton] at hseal
        omega
      rw [if_neg hseal]
      have harith : 8 * ((bs.length + 1) / 8) = 8 * (bs.length / 8) := by omega
      have hle : 8 * (bs.length / 8) ≤ bs.length := by omega
      constructor
      · show (pbFold bs).1.flatMap byteBits = _
        rw [ih1, List.length_append, List.length_singleton, harith]
        rw [List.take_append_of_le_length hle]
      · show (pbFold bs).2 ++ [b] = _
        rw [ih2, List.length_append, List.length_singleton, harith]
        rw [List.drop_append_of_le_length hle]

theorem pbFold_fst_length (bs : List Nat) (hb : ∀ x ∈ bs, x ≤ 1) :
    (pbFold bs).1.length = bs.length / 8 := by
  have h := (pbFold_struct bs hb).1
  have h8 : 8 * (pbFold bs).1.length = 8 * (bs.length / 8) := by
    rw [← flatMap_byteBits_length, h, List.length_take]
    omega
  omega

theorem pbFold_snd_length (bs : List Nat) (hb : ∀ x ∈ bs, x ≤ 1) :
    (pbFold bs).2.length = bs.length % 8 := by
  rw [(pbFold_struct bs hb).2, List.length_drop]
  omega

theorem packBits_length (bs : List Nat) (hb : ∀ x ∈ bs, x ≤ 1) :
    (packBits bs).length = (bs.length + 7) / 8 := by
  rw [packBits]
  by_cases hrem : (pbFold bs).2 = []
  · rw [if_pos hrem, pbFold_fst_length bs hb]
    have : bs.length % 8 = 0 := by
      rw [← pbFold_snd_length bs hb, hrem]
      rfl
    omega
  · rw [if_neg hrem, List.length_append, List.length_singleton, pbFold_fst_length bs hb]
    have : bs.length % 8 ≠ 0 := by
      intro h0
      apply hrem
      have := pbFold_snd_length bs hb
      rw [h0] at this
      exact List.eq_nil_of_length_eq_zero this
    omega

/-- The packed output carries `bs` followed by zero padding when read
back bit-by-bit. -/
theorem packBits_flat (bs : List Nat) (hb : ∀ x ∈ bs, x ≤ 1) :
    (packBits bs).flatMap byteBits
      = bs ++ List.replicate (8 * (packBits bs).length - bs.length) 0 := by
  have hs := pbFold_struct bs hb
  rw [packBits]
  by_cases hrem : (pbFold bs).2 = []
  · have hq : bs.length % 8 = 0 := by
      rw [← pbFold_snd_length bs hb, hrem]
      rfl
    rw [if_pos hrem, hs.1]
    have harith : 8 * (bs.length / 8) = bs.length := by omega
    rw [harith, List.take_of_length_le (le_refl _), pbFold_fst_length bs hb]
    rw [harith]
    simp
  · have hq : bs.length % 8 ≠ 0 := by
      intro h0
      apply hrem
      have := pbFold_snd_length bs hb
      rw [h0] at this
      exact List.eq_nil_of_length_eq_zero this
    rw [if_neg hrem, List.flatMap_append, hs.1, List.flatMap_singleton]
    have hbits : ∀ x ∈ (pbFold bs).2, x ≤ 1 := pbFold_rem_bits bs hb
    have hlen : (pbFold bs).2.length = bs.length % 8 := pbFold_snd_length bs hb
    have hby : byteBits (chunkVal (pbFold bs).2)
        = (pbFold bs).2 ++ List.replicate (8 - bs.length % 8) 0 := by
      rw [byteBits, lowBits_chunkVal _ 8 hbits (by omega), hlen]
    rw [hby, hs.2, ← List.append_assoc, List.take_append_drop]
    congr 2
    rw [List.length_append, List.length_singleton, pbFold_fst_length bs hb]
    omega

theorem encodeBits_le_one (m : List (Nat × code)) (p : List Nat) :
    ∀ x ∈ encodeBits m p, x ≤ 1 := by
  intro x hx
  rw [encodeBits] at hx
  obtain ⟨v, _, hv⟩ := List.mem_flatMap.1 hx
  exact lowBits_le_one _ _ x hv

theorem encodeBits_append (m : List (Nat × code)) (p q : List Nat) :
    encodeBits m (p ++ q) = encodeBits m p ++ encodeBits m q := by
  simp [encodeBits]

/-- The Write symbol loop against the reference packer: for a known
non-empty input it succeeds, producing the sealed bytes, plus the
pending partial byte exactly when no byte was sealed while packing the
last symbol. -/
theorem writeSyms_spec (m : List (Nat × code)) : ∀ (T bs0 : List Nat),
    T ≠ [] → (∀ x ∈ bs0, x ≤ 1) → (∀ t ∈ T, mapGet m t ≠ none) →
    writeSyms m T (mkSt bs0) =
      .ok (if (pbFold (bs0 ++ encodeBits m T.dropLast)).1.length
              < (pbFold (bs0 ++ encodeBits m T)).1.length
           then (pbFold (bs0 ++ encodeBits m T)).1
           else (pbFold (bs0 ++ encodeBits m T)).1
             ++ [chunkVal (pbFold (bs0 ++ encodeBits m T)).2]) := by
  intro T
  induction T with
  | nil => intro bs0 hT; exact absurd rfl hT
  | cons t T ih =>
    intro bs0 _ hb0 hcov
    obtain ⟨c, hc⟩ := Option.ne_none_iff_exists'.1 (hcov t (by simp))
    have hcb : ∀ x ∈ bs0 ++ codeBits c, x ≤ 1 := by
      intro x hx
      rcases List.mem_append.1 hx with h | h
      · exact hb0 x h
      · exact lowBits_le_one _ _ x h
    have hone : encodeBits m [t] = codeBits c := by
      simp [encodeBits, hc]
    cases T with
    | nil =>
      have hspec := packCodeBits_spec c.len c.path bs0 false hb0
      have hcb2 : codeBits c = lowBits c.path c.len := rfl
      have hnil : encodeBits m ([] : List Nat) = [] := rfl
      rw [writeSyms, hc]
      simp only [if_pos (rfl : ([] : List Nat) = [])]
      rw [hspec]
      simp only [List.dropLast_single, hone, hnil, List.append_nil, Bool.false_or,
        decide_eq_true_eq, mkSt, ← hcb2]
      rw [apply_ite Except.ok]
      simp
    | cons u T2 =>
      have hspec := packCodeBits_spec c.len c.path bs0 false hb0
      have hstep : writeSyms m (t :: u :: T2) (mkSt bs0)
          = writeSyms m (u :: T2) (mkSt (bs0 ++ codeBits c)) := by
        rw [writeSyms, hc]
        simp only [reduceCtorEq, if_neg (List.cons_ne_nil u T2)]
        rw [hspec]
        rfl
      rw [hstep, ih (bs0 ++ codeBits c) (List.cons_ne_nil u T2) hcb
        (fun z hz => hcov z (List.mem_cons_of_mem t hz))]
      have h1 : bs0 ++ codeBits c ++ encodeBits m (u :: T2).dropLast
          = bs0 ++ encodeBits m (t :: u :: T2).dropLast := by
        have : (t :: u :: T2).dropLast = t :: (u :: T2).dropLast := rfl
        rw [this, show encodeBits m (t :: (u :: T2).dropLast)
            = codeBits c ++ encodeBits m (u :: T2).dropLast by simp [encodeBits, hc]]
        rw [List.append_assoc]
      have h2 : bs0 ++ codeBits c ++ encodeBits m (u :: T2)
          = bs0 ++ encodeBits m (t :: u :: T2) := by
        rw [show encodeBits m (t :: u :: T2) = codeBits c ++ encodeBits m (u :: T2) by
          simp [encodeBits, hc]]
        rw [List.append_assoc]
      rw [h1, h2]

/-- Shared helper: under the no-drop conditions, `Write` hands the
sink exactly the reference packing of the concatenated code bits. -/
theorem writeOk_packBits (m : List (Nat × code)) (T : List Nat)
    (hT : T ≠ [])
    (hcov : ∀ t ∈ T, mapGet m t ≠ none)
    (hlen1 : ∀ t ∈ T, 1 ≤ ((mapGet m t).getD { path := 0, len := 0 }).len)
    (hstr : (encodeBits m T).length % 8 = 0 ∨
      (encodeBits m T.dropLast).length / 8 = (encodeBits m T).length / 8) :
    hWrite m T = .ok (packBits (encodeBits m T)) := by
  have hmk0 : ({ encoded := [], curr := 0, left := 8 } : WState) = mkSt [] := rfl
  have hstart : hWrite m T = writeSyms m T (mkSt []) := by
    rw [hWrite, hmk0]
  rw [hstart, writeSyms_spec m T [] hT (by simp) hcov]
  simp only [List.nil_append]
  have hFb : ∀ x ∈ encodeBits m T, x ≤ 1 := encodeBits_le_one m T
  have hBb : ∀ x ∈ encodeBits m T.dropLast, x ≤ 1 := encodeBits_le_one m T.dropLast
  obtain ⟨T0, tl, rfl⟩ : ∃ T0 tl, T = T0 ++ [tl] :=
    ⟨T.dropLast, T.getLast hT, (List.dropLast_append_getLast hT).symm⟩
  obtain ⟨c, hc⟩ := Option.ne_none_iff_exists'.1 (hcov tl (by simp))
  have hdrop : (T0 ++ [tl]).dropLast = T0 := List.dropLast_concat
  have hFB : encodeBits m (T0 ++ [tl]) = encodeBits m T0 ++ codeBits c := by
    rw [encodeBits_append]
    simp [encodeBits, hc]
  have hlast : 1 ≤ (codeBits c).length := by
    have := hlen1 tl (by simp)
    rw [hc] at this
    simp only [Option.getD_some] at this
    rw [codeBits, lowBits_length]
    exact this
  have hBF : (encodeBits m (T0 ++ [tl])).length
      = (encodeBits m T0).length + (codeBits c).length := by
    rw [hFB, List.length_append]
  rw [hdrop] at hstr ⊢
  have hfstB : (pbFold (encodeBits m T0)).1.length = (encodeBits m T0).length / 8 :=
    pbFold_fst_length _ (encodeBits_le_one m T0)
  have hfstF : (pbFold (encodeBits m (T0 ++ [tl]))).1.length
      = (encodeBits m (T0 ++ [tl])).length / 8 :=
    pbFold_fst_length _ hFb
  have hsnd : (pbFold (encodeBits m (T0 ++ [tl]))).2.length
      = (encodeBits m (T0 ++ [tl])).length % 8 :=
    pbFold_snd_length _ hFb
  rw [packBits]
  by_cases hrem : (pbFold (encodeBits m (T0 ++ [tl]))).2 = []
  · have hq : (encodeBits m (T0 ++ [tl])).length % 8 = 0 := by
      rw [← hsnd, hrem]
      rfl
    have hcond : (pbFold (encodeBits m T0)).1.length
        < (pbFold (encodeBits m (T0 ++ [tl]))).1.length := by
      rw [hfstB, hfstF]
      omega
    rw [if_pos hcond, if_pos hrem]
  · have hq : (encodeBits m (T0 ++ [tl])).length % 8 ≠ 0 := by
      intro h0
      apply hrem
      rw [h0] at hsnd
      exact List.eq_nil_of_length_eq_zero hsnd
    have hcond : ¬ (pbFold (encodeBits m T0)).1.length
        < (pbFold (encodeBits m (T0 ++ [tl]))).1.length := by
      rw [hfstB, hfstF]
      rcases hstr with h | h
      · exact absurd h hq
      · omega
    rw [if_neg hcond, if_neg hrem]

/-- C6 counterexample: with sample "aaaabbc" (codes a=1 bit, b=c=2
bits) and input of seven a's then one b — nine code bits in all — the
encoder emits a single byte: the second bit of the final symbol's code
landed in a fresh partial byte that the flush test skipped because a
byte had been sealed during that same symbol, so a code bit is dropped
and the partial final byte is never emitted (the reference packing is
two bytes). -/
theorem write_drops_straddling_bits :
    hWrite (writerMapping (NewDistribution [97, 97, 97, 97, 98, 98, 99]))
        [97, 97, 97, 97, 97, 97, 97, 98] = .ok [127] ∧
      packBits (encodeBits (writerMapping (NewDistribution [97, 97, 97, 97, 98, 98, 99]))
        [97, 97, 97, 97, 97, 97, 97, 98]) = [127, 1] ∧
      (encodeBits (writerMapping (NewDistribution [97, 97, 97, 97, 98, 98, 99]))
        [97, 97, 97, 97, 97, 97, 97, 98]).length = 9 := by
  refine ⟨rfl, rfl, rfl⟩

/-- C6 amended: when the final symbol's code does not straddle an
output byte boundary (it either completes the final byte exactly or
seals no byte at all), the encoder output is exactly the spec's
least-significant-bit-first packing of the concatenated code bits: bit
`k` of the code stream is bit `k % 8` of output byte `k / 8`, no code
bit is dropped (the output holds exactly `ceil(bits/8)` bytes), and the
unused high bits of a partial final byte are zero.  When the last code
does straddle a sealed-byte boundary, the trailing partial byte is
dropped (see the counterexample). -/
theorem write_packs_lsb_first (m : List (Nat × code)) (T : List Nat)
    (hT : T ≠ [])
    (hcov : ∀ t ∈ T, mapGet m t ≠ none)
    (hlen1 : ∀ t ∈ T, 1 ≤ ((mapGet m t).getD { path := 0, len := 0 }).len)
    (hstr : (encodeBits m T).length % 8 = 0 ∨
      (encodeBits m T.dropLast).length / 8 = (encodeBits m T).length / 8) :
    hWrite m T = .ok (packBits (encodeBits m T)) ∧
    (packBits (encodeBits m T)).length = ((encodeBits m T).length + 7) / 8 ∧
    (∀ k, k < (encodeBits m T).length →
      (packBits (encodeBits m T)).getD (k / 8) 0 / 2 ^ (k % 8) % 2
        = (encodeBits m T).getD k 0) ∧
    (∀ k, (encodeBits m T).length ≤ k → k < 8 * (packBits (encodeBits m T)).length →
      (packBits (encodeBits m T)).getD (k / 8) 0 / 2 ^ (k % 8) % 2 = 0) := by
  have hFb : ∀ x ∈ encodeBits m T, x ≤ 1 := encodeBits_le_one m T
  have hplen : (packBits (encodeBits m T)).length = ((encodeBits m T).length + 7) / 8 :=
    packBits_length _ hFb
  have hflat := packBits_flat _ hFb
  have hget := flatBits_get (packBits (encodeBits m T))
  refine ⟨writeOk_packBits m T hT hcov hlen1 hstr, hplen, ?_, ?_⟩
  · intro k hk
    have hk8 : k < 8 * (packBits (encodeBits m T)).length := by
      rw [hplen]
      omega
    have h1 := hget k
    rw [if_pos hk8, hflat, List.get?_append (by omega)] at h1
    have h2 : (encodeBits m T).get? k = some ((encodeBits m T).getD k 0) := by
      rw [List.getD_eq_get? ]
      cases hg : (encodeBits m T).get? k with
      | none =>
        have := List.get?_eq_none.1 hg
        omega
      | some x => rfl
    rw [h2] at h1
    exact (Option.some.inj h1).symm
  · intro k hk1 hk2
    have h1 := hget k
    rw [if_pos hk2, hflat, List.get?_append_right (by omega)] at h1
    have h2 : (List.replicate (8 * (packBits (encodeBits m T)).length
        - (encodeBits m T).length) 0).get? (k - (encodeBits m T).length)
        = some 0 := by
      rw [List.get?_eq_getElem?, List.getElem?_replicate, if_pos (by omega)]
    rw [h2] at h1
    exact (Option.some.inj h1).symm

theorem write_packs_lsb_first_witness :
    hWrite (writerMapping (NewDistribution [97, 97, 97, 98])) [97, 97, 97, 98]
      = .ok (packBits (encodeBits (writerMapping (NewDistribution [97, 97, 97, 98]))
        [97, 97, 97, 98])) :=
  (write_packs_lsb_first (writerMapping (NewDistribution [97, 97, 97, 98])) [97, 97, 97, 98]
    (by decide) (by decide) (by decide) (by decide)).1

/-! ### The code table against the tree paths -/

theorem mapGet_mupd (m : List (Nat × code)) (k : Nat) (v : code) (s : Nat) :
    mapGet (mupd m k v) s = if k = s then some v else mapGet m s := by
  induction m with
  | nil => simp [mupd, mapGet]
  | cons e rest ih =>
    obtain ⟨k0, v0⟩ := e
    rw [mupd]
    by_cases hk : k0 = k
    · rw [if_pos hk]
      subst hk
      by_cases hs : k0 = s
      · subst hs
        simp [mapGet]
      · simp [mapGet, hs]
    · rw [if_neg hk]
      by_cases hs : k0 = s
      · subst hs
        have hks : ¬ k = k0 := fun hc => hk hc.symm
        simp [mapGet, hks]
      · simp [mapGet, hs, ih]

theorem treeCodes_bits : ∀ (t : node) (s : Nat) (bs : List Nat),
    (s, bs) ∈ treeCodes t → ∀ x ∈ bs, x ≤ 1 := by
  intro t
  induction t with
  | nil => intro s bs h; simp [treeCodes] at h
  | mk l r v c ihl ihr =>
    intro s bs h
    rw [treeCodes] at h
    split at h
    · simp at h
      rw [h.2]
      intro x hx
      simp at hx
    · rcases List.mem_append.1 h with h | h
      · obtain ⟨e, he, heq⟩ := List.mem_map.1 h
        intro x hx
        have hbs : bs = 0 :: e.2 := by
          have := congrArg Prod.snd heq
          simpa using this.symm
        rw [hbs] at hx
        rcases List.mem_cons.1 hx with h | h
        · omega
        · exact ihl e.1 e.2 (by simpa using he) x h
      · obtain ⟨e, he, heq⟩ := List.mem_map.1 h
        intro x hx
        have hbs : bs = 1 :: e.2 := by
          have := congrArg Prod.snd heq
          simpa using this.symm
        rw [hbs] at hx
        rcases List.mem_cons.1 hx with h | h
        · omega
        · exact ihr e.1 e.2 (by simpa using he) x h

/-- The root-to-leaf paths of any tree form a prefix-free family. -/
theorem treeCodes_pairwise : ∀ (t : node),
    (treeCodes t).Pairwise
      (fun e1 e2 => ¬ (e1.2 <+: e2.2) ∧ ¬ (e2.2 <+: e1.2)) := by
  intro t
  induction t with
  | nil => exact List.Pairwise.nil
  | mk l r v c ihl ihr =>
    rw [treeCodes]
    split
    · exact List.pairwise_singleton _ _
    · rw [List.pairwise_append]
      refine ⟨?_, ?_, ?_⟩
      · refine List.Pairwise.map _ ?_ ihl
        intro e1 e2 h
        constructor
        · intro hc
          exact h.1 ((List.cons_prefix_cons.1 hc).2)
        · intro hc
          exact h.2 ((List.cons_prefix_cons.1 hc).2)
      · refine List.Pairwise.map _ ?_ ihr
        intro e1 e2 h
        constructor
        · intro hc
          exact h.1 ((List.cons_prefix_cons.1 hc).2)
        · intro hc
          exact h.2 ((List.cons_prefix_cons.1 hc).2)
      · intro e1 h1 e2 h2
        obtain ⟨a1, _, ha1⟩ := List.mem_map.1 h1
        obtain ⟨a2, _, ha2⟩ := List.mem_map.1 h2
        have hb1 : e1.2 = 0 :: a1.2 := by
          have := congrArg Prod.snd ha1
          simpa using this.symm
        have hb2 : e2.2 = 1 :: a2.2 := by
          have := congrArg Prod.snd ha2
          simpa using this.symm
        rw [hb1, hb2]
        constructor
        · intro hc
          exact absurd (List.cons_prefix_cons.1 hc).1 (by norm_num)
        · intro hc
          exact absurd (List.cons_prefix_cons.1 hc).1 (by norm_num)

theorem lowBits_add_high : ∀ (depth path x L : Nat), path < 2 ^ depth →
    lowBits (path + x * 2 ^ depth) (depth + L) = lowBits path depth ++ lowBits x L := by
  intro depth
  induction depth with
  | zero =>
    intro path x L hp
    have hp0 : path = 0 := by omega
    subst hp0
    simp [lowBits]
  | succ depth ih =>
    intro path x L hp
    have hmod : (path + x * 2 ^ (depth + 1)) % 2 = path % 2 := by
      have h2 : x * 2 ^ (depth + 1) = 2 * (x * 2 ^ depth) := by ring
      omega
    have hdiv : (path + x * 2 ^ (depth + 1)) / 2 = path / 2 + x * 2 ^ depth := by
      have h2 : x * 2 ^ (depth + 1) = 2 * (x * 2 ^ depth) := by ring
      omega
    have harith : depth + 1 + L = (depth + L) + 1 := by omega
    rw [harith, lowBits, hmod, hdiv, ih (path / 2) x L (by
      have : path / 2 < 2 ^ depth ↔ path < 2 ^ (depth + 1) := by
        rw [pow_succ]
        omega
      exact this.2 hp)]
    rw [show lowBits path (depth + 1) = path % 2 :: lowBits (path / 2) depth from rfl]
    rfl

/-- A table entry written by `expandPaths` on a byte-representable
subtree is exactly a root path of that subtree. -/
theorem expandPaths_lookup : ∀ (t : node) (path depth : Nat) (m : List (Nat × code))
    (s : Nat) (c : code), isFull t = true → path < 2 ^ depth → depth + treeDepth t ≤ 8 →
    mapGet (expandPaths path depth t m) s = some c →
    (∃ bs, (s, bs) ∈ treeCodes t ∧ c.len = depth + bs.length ∧
      c.path = path + chunkVal bs * 2 ^ depth) ∨ mapGet m s = some c := by
  intro t
  induction t with
  | nil => intro path depth m s c hfull; simp [isFull] at hfull
  | mk l r v cc ihl ihr =>
    intro path depth m s c hfull hp hdep hget
    by_cases hleaf : l = node.nil ∧ r = node.nil
    · rw [expandPaths, if_pos hleaf] at hget
      rw [mapGet_mupd] at hget
      by_cases hvs : v = s
      · rw [if_pos hvs] at hget
        left
        refine ⟨[], ?_, ?_, ?_⟩
        · rw [treeCodes, if_pos hleaf, hvs]
          simp
        · have := Option.some.inj hget
          rw [← this]
          simp [chunkVal]
        · have := Option.some.inj hget
          rw [← this]
          simp [chunkVal]
      · rw [if_neg hvs] at hget
        right
        exact hget
    · have hfl : isFull l = true ∧ isFull r = true := by
        rw [isFull, if_neg hleaf, Bool.and_eq_true] at hfull
        exact hfull
      have hdepth1 : 1 + max (treeDepth l) (treeDepth r) = treeDepth (node.mk l r v cc) := by
        rw [treeDepth, if_neg hleaf]
      have hdl : depth + 1 + treeDepth l ≤ 8 := by omega
      have hdr : depth + 1 + treeDepth r ≤ 8 := by omega
      have hdle7 : depth ≤ 7 := by omega
      have hrp : (if depth = 0 then (path + 1) % 256
          else (path + (2 <<< (depth - 1)) % 256) % 256) = path + 2 ^ depth := by
        by_cases hd0 : depth = 0
        · rw [if_pos hd0]
          subst hd0
          have : path = 0 := by omega
          subst this
          rfl
        · rw [if_neg hd0]
          have hsh : (2 : Nat) <<< (depth - 1) = 2 ^ depth := by
            rw [Nat.shiftLeft_eq]
            rw [show (2 : Nat) * 2 ^ (depth - 1) = 2 ^ (depth - 1 + 1) from (pow_succ 2 (depth - 1)).symm ▸ (by ring)]
            congr 1
            omega
          have hple : (2 : Nat) ^ depth ≤ 128 := by
            calc (2 : Nat) ^ depth ≤ 2 ^ 7 := Nat.pow_le_pow_right (by norm_num) hdle7
              _ = 128 := by norm_num
          have hpb : path + 2 ^ depth < 256 := by
            have : (2 : Nat) ^ depth ≤ 128 := hple
            omega
          have hin : (2 : Nat) ^ depth % 256 = 2 ^ depth := Nat.mod_eq_of_lt (by omega)
          rw [hsh, hin, Nat.mod_eq_of_lt hpb]
      rw [expandPaths, if_neg hleaf, hrp] at hget
      have hpl : path < 2 ^ (depth + 1) := by
        have : (2 : Nat) ^ depth ≤ 2 ^ (depth + 1) := Nat.pow_le_pow_right (by norm_num) (by omega)
        omega
      have hpr : path + 2 ^ depth < 2 ^ (depth + 1) := by
        have : (2 : Nat) ^ (depth + 1) = 2 * 2 ^ depth := by
          rw [pow_succ]
          ring
        omega
      rcases ihr (path + 2 ^ depth) (depth + 1) _ s c hfl.2 hpr hdr hget with
        ⟨bs, hmem, hlen, hpath⟩ | hrest
      · left
        refine ⟨1 :: bs, ?_, ?_, ?_⟩
        · rw [treeCodes, if_neg hleaf]
          refine List.mem_append.2 (Or.inr ?_)
          exact List.mem_map.2 ⟨(s, bs), hmem, rfl⟩
        · rw [hlen]
          simp
          omega
        · rw [hpath]
          have : chunkVal (1 :: bs) = 1 + 2 * chunkVal bs := rfl
          rw [this]
          ring
      · rcases ihl path (depth + 1) m s c hfl.1 hpl hdl hrest with
          ⟨bs, hmem, hlen, hpath⟩ | hm
        · left
          refine ⟨0 :: bs, ?_, ?_, ?_⟩
          · rw [treeCodes, if_neg hleaf]
            refine List.mem_append.2 (Or.inl ?_)
            exact List.mem_map.2 ⟨(s, bs), hmem, rfl⟩
          · rw [hlen]
            simp
            omega
          · rw [hpath]
            have : chunkVal (0 :: bs) = 2 * chunkVal bs := by
              show 0 + 2 * chunkVal bs = 2 * chunkVal bs
              omega
            rw [this]
            ring
        · right
          exact hm

/-- A code read from the writer table of a byte-representable tree is
bit-for-bit a root path of the tree. -/
theorem getMapping_codes (t : node) (hfull : isFull t = true)
    (hdep : treeDepth t ≤ 8) (s : Nat) (c : code)
    (hget : mapGet (getMapping t) s = some c) :
    ∃ bs, (s, bs) ∈ treeCodes t ∧ codeBits c = bs ∧ c.len = bs.length := by
  rcases expandPaths_lookup t 0 0 [] s c hfull (by norm_num) (by omega) hget with
    ⟨bs, hmem, hlen, hpath⟩ | hm
  · refine ⟨bs, hmem, ?_, by omega⟩
    have hbits : ∀ x ∈ bs, x ≤ 1 := treeCodes_bits t s bs hmem
    rw [codeBits, hlen, hpath]
    have h0 : (0 : Nat) + chunkVal bs * 2 ^ 0 = chunkVal bs := by simp
    rw [h0, show (0 : Nat) + bs.length = bs.length from by omega]
    rw [lowBits_chunkVal bs bs.length hbits (le_refl _)]
    simp
  · rw [mapGet] at hm
    exact absurd hm (by simp)

theorem expandPaths_covers : ∀ (t : node) (path depth : Nat) (m : List (Nat × code)) (s : Nat),
    (s ∈ (leafPairs t).map Prod.fst ∨ mapGet m s ≠ none) →
    mapGet (expandPaths path depth t m) s ≠ none := by
  intro t
  induction t with
  | nil =>
    intro path depth m s h
    rcases h with h | h
    · simp [leafPairs] at h
    · exact h
  | mk l r v cc ihl ihr =>
    intro path depth m s h
    by_cases hleaf : l = node.nil ∧ r = node.nil
    · rw [expandPaths, if_pos hleaf, mapGet_mupd]
      by_cases hvs : v = s
      · rw [if_pos hvs]
        simp
      · rw [if_neg hvs]
        rcases h with h | h
        · rw [leafPairs, if_pos hleaf] at h
          simp at h
          exact absurd h.symm hvs
        · exact h
    · rw [expandPaths, if_neg hleaf]
      refine ihr _ _ _ s ?_
      rcases h with h | h
      · rw [leafPairs, if_neg hleaf] at h
        rw [List.map_append] at h
        rcases List.mem_append.1 h with h | h
        · exact Or.inr (ihl _ _ _ s (Or.inl h))
        · exact Or.inl h
      · exact Or.inr (ihl _ _ _ s (Or.inr h))

/-- C8 counterexample: in the ten-symbol powers-of-two distribution
the two depth-9 sibling leaves receive identical `code` values — the
ninth path bit overflowed the `path` byte — so the code of symbol 0 is
a bit-prefix of (indeed equal to) the code of the distinct symbol 1. -/
theorem deep_codes_not_prefix_free :
    mapGet (writerMapping dDeep) 0 = some { path := 0, len := 9 } ∧
      mapGet (writerMapping dDeep) 1 = some { path := 0, len := 9 } ∧
      codeBits { path := 0, len := 9 } <+: codeBits { path := 0, len := 9 } := by
  refine ⟨by decide, by decide, List.prefix_refl _⟩

/-- C8 amended: for every distribution tree all of whose codes fit in
the eight-bit `path` byte (depth at most 8), the derived table is a
prefix code: codes of distinct symbols are never bit-prefixes of one
another.  Deeper trees violate this because the ninth and later path
bits wrap modulo 256 (see the counterexample). -/
theorem prefix_free_shallow (d : Distribution)
    (hdep : treeDepth (writerRoot d) ≤ 8)
    (a b : Nat) (ca cb : code) (hab : a ≠ b)
    (ha : mapGet (writerMapping d) a = some ca)
    (hb : mapGet (writerMapping d) b = some cb) :
    ¬ (codeBits ca <+: codeBits cb) := by
  by_cases hne : d.cnts = []
  · exfalso
    have hroot : writerRoot d = node.nil := by
      rw [writerRoot, buildTree]
      rw [if_neg (by rw [toHeap, initHeap_length, List.length_map, hne]; simp)]
    rw [writerMapping, hroot] at ha
    rw [show getMapping node.nil = [] from rfl] at ha
    rw [mapGet] at ha
    exact absurd ha (by simp)
  · have hspec := writerRoot_spec d hne
    obtain ⟨bsa, hmema, hbitsa, _⟩ :=
      getMapping_codes (writerRoot d) hspec.2.2 hdep a ca ha
    obtain ⟨bsb, hmemb, hbitsb, _⟩ :=
      getMapping_codes (writerRoot d) hspec.2.2 hdep b cb hb
    have hpw := treeCodes_pairwise (writerRoot d)
    have hsym : Symmetric (fun (e1 e2 : Nat × List Nat) =>
        ¬ (e1.2 <+: e2.2) ∧ ¬ (e2.2 <+: e1.2)) := by
      intro x y hxy
      exact ⟨hxy.2, hxy.1⟩
    have hneq : (a, bsa) ≠ (b, bsb) := by
      intro hc
      exact hab (congrArg Prod.fst hc)
    have := List.Pairwise.forall hsym hpw hmema hmemb hneq
    rw [hbitsa, hbitsb]
    exact this.1

theorem prefix_free_shallow_witness :
    ¬ (codeBits { path := 1, len := 1 } <+: codeBits { path := 0, len := 1 }) :=
  prefix_free_shallow (NewDistribution [97, 97, 97, 98]) (by decide) 97 98
    { path := 1, len := 1 } { path := 0, len := 1 } (by decide) (by decide) (by decide)

/-! ### Decoding a packed tree path -/

theorem treeCodes_len_le_depth : ∀ (t : node) (s : Nat) (bs : List Nat),
    (s, bs) ∈ treeCodes t → bs.length ≤ treeDepth t := by
  intro t
  induction t with
  | nil => intro s bs h; simp [treeCodes] at h
  | mk l r v c ihl ihr =>
    intro s bs h
    rw [treeCodes] at h
    rw [treeDepth]
    split at h
    · rename_i hleaf
      rw [if_pos hleaf]
      simp at h
      rw [h.2]
      simp
    · rename_i hleaf
      rw [if_neg hleaf]
      rcases List.mem_append.1 h with h | h
      · obtain ⟨e, he, heq⟩ := List.mem_map.1 h
        have hbs : bs = 0 :: e.2 := by
          have := congrArg Prod.snd heq
          simpa using this.symm
        rw [hbs]
        have := ihl e.1 e.2 (by simpa using he)
        simp only [List.length_cons]
        omega
      · obtain ⟨e, he, heq⟩ := List.mem_map.1 h
        have hbs : bs = 1 :: e.2 := by
          have := congrArg Prod.snd heq
          simpa using this.symm
        rw [hbs]
        have := ihr e.1 e.2 (by simpa using he)
        simp only [List.length_cons]
        omega

theorem treeCodes_ne_nil_of_internal (l r : node) (v c : Nat)
    (hleaf : ¬ (l = node.nil ∧ r = node.nil)) (s : Nat) (bs : List Nat)
    (h : (s, bs) ∈ treeCodes (node.mk l r v c)) : bs ≠ [] := by
  rw [treeCodes, if_neg hleaf] at h
  rcases List.mem_append.1 h with h | h
  · obtain ⟨e, _, heq⟩ := List.mem_map.1 h
    have hbs : bs = 0 :: e.2 := by
      have := congrArg Prod.snd heq
      simpa using this.symm
    rw [hbs]
    simp
  · obtain ⟨e, _, heq⟩ := List.mem_map.1 h
    have hbs : bs = 1 :: e.2 := by
      have := congrArg Prod.snd heq
      simpa using this.symm
    rw [hbs]
    simp

/-- Walking the tree from a stream whose bits start with a root path
of `t` decodes that path's symbol and consumes exactly those bits. -/
theorem decode_treeCode : ∀ (t : node) (s : Nat) (bs : List Nat) (st : BState)
    (rest : List Nat), (s, bs) ∈ treeCodes t → 1 ≤ st.left → st.left ≤ 8 →
    stateBits st = bs ++ rest →
    ∃ st1, decode t st = .ok (s, st1) ∧ stateBits st1 = rest ∧
      1 ≤ st1.left ∧ st1.left ≤ 8 := by
  intro t
  induction t with
  | nil => intro s bs st rest h; simp [treeCodes] at h
  | mk l r v c ihl ihr =>
    intro s bs st rest h h1 h8 hbits
    by_cases hleaf : l = node.nil ∧ r = node.nil
    · rw [treeCodes, if_pos hleaf] at h
      simp at h
      obtain ⟨hs, hbs⟩ := h
      subst hs
      subst hbs
      refine ⟨st, ?_, by simpa using hbits, h1, h8⟩
      rw [decode, if_pos hleaf]
    · rw [treeCodes, if_neg hleaf] at h
      rcases List.mem_append.1 h with hmem | hmem
      · obtain ⟨e, he, heq⟩ := List.mem_map.1 hmem
        obtain ⟨hfst, hsnd⟩ : e.1 = s ∧ (0 : Nat) :: e.2 = bs := by
          constructor
          · exact congrArg Prod.fst heq
          · exact congrArg Prod.snd heq
        rw [← hsnd] at hbits
        rcases bsNext_step st h1 h8 with ⟨_, hemp⟩ | ⟨bit, st1, hnx, hst, g1, g8⟩
        · rw [hemp] at hbits
          exact absurd hbits.symm (by simp)
        · rw [hst] at hbits
          have hbit : bit = 0 := (List.cons.injEq _ _ _ _ ▸ hbits).1
          have htail : stateBits st1 = e.2 ++ rest := (List.cons.injEq _ _ _ _ ▸ hbits).2
          obtain ⟨st2, hdec, hrest, k1, k8⟩ :=
            ihl e.1 e.2 st1 rest (by exact (Prod.mk.eta (p := e)) ▸ he) g1 g8 htail
          refine ⟨st2, ?_, hrest, k1, k8⟩
          rw [decode, if_neg hleaf, hnx]
          show (if bit = 0 then decode l st1 else decode r st1) = Except.ok (s, st2)
          rw [hbit, if_pos rfl, hdec, hfst]
      · obtain ⟨e, he, heq⟩ := List.mem_map.1 hmem
        obtain ⟨hfst, hsnd⟩ : e.1 = s ∧ (1 : Nat) :: e.2 = bs := by
          constructor
          · exact congrArg Prod.fst heq
          · exact congrArg Prod.snd heq
        rw [← hsnd] at hbits
        rcases bsNext_step st h1 h8 with ⟨_, hemp⟩ | ⟨bit, st1, hnx, hst, g1, g8⟩
        · rw [hemp] at hbits
          exact absurd hbits.symm (by simp)
        · rw [hst] at hbits
          have hbit : bit = 1 := (List.cons.injEq _ _ _ _ ▸ hbits).1
          have htail : stateBits st1 = e.2 ++ rest := (List.cons.injEq _ _ _ _ ▸ hbits).2
          obtain ⟨st2, hdec, hrest, k1, k8⟩ :=
            ihr e.1 e.2 st1 rest (by exact (Prod.mk.eta (p := e)) ▸ he) g1 g8 htail
          refine ⟨st2, ?_, hrest, k1, k8⟩
          rw [decode, if_neg hleaf, hnx]
          show (if bit = 0 then decode l st1 else decode r st1) = Except.ok (s, st2)
          rw [hbit, if_neg (by norm_num), hdec, hfst]

/-- The Read loop recovers the encoded symbols when the stream starts
with their concatenated tree paths. -/
theorem readLoop_roundtrip (root : node) (m : List (Nat × code)) :
    ∀ (T : List Nat) (st : BState) (rest : List Nat),
    (∀ x ∈ T, ∃ cx bs, mapGet m x = some cx ∧ (x, bs) ∈ treeCodes root ∧ codeBits cx = bs) →
    1 ≤ st.left → st.left ≤ 8 →
    stateBits st = encodeBits m T ++ rest →
    readLoop root T.length st = (T, none) := by
  intro T
  induction T with
  | nil => intro st rest _ _ _ _; rfl
  | cons t T ih =>
    intro st rest hm h1 h8 hbits
    obtain ⟨ct, bst, hget, hmem, hcb⟩ := hm t (by simp)
    have hsplit : stateBits st = bst ++ (encodeBits m T ++ rest) := by
      rw [hbits]
      have : encodeBits m (t :: T) = codeBits ct ++ encodeBits m T := by
        simp [encodeBits, hget]
      rw [this, hcb, List.append_assoc]
    obtain ⟨st1, hdec, hrest, k1, k8⟩ :=
      decode_treeCode root t bst st (encodeBits m T ++ rest) hmem h1 h8 hsplit
    show readLoop root (T.length + 1) st = (t :: T, none)
    rw [readLoop, hdec]
    show (t :: (readLoop root T.length st1).1, (readLoop root T.length st1).2) = (t :: T, none)
    rw [ih st1 rest (fun z hz => hm z (by simp [hz])) k1 k8 hrest]

theorem encodeBits_length_le (m : List (Nat × code)) : ∀ (T : List Nat),
    (∀ x ∈ T, ((mapGet m x).getD { path := 0, len := 0 }).len ≤ 8) →
    (encodeBits m T).length ≤ 8 * T.length := by
  intro T
  induction T with
  | nil => intro _; simp [encodeBits]
  | cons t T ih =>
    intro hb
    have hstep : encodeBits m (t :: T)
        = codeBits ((mapGet m t).getD { path := 0, len := 0 }) ++ encodeBits m T := by
      simp [encodeBits]
    rw [hstep, List.length_append]
    have h1 : (codeBits ((mapGet m t).getD { path := 0, len := 0 })).length ≤ 8 := by
      rw [codeBits, lowBits_length]
      exact hb t (by simp)
    have h2 := ih (fun z hz => hb z (by simp [hz]))
    simp only [List.length_cons]
    omega

theorem flatMap_byteBits_replicate (k : Nat) :
    (List.replicate k 0).flatMap byteBits = List.replicate (8 * k) 0 := by
  induction k with
  | zero => rfl
  | succ k ih =>
    rw [List.replicate_succ, List.flatMap_cons, ih]
    rw [byteBits, lowBits_zero_val]
    rw [← List.replicate_add]
    congr 1
    omega

theorem mem_bumpCnt_keys (v s : Nat) : ∀ (m : List (Nat × Nat)),
    (s ∈ (bumpCnt m v).map Prod.fst ↔ s ∈ m.map Prod.fst ∨ s = v) := by
  intro m
  induction m with
  | nil => simp [bumpCnt]
  | cons e rest ih =>
    obtain ⟨k0, c0⟩ := e
    rw [bumpCnt]
    by_cases hk : k0 = v
    · rw [if_pos hk]
      subst hk
      simp
      tauto
    · rw [if_neg hk]
      simp only [List.map_cons, List.mem_cons]
      rw [ih]
      tauto

theorem newDistribution_mem_keys (bs : List Nat) (s : Nat) :
    ∀ (d0 : Distribution),
    (s ∈ ((bs.foldl (fun d v => { cnts := bumpCnt d.cnts v, total := d.total + 1 }) d0).cnts).map
        Prod.fst
      ↔ s ∈ d0.cnts.map Prod.fst ∨ s ∈ bs) := by
  induction bs with
  | nil => intro d0; simp
  | cons v rest ih =>
    intro d0
    rw [List.foldl_cons, ih]
    rw [show ({ cnts := bumpCnt d0.cnts v, total := d0.total + 1 } : Distribution).cnts
      = bumpCnt d0.cnts v from rfl]
    rw [mem_bumpCnt_keys]
    simp
    tauto

theorem newDistribution_keys (S : List Nat) (s : Nat) :
    s ∈ ((NewDistribution S).cnts).map Prod.fst ↔ s ∈ S := by
  rw [NewDistribution, newDistribution_mem_keys]
  simp

/-- Shared helper: the full encode/decode round trip over an arbitrary
non-empty distribution, for a non-empty input covered by the
distribution, when the tree fits the 8-bit path byte and the last
symbol's code does not straddle a sealed byte. -/
theorem roundtrip_d (d : Distribution) (T : List Nat)
    (hT : T ≠ [])
    (hkeys : ∀ t ∈ T, t ∈ (d.cnts).map Prod.fst)
    (hne : d.cnts ≠ [])
    (hdep : treeDepth (writerRoot d) ≤ 8)
    (hstr : (encodeBits (writerMapping d) T).length % 8 = 0 ∨
      (encodeBits (writerMapping d) T.dropLast).length / 8
        = (encodeBits (writerMapping d) T).length / 8) :
    ∃ bs, hWrite (writerMapping d) T = .ok bs ∧
      hRead (writerRoot d) bs T.length = (T, T.length, none) := by
  obtain ⟨hperm, hnil, hfull⟩ := writerRoot_spec d hne
  have hlp : ∀ t ∈ T, t ∈ (leafPairs (writerRoot d)).map Prod.fst := by
    intro t ht
    exact ((hperm.map Prod.fst).mem_iff).2 (hkeys t ht)
  have hcov : ∀ t ∈ T, mapGet (writerMapping d) t ≠ none := by
    intro t ht
    rw [writerMapping, getMapping]
    exact expandPaths_covers (writerRoot d) 0 0 [] t (Or.inl (hlp t ht))
  have htc : ∀ t ∈ T, ∃ c bs, mapGet (writerMapping d) t = some c ∧
      (t, bs) ∈ treeCodes (writerRoot d) ∧ codeBits c = bs ∧ c.len = bs.length := by
    intro t ht
    obtain ⟨c, hc⟩ := Option.ne_none_iff_exists'.1 (hcov t ht)
    obtain ⟨bs, hmem, hcb, hlen⟩ := getMapping_codes (writerRoot d) hfull hdep t c
      (by rw [writerMapping] at hc; exact hc)
    exact ⟨c, bs, hc, hmem, hcb, hlen⟩
  obtain ⟨l, r, v, cn, hrn⟩ : ∃ l r v cn, writerRoot d = node.mk l r v cn := by
    cases hq : writerRoot d with
    | nil => exact absurd hq hnil
    | mk a b x y => exact ⟨a, b, x, y, rfl⟩
  by_cases hleaf : l = node.nil ∧ r = node.nil
  · obtain ⟨hl, hr⟩ := hleaf
    subst hl
    subst hr
    have hlp1 : leafPairs (writerRoot d) = [(v, cn)] := by
      rw [hrn, leafPairs, if_pos ⟨rfl, rfl⟩]
    have hcnts : d.cnts = [(v, cn)] := by
      rw [hlp1] at hperm
      exact List.perm_singleton.1 hperm.symm
    have hall : ∀ x ∈ T, x = v := by
      intro x hx
      have := hkeys x hx
      rw [hcnts] at this
      simpa using this
    have hmapd : writerMapping d = [(v, { path := 0, len := 0 })] := by
      rw [writerMapping, hrn]
      simp [getMapping, expandPaths, mupd]
    refine ⟨[0], ?_, ?_⟩
    · rw [hWrite, hmapd, singleton_writeSyms v 0 T _ hT hall]
      rfl
    · rw [hrn, hRead]
      have hne0 : ([0] : List Nat) ≠ [] := by simp
      have hrep : T = List.replicate T.length v := (List.eq_replicate_iff).2 ⟨rfl, hall⟩
      simp only [if_neg hne0, singleton_readLoop]
      rw [← hrep]
      simp
  · have hlen1 : ∀ t ∈ T,
        1 ≤ ((mapGet (writerMapping d) t).getD { path := 0, len := 0 }).len := by
      intro t ht
      obtain ⟨c, bs, hc, hmem, hcb, hlen⟩ := htc t ht
      rw [hc]
      simp only [Option.getD_some]
      rw [hlen]
      have hbne : bs ≠ [] := by
        apply treeCodes_ne_nil_of_internal l r v cn hleaf t bs
        rw [← hrn]
        exact hmem
      cases bs with
      | nil => exact absurd rfl hbne
      | cons a u => simp
    have hwr := writeOk_packBits (writerMapping d) T hT hcov hlen1 hstr
    refine ⟨packBits (encodeBits (writerMapping d) T), hwr, ?_⟩
    have hFb := encodeBits_le_one (writerMapping d) T
    have hlen8 : ∀ t ∈ T,
        ((mapGet (writerMapping d) t).getD { path := 0, len := 0 }).len ≤ 8 := by
      intro t ht
      obtain ⟨c, bs, hc, hmem, hcb, hlen⟩ := htc t ht
      rw [hc]
      simp only [Option.getD_some]
      rw [hlen]
      calc bs.length ≤ treeDepth (writerRoot d) := treeCodes_len_le_depth _ t bs hmem
        _ ≤ 8 := hdep
    have hFle : (encodeBits (writerMapping d) T).length ≤ 8 * T.length :=
      encodeBits_length_le (writerMapping d) T hlen8
    have hF1 : 1 ≤ (encodeBits (writerMapping d) T).length := by
      cases T with
      | nil => exact absurd rfl hT
      | cons t0 tt =>
        have h0 := hlen1 t0 (by simp)
        have hsplit : encodeBits (writerMapping d) (t0 :: tt)
            = codeBits ((mapGet (writerMapping d) t0).getD { path := 0, len := 0 })
              ++ encodeBits (writerMapping d) tt := by
          simp [encodeBits]
        rw [hsplit, List.length_append, codeBits, lowBits_length]
        omega
    have hpbl : (packBits (encodeBits (writerMapping d) T)).length
        = ((encodeBits (writerMapping d) T).length + 7) / 8 :=
      packBits_length _ hFb
    have hNle : (packBits (encodeBits (writerMapping d) T)).length ≤ T.length := by
      rw [hpbl]
      omega
    have hpbne : packBits (encodeBits (writerMapping d) T) ≠ [] := by
      intro hcn
      rw [hcn] at hpbl
      simp at hpbl
      omega
    have htake : (packBits (encodeBits (writerMapping d) T)).take T.length
        = packBits (encodeBits (writerMapping d) T) := List.take_of_length_le hNle
    have hsb : stateBits (toBitStream
          ((packBits (encodeBits (writerMapping d) T)).take T.length
            ++ List.replicate (T.length - (packBits (encodeBits (writerMapping d) T)).length) 0))
        = encodeBits (writerMapping d) T
          ++ (List.replicate
                (8 * (packBits (encodeBits (writerMapping d) T)).length
                  - (encodeBits (writerMapping d) T).length) 0
              ++ List.replicate
                (8 * (T.length - (packBits (encodeBits (writerMapping d) T)).length)) 0) := by
      rw [toBitStream, stateBits_full, htake, List.flatMap_append,
        packBits_flat _ hFb, flatMap_byteBits_replicate, List.append_assoc]
    have hrl := readLoop_roundtrip (writerRoot d) (writerMapping d) T
      (toBitStream ((packBits (encodeBits (writerMapping d) T)).take T.length
        ++ List.replicate (T.length - (packBits (encodeBits (writerMapping d) T)).length) 0))
      (List.replicate
          (8 * (packBits (encodeBits (writerMapping d) T)).length
            - (encodeBits (writerMapping d) T).length) 0
        ++ List.replicate
          (8 * (T.length - (packBits (encodeBits (writerMapping d) T)).length)) 0)
      (fun x hx => by
        obtain ⟨c, bs, hc, hmem, hcb, _⟩ := htc x hx
        exact ⟨c, bs, hc, hmem, hcb⟩)
      (by norm_num [toBitStream]) (by norm_num [toBitStream]) hsb
    rw [hRead, if_neg hpbne, hrl]
    simp

/-- C1 counterexample: over the sample `aaaabbc` (codes a=0 len 1,
b=11 len 2, c=01 len 2) the input `aaaaaaab` (7 a's then b) encodes
to 9 bits; the last code seals the first byte and straddles into a
second byte that `Write` silently drops, so only `[127]` reaches the
sink, and decoding it back while requesting 8 symbols returns
`aaaaaaac` — not the original sequence — with no error. -/
theorem roundtrip_fails_on_straddle :
    hWrite (writerMapping (NewDistribution [97, 97, 97, 97, 98, 98, 99]))
        [97, 97, 97, 97, 97, 97, 97, 98] = .ok [127] ∧
    hRead (writerRoot (NewDistribution [97, 97, 97, 97, 98, 98, 99])) [127] 8
      = ([97, 97, 97, 97, 97, 97, 97, 99], 8, none) ∧
    ([97, 97, 97, 97, 97, 97, 97, 99] : List Nat) ≠ [97, 97, 97, 97, 97, 97, 97, 98] ∧
    (∀ t ∈ ([97, 97, 97, 97, 97, 97, 97, 98] : List Nat),
      t ∈ ([97, 97, 97, 97, 98, 98, 99] : List Nat)) := by
  refine ⟨rfl, rfl, by decide, by decide⟩

/-- C1 (amended): the round trip does hold under two extra conditions
the spec omits: the tree depth is at most 8 (otherwise the byte-wrapped
paths are not faithful, see the C8 analysis) and the last symbol's code
does not straddle a sealed byte boundary (otherwise `Write` drops the
trailing partial byte, see the C6 analysis).  Then encoding a
non-empty covered sequence `T` succeeds and decoding the emitted
bytes, requesting `len T` symbols, returns exactly `T` with count
`len T` and no error. -/
theorem encode_decode_roundtrip (S T : List Nat)
    (hT : T ≠ [])
    (hScov : ∀ t ∈ T, t ∈ S)
    (hdep : treeDepth (writerRoot (NewDistribution S)) ≤ 8)
    (hstr : (encodeBits (writerMapping (NewDistribution S)) T).length % 8 = 0 ∨
      (encodeBits (writerMapping (NewDistribution S)) T.dropLast).length / 8
        = (encodeBits (writerMapping (NewDistribution S)) T).length / 8) :
    ∃ bs, hWrite (writerMapping (NewDistribution S)) T = .ok bs ∧
      hRead (writerRoot (NewDistribution S)) bs T.length = (T, T.length, none) := by
  have hkeys : ∀ t ∈ T, t ∈ ((NewDistribution S).cnts).map Prod.fst := by
    intro t ht
    exact (newDistribution_keys S t).2 (hScov t ht)
  have hne : (NewDistribution S).cnts ≠ [] := by
    cases T with
    | nil => exact absurd rfl hT
    | cons t0 tt =>
      intro hc
      have := hkeys t0 (by simp)
      rw [hc] at this
      simp at this
  exact roundtrip_d (NewDistribution S) T hT hkeys hne hdep hstr

theorem encode_decode_roundtrip_witness :
    ∃ bs, hWrite (writerMapping (NewDistribution [97, 97, 97, 98])) [97, 98] = .ok bs ∧
      hRead (writerRoot (NewDistribution [97, 97, 97, 98])) bs 2 = ([97, 98], 2, none) :=
  encode_decode_roundtrip [97, 97, 97, 98] [97, 98] (by decide) (by decide) (by decide)
    (by decide)

/-! ### C2: the count returned by Write -/

/-- C2 amended: on success the count `Write` returns is the
underlying sink's count for the packed bytes — the number of encoded
output bytes, `ceil(total code bits / 8)` under the no-drop conditions
— not the number of input symbols consumed. -/
theorem write_count_eq_packed_bytes (m : List (Nat × code)) (T : List Nat)
    (hT : T ≠ [])
    (hcov : ∀ t ∈ T, mapGet m t ≠ none)
    (hlen1 : ∀ t ∈ T, 1 ≤ ((mapGet m t).getD { path := 0, len := 0 }).len)
    (hstr : (encodeBits m T).length % 8 = 0 ∨
      (encodeBits m T.dropLast).length / 8 = (encodeBits m T).length / 8) :
    hWriteCount m T = ((encodeBits m T).length + 7) / 8 := by
  have h := writeOk_packBits m T hT hcov hlen1 hstr
  rw [hWriteCount, h]
  exact packBits_length _ (encodeBits_le_one m T)

theorem write_count_eq_packed_bytes_witness :
    hWriteCount (writerMapping (NewDistribution [97, 97, 97, 98])) [97, 97, 97, 98]
      = ((encodeBits (writerMapping (NewDistribution [97, 97, 97, 98]))
        [97, 97, 97, 98]).length + 7) / 8 :=
  write_count_eq_packed_bytes (writerMapping (NewDistribution [97, 97, 97, 98]))
    [97, 97, 97, 98] (by decide) (by decide) (by decide) (by decide)

/-- C2 counterexample: for the sample and input "aaab" the write
succeeds but returns 1 (the byte count the underlying sink reported for
the single packed byte), not `len(p) = 4`. -/
theorem write_count_ne_input_length :
    hWriteCount (writerMapping (NewDistribution [97, 97, 97, 98])) [97, 97, 97, 98] = 1 ∧
      ([97, 97, 97, 98] : List Nat).length = 4 := by
  constructor
  · rfl
  · rfl

/-! ### C9: optimality of the built code lengths

The development below settles the optimality claim in three parts: a
rearrangement bound for weighted sums of pair lists, the Kraft
inequality for prefix-free bit strings, and the greedy lower bound
`huff_lb` showing the two-smallest-merge recurrence is optimal among
all Kraft length assignments; then the heap is verified to pop minima
so that `buildTree` realizes that recurrence. -/

/-- The leaves of a tree, as `((val, cnt), depth)` records in traversal
order. -/
def leafRecs : node → List ((Nat × Nat) × Nat)
  | .nil => []
  | .mk l r v c =>
    if l = node.nil ∧ r = node.nil then [((v, c), 0)]
    else (leafRecs l).map (fun p => (p.1, p.2 + 1))
      ++ (leafRecs r).map (fun p => (p.1, p.2 + 1))

/-- Weighted path length of a tree: Σ leaf cnt × leaf depth. -/
def cost (t : node) : Nat := ((leafRecs t).map (fun p => p.1.2 * p.2)).sum

/-- The Huffman merge recurrence over an ascending-sorted weight list:
repeatedly merge the two smallest, charging their sum.  The recursion
consumes one list entry per step, so `length` fuel suffices and the
wrapper passes exactly that. -/
def huffSumAux : Nat → List Nat → Nat
  | 0, _ => 0
  | _ + 1, [] => 0
  | _ + 1, [_] => 0
  | fuel + 1, a :: b :: rest =>
    (a + b) + huffSumAux fuel (List.orderedInsert (· ≤ ·) (a + b) rest)

/-- The optimal (Huffman) total cost of merging the multiset `ws`. -/
def huffSum (ws : List Nat) : Nat :=
  huffSumAux ws.length (List.insertionSort (· ≤ ·) ws)

/-- Weighted cost of a `(weight, length)` assignment. -/
def wcost (wls : List (Nat × Nat)) : Nat := (wls.map (fun p => p.1 * p.2)).sum

theorem wcost_perm (a b : List (Nat × Nat)) (h : a.Perm b) : wcost a = wcost b :=
  (h.map _).sum_eq

theorem mul_exchange (w1 wb la lm : Nat) (hw : w1 ≤ wb) (hl : la ≤ lm) :
    w1 * lm + wb * la ≤ w1 * la + wb * lm := by
  obtain ⟨c, rfl⟩ : ∃ c, wb = w1 + c := ⟨wb - w1, by omega⟩
  obtain ⟨e, rfl⟩ : ∃ e, lm = la + e := ⟨lm - la, by omega⟩
  have h : w1 * (la + e) + (w1 + c) * la + c * e = w1 * la + (w1 + c) * (la + e) := by
    ring
  calc w1 * (la + e) + (w1 + c) * la
      ≤ w1 * (la + e) + (w1 + c) * la + c * e := Nat.le_add_right _ _
    _ = w1 * la + (w1 + c) * (la + e) := h

/-- Rearrangement bound: pairing ascending weights with descending
lengths minimizes the weighted cost among all pairings of the same two
multisets. -/
theorem wcost_sorted_le : ∀ (wlsS wls : List (Nat × Nat)),
    (wls.map Prod.fst).Perm (wlsS.map Prod.fst) →
    (wls.map Prod.snd).Perm (wlsS.map Prod.snd) →
    List.Sorted (· ≤ ·) (wlsS.map Prod.fst) →
    List.Sorted (fun a b => b ≤ a) (wlsS.map Prod.snd) →
    wcost wlsS ≤ wcost wls := by
  intro wlsS
  induction wlsS with
  | nil => intro wls _ _ _ _; exact Nat.zero_le _
  | cons hd restS ih =>
    intro wls hpf hps hsf hss
    obtain ⟨w1, lm⟩ := hd
    simp only [List.map_cons] at hpf hps hsf hss
    have hw1mem : w1 ∈ wls.map Prod.fst := hpf.mem_iff.2 (by simp)
    obtain ⟨p, hpmem, hp1⟩ := List.mem_map.1 hw1mem
    have hmin : ∀ x ∈ wls.map Prod.fst, w1 ≤ x := by
      intro x hx
      rcases List.mem_cons.1 (hpf.mem_iff.1 hx) with h | h
      · omega
      · exact (List.sorted_cons.1 hsf).1 x h
    have hmax : ∀ y ∈ wls.map Prod.snd, y ≤ lm := by
      intro y hy
      rcases List.mem_cons.1 (hps.mem_iff.1 hy) with h | h
      · omega
      · exact (List.sorted_cons.1 hss).1 y h
    obtain ⟨X, hX⟩ : ∃ X, wls.Perm (p :: X) := ⟨_, List.perm_cons_erase hpmem⟩
    by_cases hla : p.2 = lm
    · have hcw : wcost wls = w1 * lm + wcost X := by
        rw [wcost_perm _ _ hX]
        simp [wcost, hp1, hla]
      have hf1 : (X.map Prod.fst).Perm (restS.map Prod.fst) := by
        have h2 := (hX.map Prod.fst).symm.trans hpf
        rw [List.map_cons, hp1] at h2
        exact h2.cons_inv
      have hs1 : (X.map Prod.snd).Perm (restS.map Prod.snd) := by
        have h2 := (hX.map Prod.snd).symm.trans hps
        rw [List.map_cons, hla] at h2
        exact h2.cons_inv
      have hrec := ih X hf1 hs1 (List.sorted_cons.1 hsf).2
        (List.sorted_cons.1 hss).2
      have hcS : wcost ((w1, lm) :: restS) = w1 * lm + wcost restS := by
        simp [wcost]
      rw [hcS, hcw]
      omega
    · have hlmem : lm ∈ wls.map Prod.snd := hps.mem_iff.2 (by simp)
      have h2 : lm ∈ (p :: X).map Prod.snd := ((hX.map Prod.snd).mem_iff).1 hlmem
      have h3 : lm ∈ X.map Prod.snd := by
        rw [List.map_cons] at h2
        rcases List.mem_cons.1 h2 with h | h
        · exact absurd h.symm hla
        · exact h
      obtain ⟨q, hqmem, hq2⟩ := List.mem_map.1 h3
      obtain ⟨E, hY⟩ : ∃ E, X.Perm (q :: E) := ⟨_, List.perm_cons_erase hqmem⟩
      have hPQ : wls.Perm (p :: q :: E) := hX.trans (hY.cons p)
      have hwb : w1 ≤ q.1 := by
        refine hmin q.1 ((hPQ.map Prod.fst).mem_iff.2 ?_)
        simp
      have hla2 : p.2 ≤ lm := hmax p.2 (List.mem_map_of_mem Prod.snd hpmem)
      have hex : w1 * lm + (q.1 * p.2 + wcost E) ≤ wcost wls := by
        rw [wcost_perm _ _ hPQ]
        simp only [wcost, List.map_cons, List.sum_cons]
        rw [hp1, hq2]
        have := mul_exchange w1 q.1 p.2 lm hwb hla2
        linarith
      have hf1 : (((q.1, p.2) :: E).map Prod.fst).Perm (restS.map Prod.fst) := by
        have h4 := (hPQ.map Prod.fst).symm.trans hpf
        rw [List.map_cons, List.map_cons, hp1] at h4
        rw [List.map_cons]
        exact h4.cons_inv
      have hs1 : (((q.1, p.2) :: E).map Prod.snd).Perm (restS.map Prod.snd) := by
        have h4 := (hPQ.map Prod.snd).symm.trans hps
        rw [List.map_cons, List.map_cons, hq2] at h4
        have h5 := (List.Perm.swap p.2 lm _).trans h4
        rw [List.map_cons]
        exact h5.cons_inv
      have hrec := ih ((q.1, p.2) :: E) hf1 hs1
        (List.sorted_cons.1 hsf).2 (List.sorted_cons.1 hss).2
      have hcS : wcost ((w1, lm) :: restS) = w1 * lm + wcost restS := by
        simp [wcost]
      have hcY : wcost ((q.1, p.2) :: E) = q.1 * p.2 + wcost E := by
        simp [wcost]
      rw [hcS]
      rw [hcY] at hrec
      omega

/-- Scaled Kraft sum of a length list at precision `L`. -/
def kraftSum (L : Nat) (ls : List Nat) : Nat := (ls.map (fun l => 2 ^ (L - l))).sum

/-- The tail step of the Kraft induction: a non-prefix family of
non-empty strings sharing one common first bit fits in half the
budget. -/
theorem kraft_same_head (L : Nat)
    (ihL : ∀ (cs : List (List Nat)),
      (∀ c ∈ cs, ∀ x ∈ c, x ≤ 1) → (∀ c ∈ cs, c.length ≤ L) →
      List.Pairwise (fun a b => ¬ a <+: b ∧ ¬ b <+: a) cs →
      kraftSum L (cs.map List.length) ≤ 2 ^ L) :
    ∀ (cs1 : List (List Nat)),
    (∀ c ∈ cs1, ∀ x ∈ c, x ≤ 1) → (∀ c ∈ cs1, c.length ≤ L + 1) →
    (∀ c ∈ cs1, c ≠ []) →
    List.Pairwise (fun a b => ¬ a <+: b ∧ ¬ b <+: a) cs1 →
    (∀ d1 d2, d1 ∈ cs1 → d2 ∈ cs1 → d1.head? = d2.head?) →
    kraftSum (L + 1) (cs1.map List.length) ≤ 2 ^ L := by
  intro cs1 hb1 hl1 hn1 hp1 hh1
  have hpwtail : List.Pairwise (fun a b => ¬ a <+: b ∧ ¬ b <+: a) (cs1.map List.tail) := by
    rw [List.pairwise_map]
    refine List.Pairwise.imp_of_mem ?_ hp1
    intro a b ha hb hab
    obtain ⟨hab1, hab2⟩ := hab
    have hane := hn1 a ha
    have hbne := hn1 b hb
    have hhead : a.head? = b.head? := hh1 a b ha hb
    obtain ⟨x, ta, rfl⟩ : ∃ x ta, a = x :: ta := by
      cases a with
      | nil => exact absurd rfl hane
      | cons x ta => exact ⟨x, ta, rfl⟩
    obtain ⟨y, tb, rfl⟩ : ∃ y tb, b = y :: tb := by
      cases b with
      | nil => exact absurd rfl hbne
      | cons y tb => exact ⟨y, tb, rfl⟩
    have hxy : x = y := by simpa using hhead
    subst hxy
    constructor
    · intro hpre
      exact hab1 (List.cons_prefix_cons.2 ⟨rfl, by simpa using hpre⟩)
    · intro hpre
      exact hab2 (List.cons_prefix_cons.2 ⟨rfl, by simpa using hpre⟩)
  have htl := ihL (cs1.map List.tail)
    (fun c hc x hx => by
      obtain ⟨c1, hc1, rfl⟩ := List.mem_map.1 hc
      exact hb1 c1 hc1 x (List.mem_of_mem_tail hx))
    (fun c hc => by
      obtain ⟨c1, hc1, rfl⟩ := List.mem_map.1 hc
      have h1 := hl1 c1 hc1
      rw [List.length_tail]
      omega)
    hpwtail
  have heq : kraftSum (L + 1) (cs1.map List.length)
      = kraftSum L ((cs1.map List.tail).map List.length) := by
    rw [kraftSum, kraftSum, List.map_map, List.map_map, List.map_map]
    refine congrArg List.sum (List.map_congr_left ?_)
    intro c hc
    have hcne := hn1 c hc
    have hlen1 : 1 ≤ c.length := by
      cases c with
      | nil => exact absurd rfl hcne
      | cons x t => simp
    simp only [Function.comp]
    rw [List.length_tail]
    congr 1
    omega
  rw [heq]
  exact htl

/-- Kraft inequality: a pairwise non-prefix family of bit strings of
length at most `L` has scaled Kraft sum at most `2 ^ L`. -/
theorem kraft_of_prefixfree : ∀ (L : Nat) (cs : List (List Nat)),
    (∀ c ∈ cs, ∀ x ∈ c, x ≤ 1) →
    (∀ c ∈ cs, c.length ≤ L) →
    List.Pairwise (fun a b => ¬ a <+: b ∧ ¬ b <+: a) cs →
    kraftSum L (cs.map List.length) ≤ 2 ^ L := by
  intro L
  induction L with
  | zero =>
    intro cs hbits hlen hpw
    cases cs with
    | nil => simp [kraftSum]
    | cons c0 t =>
      cases t with
      | nil =>
        have h0 : c0.length = 0 := Nat.le_zero.1 (hlen c0 (by simp))
        simp [kraftSum, h0]
      | cons c1 t2 =>
        have h0 : c0 = [] := List.eq_nil_of_length_eq_zero (Nat.le_zero.1 (hlen c0 (by simp)))
        have hr := (List.pairwise_cons.1 hpw).1 c1 (by simp)
        exact absurd (show c0 <+: c1 by rw [h0]; exact List.nil_prefix) hr.1
  | succ L ih =>
    intro cs hbits hlen hpw
    cases cs with
    | nil => simp [kraftSum]
    | cons c0 t =>
      cases t with
      | nil =>
        have h1 : 2 ^ (L + 1 - c0.length) ≤ 2 ^ (L + 1) :=
          Nat.pow_le_pow_right (by norm_num) (by omega)
        simpa [kraftSum] using h1
      | cons c1 t2 =>
        have hnonnil : ∀ c ∈ c0 :: c1 :: t2, c ≠ [] := by
          intro c hc hcnil
          subst hcnil
          rcases List.mem_cons.1 hc with h | h
          · exact ((List.pairwise_cons.1 hpw).1 c1 (by simp)).1
              (show c0 <+: c1 by rw [← h]; exact List.nil_prefix)
          · exact ((List.pairwise_cons.1 hpw).1 [] h).2 List.nil_prefix
        have hsplit := List.filter_append_perm
          (fun c : List Nat => c.head? == some 0) (c0 :: c1 :: t2)
        have hsum : kraftSum (L + 1) ((c0 :: c1 :: t2).map List.length)
            = kraftSum (L + 1)
                (((c0 :: c1 :: t2).filter (fun c => c.head? == some 0)).map List.length)
              + kraftSum (L + 1)
                (((c0 :: c1 :: t2).filter
                  (fun c => ! (c.head? == some 0))).map List.length) := by
          rw [kraftSum, kraftSum, kraftSum, ← List.sum_append, ← List.map_append,
            ← List.map_append]
          exact (List.Perm.sum_eq (List.Perm.map _ (List.Perm.map _ hsplit))).symm
        rw [hsum]
        have hmemfacts : ∀ (p : List Nat → Bool) (c : List Nat),
            c ∈ (c0 :: c1 :: t2).filter p → c ∈ c0 :: c1 :: t2 :=
          fun p c hc => (List.mem_filter.1 hc).1
        have h0half := kraft_same_head L ih
          ((c0 :: c1 :: t2).filter (fun c => c.head? == some 0))
          (fun c hc => hbits c (hmemfacts _ c hc))
          (fun c hc => hlen c (hmemfacts _ c hc))
          (fun c hc => hnonnil c (hmemfacts _ c hc))
          (List.Pairwise.sublist (List.filter_sublist _) hpw)
          (by
            intro d1 d2 hd1 hd2
            have g1 := (List.mem_filter.1 hd1).2
            have g2 := (List.mem_filter.1 hd2).2
            rw [beq_iff_eq] at g1 g2
            rw [g1, g2])
        have h1half := kraft_same_head L ih
          ((c0 :: c1 :: t2).filter (fun c => ! (c.head? == some 0)))
          (fun c hc => hbits c (hmemfacts _ c hc))
          (fun c hc => hlen c (hmemfacts _ c hc))
          (fun c hc => hnonnil c (hmemfacts _ c hc))
          (List.Pairwise.sublist (List.filter_sublist _) hpw)
          (by
            intro d1 d2 hd1 hd2
            have hone : ∀ d, d ∈ (c0 :: c1 :: t2).filter (fun c => ! (c.head? == some 0)) →
                d.head? = some 1 := by
              intro d hd
              obtain ⟨hdmem, hdcond⟩ := List.mem_filter.1 hd
              obtain ⟨x, td, rfl⟩ : ∃ x td, d = x :: td := by
                cases d with
                | nil => exact absurd rfl (hnonnil _ hdmem)
                | cons x td => exact ⟨x, td, rfl⟩
              have hx1 : x ≤ 1 := hbits _ hdmem x (by simp)
              have hx0 : ¬ x = 0 := by
                intro hx
                subst hx
                simp at hdcond
              have : x = 1 := by omega
              rw [this]
              rfl
            rw [hone d1 hd1, hone d2 hd2])
        have hfin : 2 ^ L + 2 ^ L = 2 ^ (L + 1) := by ring
        omega

theorem exists_list_max : ∀ (ls : List Nat), ls ≠ [] → ∃ m, m ∈ ls ∧ ∀ x ∈ ls, x ≤ m := by
  intro ls
  induction ls with
  | nil => intro h; exact absurd rfl h
  | cons a t ih =>
    intro _
    cases t with
    | nil => exact ⟨a, by simp, by simp⟩
    | cons b t2 =>
      obtain ⟨m, hm, hub⟩ := ih (by simp)
      by_cases ham : a ≤ m
      · refine ⟨m, by simp [hm], ?_⟩
        intro x hx
        rcases List.mem_cons.1 hx with h | h
        · omega
        · exact hub x h
      · refine ⟨a, by simp, ?_⟩
        intro x hx
        rcases List.mem_cons.1 hx with h | h
        · omega
        · have := hub x h
          omega

theorem kraftSum_cons (L x : Nat) (ls : List Nat) :
    kraftSum L (x :: ls) = 2 ^ (L - x) + kraftSum L ls := by
  simp [kraftSum]

theorem kraftSum_append (L : Nat) (ls1 ls2 : List Nat) :
    kraftSum L (ls1 ++ ls2) = kraftSum L ls1 + kraftSum L ls2 := by
  simp [kraftSum]

theorem kraftSum_perm (L : Nat) (ls1 ls2 : List Nat) (h : ls1.Perm ls2) :
    kraftSum L ls1 = kraftSum L ls2 := (h.map _).sum_eq

theorem kraftSum_pos (L : Nat) (ls : List Nat) (h : ls ≠ []) : 1 ≤ kraftSum L ls := by
  cases ls with
  | nil => exact absurd rfl h
  | cons x t =>
    rw [kraftSum_cons]
    have : 1 ≤ 2 ^ (L - x) := Nat.one_le_two_pow
    omega

theorem huffSum_perm (a b : List Nat) (h : a.Perm b) : huffSum a = huffSum b := by
  rw [huffSum, huffSum, h.length_eq]
  congr 1
  refine List.eq_of_perm_of_sorted ?_ (List.sorted_insertionSort _ _)
    (List.sorted_insertionSort _ _)
  exact (List.perm_insertionSort _ a).trans (h.trans (List.perm_insertionSort _ b).symm)

/-- One unfolding of the merge recurrence at a sorted list. -/
theorem huffSum_step (w1 w2 : Nat) (rest : List Nat)
    (hs : List.Sorted (· ≤ ·) (w1 :: w2 :: rest)) :
    huffSum (w1 :: w2 :: rest) = (w1 + w2) + huffSum ((w1 + w2) :: rest) := by
  have hrest : List.Sorted (· ≤ ·) rest := (List.sorted_cons.1 (List.sorted_cons.1 hs).2).2
  simp only [huffSum]
  rw [List.Sorted.insertionSort_eq hs]
  rw [show List.insertionSort (· ≤ ·) ((w1 + w2) :: rest)
      = List.orderedInsert (· ≤ ·) (w1 + w2) (List.insertionSort (· ≤ ·) rest) from rfl]
  rw [List.Sorted.insertionSort_eq hrest]
  show huffSumAux (rest.length + 1 + 1) (w1 :: w2 :: rest)
      = (w1 + w2) + huffSumAux (rest.length + 1) (List.orderedInsert (· ≤ ·) (w1 + w2) rest)
  rfl

theorem sortA_struct (ws : List Nat) (h2 : 2 ≤ ws.length) :
    ∃ w1 w2 wrest, List.insertionSort (· ≤ ·) ws = w1 :: w2 :: wrest := by
  have hl : (List.insertionSort (· ≤ ·) ws).length = ws.length :=
    (List.perm_insertionSort _ _).length_eq
  cases hS : List.insertionSort (· ≤ ·) ws with
  | nil => rw [hS] at hl; simp at hl; omega
  | cons a t =>
    cases t with
    | nil => rw [hS] at hl; simp at hl; omega
    | cons b t2 => exact ⟨a, b, t2, rfl⟩

/-- A descending sort of a list whose maximum occurs at least twice
starts with that maximum twice. -/
theorem sortD_two_max (ls : List Nat) (lmax : Nat)
    (hcnt : 2 ≤ ls.count lmax) (hub : ∀ y ∈ ls, y ≤ lmax) :
    ∃ lrest, List.insertionSort (· ≥ ·) ls = lmax :: lmax :: lrest := by
  have hperm : (List.insertionSort (· ≥ ·) ls).Perm ls := List.perm_insertionSort _ _
  have hsort : List.Sorted (· ≥ ·) (List.insertionSort (· ≥ ·) ls) :=
    List.sorted_insertionSort _ _
  have hcnt2 : 2 ≤ (List.insertionSort (· ≥ ·) ls).count lmax := by
    rw [hperm.count_eq]
    exact hcnt
  have hub2 : ∀ y ∈ List.insertionSort (· ≥ ·) ls, y ≤ lmax := by
    intro y hy
    exact hub y (hperm.mem_iff.1 hy)
  cases hS : List.insertionSort (· ≥ ·) ls with
  | nil =>
    rw [hS] at hcnt2
    simp at hcnt2
  | cons a t =>
    cases t with
    | nil =>
      rw [hS] at hcnt2
      have := List.count_le_length lmax [a]
      simp at this
      omega
    | cons b t2 =>
      rw [hS] at hcnt2 hub2 hsort
      have hmem : lmax ∈ a :: b :: t2 := by
        have : 0 < (a :: b :: t2).count lmax := by omega
        exact List.count_pos_iff.1 this
      obtain ⟨hale, hs2⟩ := List.sorted_cons.1 hsort
      have ha : a = lmax := by
        have h1 : a ≤ lmax := hub2 a (by simp)
        rcases List.mem_cons.1 hmem with h | h
        · omega
        · have := hale lmax h
          omega
      subst ha
      have hmem2 : a ∈ b :: t2 := by
        rw [List.count_cons_self] at hcnt2
        have : 0 < (b :: t2).count a := by omega
        exact List.count_pos_iff.1 this
      obtain ⟨hble, _⟩ := List.sorted_cons.1 hs2
      have hb : b = a := by
        have h1 : b ≤ a := hub2 b (by simp)
        rcases List.mem_cons.1 hmem2 with h | h
        · omega
        · have := hble a h
          omega
      subst hb
      exact ⟨t2, rfl⟩

/-- When no length can be shortened without breaking Kraft, the sum is
tight and the maximal length occurs at least twice. -/
theorem kraft_tight (L lmax : Nat) (ls : List Nat)
    (hmem : lmax ∈ ls) (hub : ∀ y ∈ ls, y ≤ lmax) (h1 : 1 ≤ lmax) (hL : lmax ≤ L)
    (hS : kraftSum L ls ≤ 2 ^ L)
    (hns : 2 ^ L < kraftSum L ls + 2 ^ (L - lmax)) :
    2 ≤ ls.count lmax := by
  have hgpos : 0 < 2 ^ (L - lmax) := Nat.pos_pow_of_pos _ (by norm_num)
  have hdvd : 2 ^ (L - lmax) ∣ kraftSum L ls := by
    refine List.dvd_sum ?_
    intro x hx
    obtain ⟨l, hl, rfl⟩ := List.mem_map.1 hx
    exact pow_dvd_pow 2 (by have := hub l hl; omega)
  have hdvd2 : 2 ^ (L - lmax) ∣ 2 ^ L := pow_dvd_pow 2 (by omega)
  obtain ⟨s, hs⟩ := hdvd
  obtain ⟨t, ht⟩ := hdvd2
  have hst : s = t := by
    have hle : s ≤ t := by
      refine Nat.le_of_mul_le_mul_left ?_ hgpos
      rw [← hs, ← ht]
      exact hS
    have hlt : t < s + 1 := by
      refine Nat.lt_of_mul_lt_mul_left (a := 2 ^ (L - lmax)) ?_
      rw [← ht, Nat.mul_add, Nat.mul_one, ← hs]
      exact hns
    omega
  have htight : kraftSum L ls = 2 ^ L := by rw [hs, ht, hst]
  have hfsplit := List.filter_append_perm (fun y => y == lmax) ls
  have hsum2 : kraftSum L ls = kraftSum L (ls.filter (fun y => y == lmax))
      + kraftSum L (ls.filter (fun y => ! (y == lmax))) := by
    rw [← kraftSum_append]
    exact (kraftSum_perm _ _ _ hfsplit).symm
  have hA : kraftSum L (ls.filter (fun y => y == lmax))
      = (ls.filter (fun y => y == lmax)).length * 2 ^ (L - lmax) := by
    rw [kraftSum]
    rw [List.map_congr_left (fun y hy => by
      have := (List.mem_filter.1 hy).2
      rw [beq_iff_eq] at this
      rw [this] : ∀ y ∈ ls.filter (fun y => y == lmax),
        (fun l => 2 ^ (L - l)) y = 2 ^ (L - lmax))]
    rw [List.map_const']
    rw [List.sum_replicate, smul_eq_mul]
  have hBdvd : 2 ^ (L - lmax + 1) ∣ kraftSum L (ls.filter (fun y => ! (y == lmax))) := by
    refine List.dvd_sum ?_
    intro x hx
    obtain ⟨l, hl, rfl⟩ := List.mem_map.1 hx
    obtain ⟨hlm, hlc⟩ := List.mem_filter.1 hl
    have hne : ¬ l = lmax := by
      intro hc
      rw [hc] at hlc
      simp at hlc
    have hlt : l ≤ lmax - 1 := by
      have := hub l hlm
      omega
    exact pow_dvd_pow 2 (by omega)
  have hLdvd : 2 ^ (L - lmax + 1) ∣ 2 ^ L := pow_dvd_pow 2 (by omega)
  have hAdvd : 2 ^ (L - lmax + 1) ∣ (ls.filter (fun y => y == lmax)).length * 2 ^ (L - lmax) := by
    have hBle : kraftSum L (ls.filter (fun y => ! (y == lmax))) ≤ 2 ^ L := by
      rw [← htight, hsum2]
      omega
    have := Nat.dvd_sub' hLdvd hBdvd
    rw [show 2 ^ L - kraftSum L (ls.filter (fun y => ! (y == lmax)))
        = (ls.filter (fun y => y == lmax)).length * 2 ^ (L - lmax) from by
      rw [← hA]
      omega] at this
    exact this
  have heven : 2 ∣ (ls.filter (fun y => y == lmax)).length := by
    obtain ⟨q, hq⟩ := hAdvd
    have hq2 : (ls.filter (fun y => y == lmax)).length * 2 ^ (L - lmax)
        = (2 * q) * 2 ^ (L - lmax) := by
      rw [hq, pow_succ]
      ring
    have := Nat.eq_of_mul_eq_mul_right hgpos hq2
    exact ⟨q, this⟩
  have hcount : ls.count lmax = (ls.filter (fun y => y == lmax)).length := by
    rw [List.count, List.countP_eq_length_filter]
  have hpos : 0 < ls.count lmax := List.count_pos_iff.2 hmem
  rw [hcount] at hpos ⊢
  omega

/-- Lower bound: the greedy two-smallest-merge total is at most the
weighted cost of any length assignment satisfying the Kraft bound.
Strong induction on `length + Σ lengths`: either some length can be
shortened keeping Kraft, or the sum is tight and two maximal lengths
can be paired (after rearrangement) with the two smallest weights and
merged. -/
theorem huff_lb : ∀ (fuel : Nat) (L : Nat) (wls : List (Nat × Nat)),
    (∀ p ∈ wls, p.2 ≤ L) →
    kraftSum L (wls.map Prod.snd) ≤ 2 ^ L →
    wls.length + (wls.map Prod.snd).sum ≤ fuel →
    huffSum (wls.map Prod.fst) ≤ wcost wls := by
  intro fuel
  induction fuel with
  | zero =>
    intro L wls hub hk hf
    cases wls with
    | nil => exact Nat.le_refl 0
    | cons p t => simp at hf
  | succ fuel ih =>
    intro L wls hub hk hf
    cases wls with
    | nil => exact Nat.le_refl 0
    | cons p0 t0 =>
    cases t0 with
    | nil =>
      have h0 : huffSum ([p0].map Prod.fst) = 0 := rfl
      rw [h0]
      exact Nat.zero_le _
    | cons p1 t =>
      have hge1 : ∀ p ∈ p0 :: p1 :: t, 1 ≤ p.2 := by
        intro p hp
        by_contra h0
        have hp2 : p.2 = 0 := by omega
        obtain ⟨X, hX⟩ : ∃ X, (p0 :: p1 :: t).Perm (p :: X) := ⟨_, List.perm_cons_erase hp⟩
        have hkp : kraftSum L ((p0 :: p1 :: t).map Prod.snd)
            = 2 ^ L + kraftSum L (X.map Prod.snd) := by
          rw [kraftSum_perm L _ _ (hX.map Prod.snd)]
          rw [List.map_cons, kraftSum_cons, hp2]
          simp
        have hXne : X ≠ [] := by
          have hlen := hX.length_eq
          simp only [List.length_cons] at hlen
          intro hc
          rw [hc] at hlen
          simp at hlen
        have hpos := kraftSum_pos L (X.map Prod.snd) (by
          cases X with
          | nil => exact absurd rfl hXne
          | cons a b => simp)
        omega
      obtain ⟨lmax, hlmem, hlub⟩ := exists_list_max ((p0 :: p1 :: t).map Prod.snd) (by simp)
      obtain ⟨pm, hpmmem, hpm2⟩ := List.mem_map.1 hlmem
      have hlmax1 : 1 ≤ lmax := by rw [← hpm2]; exact hge1 pm hpmmem
      have hlmaxL : lmax ≤ L := by rw [← hpm2]; exact hub pm hpmmem
      by_cases hslack : ∃ A p B, p0 :: p1 :: t = A ++ p :: B ∧
          kraftSum L ((p0 :: p1 :: t).map Prod.snd) + 2 ^ (L - p.2) ≤ 2 ^ L
      · obtain ⟨A, p, B, hdec, hsl⟩ := hslack
        have hp1 : 1 ≤ p.2 := hge1 p (by rw [hdec]; simp)
        have hpL : p.2 ≤ L := hub p (by rw [hdec]; simp)
        have hfst : ((A ++ (p.1, p.2 - 1) :: B).map Prod.fst)
            = ((A ++ p :: B).map Prod.fst) := by simp
        have hsndsum : kraftSum L ((A ++ (p.1, p.2 - 1) :: B).map Prod.snd)
            = kraftSum L ((A ++ p :: B).map Prod.snd) + 2 ^ (L - p.2) := by
          rw [List.map_append, List.map_cons, kraftSum_append, kraftSum_cons]
          rw [List.map_append, List.map_cons, kraftSum_append, kraftSum_cons]
          have hproj : ((p.1, p.2 - 1) : Nat × Nat).2 = p.2 - 1 := rfl
          rw [hproj]
          have h2 : 2 ^ (L - (p.2 - 1)) = 2 ^ (L - p.2) + 2 ^ (L - p.2) := by
            rw [show L - (p.2 - 1) = (L - p.2) + 1 from by omega, pow_succ]
            ring
          omega
        have hub2 : ∀ q ∈ A ++ (p.1, p.2 - 1) :: B, q.2 ≤ L := by
          intro q hq
          rcases List.mem_append.1 hq with h | h
          · exact hub q (by rw [hdec]; exact List.mem_append_left _ h)
          · rcases List.mem_cons.1 h with h | h
            · rw [h]
              show p.2 - 1 ≤ L
              omega
            · exact hub q
                (by rw [hdec]; exact List.mem_append_right _ (List.mem_cons_of_mem _ h))
        have hk2 : kraftSum L ((A ++ (p.1, p.2 - 1) :: B).map Prod.snd) ≤ 2 ^ L := by
          rw [hsndsum, ← hdec]
          exact hsl
        have hf2 : (A ++ (p.1, p.2 - 1) :: B).length
            + ((A ++ (p.1, p.2 - 1) :: B).map Prod.snd).sum ≤ fuel := by
          rw [hdec] at hf
          simp only [List.length_append, List.length_cons, List.map_append, List.map_cons,
            List.sum_append, List.sum_cons] at hf ⊢
          omega
        have hrec := ih L (A ++ (p.1, p.2 - 1) :: B) hub2 hk2 hf2
        have hhs : huffSum ((A ++ (p.1, p.2 - 1) :: B).map Prod.fst)
            = huffSum ((p0 :: p1 :: t).map Prod.fst) := by
          rw [hfst, ← hdec]
        have hwc : wcost (A ++ (p.1, p.2 - 1) :: B) ≤ wcost (p0 :: p1 :: t) := by
          rw [hdec]
          simp only [wcost, List.map_append, List.map_cons, List.sum_append, List.sum_cons]
          have : p.1 * (p.2 - 1) ≤ p.1 * p.2 := Nat.mul_le_mul_left _ (by omega)
          omega
        rw [← hhs]
        exact le_trans hrec hwc
      · push_neg at hslack
        obtain ⟨A, B, hAB⟩ := List.append_of_mem hpmmem
        have hns := hslack A pm B hAB
        rw [hpm2] at hns
        have hcnt := kraft_tight L lmax ((p0 :: p1 :: t).map Prod.snd) hlmem hlub hlmax1
          hlmaxL hk hns
        obtain ⟨lrest, hlsD⟩ := sortD_two_max ((p0 :: p1 :: t).map Prod.snd) lmax hcnt hlub
        obtain ⟨w1, w2, wrest, hwsA⟩ := sortA_struct ((p0 :: p1 :: t).map Prod.fst) (by simp)
        have hlenf : wrest.length = t.length := by
          have h1 : (w1 :: w2 :: wrest).length = ((p0 :: p1 :: t).map Prod.fst).length := by
            rw [← hwsA]
            exact (List.perm_insertionSort _ _).length_eq
          simp only [List.length_cons, List.length_map] at h1
          omega
        have hlens : lrest.length = t.length := by
          have h1 : (lmax :: lmax :: lrest).length
              = ((p0 :: p1 :: t).map Prod.snd).length := by
            rw [← hlsD]
            exact (List.perm_insertionSort _ _).length_eq
          simp only [List.length_cons, List.length_map] at h1
          omega
        have hwl : wrest.length = lrest.length := by omega
        have hNfst : ((w1 :: w2 :: wrest).zip (lmax :: lmax :: lrest)).map Prod.fst
            = w1 :: w2 :: wrest := by
          refine List.map_fst_zip _ _ ?_
          simp only [List.length_cons]
          omega
        have hNsnd : ((w1 :: w2 :: wrest).zip (lmax :: lmax :: lrest)).map Prod.snd
            = lmax :: lmax :: lrest := by
          refine List.map_snd_zip _ _ ?_
          simp only [List.length_cons]
          omega
        have hpf : ((p0 :: p1 :: t).map Prod.fst).Perm (w1 :: w2 :: wrest) := by
          rw [← hwsA]
          exact (List.perm_insertionSort _ _).symm
        have hps : ((p0 :: p1 :: t).map Prod.snd).Perm (lmax :: lmax :: lrest) := by
          rw [← hlsD]
          exact (List.perm_insertionSort _ _).symm
        have hsf : List.Sorted (· ≤ ·) (w1 :: w2 :: wrest) := by
          rw [← hwsA]
          exact List.sorted_insertionSort _ _
        have hssD : List.Sorted (· ≥ ·) (lmax :: lmax :: lrest) := by
          rw [← hlsD]
          exact List.sorted_insertionSort _ _
        have hre := wcost_sorted_le ((w1 :: w2 :: wrest).zip (lmax :: lmax :: lrest))
          (p0 :: p1 :: t)
          (by rw [hNfst]; exact hpf) (by rw [hNsnd]; exact hps)
          (by rw [hNfst]; exact hsf) (by rw [hNsnd]; exact hssD)
        have hzip : (w1 :: w2 :: wrest).zip (lmax :: lmax :: lrest)
            = (w1, lmax) :: (w2, lmax) :: (wrest.zip lrest) := rfl
        have hMfst : (((w1 + w2, lmax - 1) :: wrest.zip lrest).map Prod.fst)
            = (w1 + w2) :: wrest := by
          rw [List.map_cons, List.map_fst_zip _ _ (le_of_eq hwl)]
        have hMsnd : (((w1 + w2, lmax - 1) :: wrest.zip lrest).map Prod.snd)
            = (lmax - 1) :: lrest := by
          rw [List.map_cons, List.map_snd_zip _ _ (le_of_eq hwl.symm)]
        have hub_M : ∀ q ∈ (w1 + w2, lmax - 1) :: wrest.zip lrest, q.2 ≤ L := by
          intro q hq
          rcases List.mem_cons.1 hq with h | h
          · rw [h]
            show lmax - 1 ≤ L
            omega
          · have h2 : q.2 ∈ lrest := by
              have h3 := List.mem_map_of_mem Prod.snd h
              rw [List.map_snd_zip _ _ (le_of_eq hwl.symm)] at h3
              exact h3
            have h4 : q.2 ∈ (p0 :: p1 :: t).map Prod.snd :=
              hps.symm.subset (by simp [h2])
            have := hlub q.2 h4
            omega
        have hk_M : kraftSum L (((w1 + w2, lmax - 1) :: wrest.zip lrest).map Prod.snd)
            ≤ 2 ^ L := by
          rw [hMsnd, kraftSum_cons]
          have hold : kraftSum L ((p0 :: p1 :: t).map Prod.snd)
              = 2 ^ (L - lmax) + (2 ^ (L - lmax) + kraftSum L lrest) := by
            rw [kraftSum_perm L _ _ hps, kraftSum_cons, kraftSum_cons]
          have h2 : 2 ^ (L - (lmax - 1)) = 2 ^ (L - lmax) + 2 ^ (L - lmax) := by
            rw [show L - (lmax - 1) = (L - lmax) + 1 from by omega, pow_succ]
            ring
          omega
        have hf_M : ((w1 + w2, lmax - 1) :: wrest.zip lrest).length
            + (((w1 + w2, lmax - 1) :: wrest.zip lrest).map Prod.snd).sum ≤ fuel := by
          rw [hMsnd]
          have hlsum : ((p0 :: p1 :: t).map Prod.snd).sum = lmax + (lmax + lrest.sum) := by
            rw [hps.sum_eq]
            simp
          have hlenz : (wrest.zip lrest).length = wrest.length := by
            rw [List.length_zip, hwl, Nat.min_self]
          simp only [List.length_cons, List.sum_cons, hlenz] at hf ⊢
          omega
        have hrec := ih L ((w1 + w2, lmax - 1) :: wrest.zip lrest) hub_M hk_M hf_M
        rw [hMfst] at hrec
        have hstep : huffSum ((p0 :: p1 :: t).map Prod.fst)
            = (w1 + w2) + huffSum ((w1 + w2) :: wrest) := by
          rw [huffSum_perm _ _ hpf, huffSum_step w1 w2 wrest hsf]
        have hwcN : wcost ((w1 :: w2 :: wrest).zip (lmax :: lmax :: lrest))
            = w1 * lmax + (w2 * lmax + wcost (wrest.zip lrest)) := by
          rw [hzip]
          simp [wcost]
        have hwcM : wcost ((w1 + w2, lmax - 1) :: wrest.zip lrest)
            = (w1 + w2) * (lmax - 1) + wcost (wrest.zip lrest) := by
          simp [wcost]
        have harith : (w1 + w2) + (w1 + w2) * (lmax - 1) = (w1 + w2) * lmax := by
          obtain ⟨m2, rfl⟩ : ∃ m2, lmax = m2 + 1 := ⟨lmax - 1, by omega⟩
          rw [show m2 + 1 - 1 = m2 from rfl]
          ring
        calc huffSum ((p0 :: p1 :: t).map Prod.fst)
            = (w1 + w2) + huffSum ((w1 + w2) :: wrest) := hstep
          _ ≤ (w1 + w2) + wcost ((w1 + w2, lmax - 1) :: wrest.zip lrest) :=
              Nat.add_le_add_left hrec _
          _ = (w1 + w2) + ((w1 + w2) * (lmax - 1) + wcost (wrest.zip lrest)) := by
              rw [hwcM]
          _ = (w1 + w2) * lmax + wcost (wrest.zip lrest) := by
              rw [← Nat.add_assoc, harith]
          _ = wcost ((w1 :: w2 :: wrest).zip (lmax :: lmax :: lrest)) := by
              rw [hwcN]
              ring
          _ ≤ wcost (p0 :: p1 :: t) := hre

/-! #### The heap invariant

`container/heap` keeps a binary min-heap in the array: every parent key
is at most its children's keys within the live prefix.  The sift
procedures are verified below with a localized invariant (`down` only
touches the subtree of its start index, tracked by the parent-iteration
relation `desc`). -/

/-- Parent index in the implicit binary tree. -/
def hparent (x : Nat) : Nat := (x - 1) / 2

/-- `x` lies in the subtree rooted at `i`: iterating the parent map
from `x` reaches `i`. -/
def desc (i x : Nat) : Prop := ∃ k, (fun y => (y - 1) / 2)^[k] x = i

theorem desc_refl (i : Nat) : desc i i := ⟨0, rfl⟩

theorem desc_child (i x c : Nat) (hd : desc i x) (hc : c = 2 * x + 1 ∨ c = 2 * x + 2) :
    desc i c := by
  obtain ⟨k, hk⟩ := hd
  refine ⟨k + 1, ?_⟩
  rw [Function.iterate_succ_apply]
  show (fun y => (y - 1) / 2)^[k] ((c - 1) / 2) = i
  have hp : (c - 1) / 2 = x := by omega
  rw [hp, hk]

theorem desc_le : ∀ (k : Nat) (i x : Nat), (fun y => (y - 1) / 2)^[k] x = i → i ≤ x := by
  intro k
  induction k with
  | zero =>
    intro i x h
    exact le_of_eq h.symm
  | succ k ih =>
    intro i x h
    rw [Function.iterate_succ_apply] at h
    have := ih i ((x - 1) / 2) h
    omega

theorem desc_le2 (i x : Nat) (h : desc i x) : i ≤ x := by
  obtain ⟨k, hk⟩ := h
  exact desc_le k i x hk

theorem desc_parent_rev (i c : Nat) (hne : c ≠ i) (h : desc i c) :
    desc i ((c - 1) / 2) := by
  obtain ⟨k, hk⟩ := h
  cases k with
  | zero => exact absurd hk hne
  | succ k =>
    rw [Function.iterate_succ_apply] at hk
    exact ⟨k, hk⟩

theorem desc_zero : ∀ x, desc 0 x := by
  intro x
  induction x using Nat.strong_induction_on with
  | _ x ih =>
    cases x with
    | zero => exact desc_refl 0
    | succ y =>
      have hp : (y + 1 - 1) / 2 < y + 1 := by omega
      obtain ⟨k, hk⟩ := ih _ hp
      exact ⟨k + 1, by rw [Function.iterate_succ_apply]; exact hk⟩

theorem getD_set_eq (l : List node) (i : Nat) (a : node) (hi : i < l.length) :
    (l.set i a).getD i default = a := by
  rw [List.getD_eq_getElem?_getD, List.getElem?_set_self (by simpa using hi)]
  rfl

theorem getD_set_ne (l : List node) (i : Nat) (a : node) (x : Nat) (hne : i ≠ x) :
    (l.set i a).getD x default = l.getD x default := by
  rw [List.getD_eq_getElem?_getD, List.getElem?_set_ne hne, ← List.getD_eq_getElem?_getD]

theorem hswap_getD (h : List node) (i j x : Nat) (hi : i < h.length) (hj : j < h.length) :
    (hswap h i j).getD x default
      = if x = j then h.getD i default
        else if x = i then h.getD j default else h.getD x default := by
  rw [hswap]
  by_cases hxj : x = j
  · subst hxj
    rw [if_pos rfl]
    exact getD_set_eq _ _ _ (by simpa using hj)
  · rw [if_neg hxj, getD_set_ne _ _ _ _ (fun hc => hxj hc.symm)]
    by_cases hxi : x = i
    · subst hxi
      rw [if_pos rfl]
      exact getD_set_eq _ _ _ hi
    · rw [if_neg hxi, getD_set_ne _ _ _ _ (fun hc => hxi hc.symm)]

theorem key_hswap (h : List node) (i j x : Nat) (hi : i < h.length) (hj : j < h.length) :
    key (hswap h i j) x
      = if x = j then key h i else if x = i then key h j else key h x := by
  rw [key, hswap_getD h i j x hi hj]
  by_cases hxj : x = j
  · rw [if_pos hxj, if_pos hxj]
    rfl
  · rw [if_neg hxj, if_neg hxj]
    by_cases hxi : x = i
    · rw [if_pos hxi, if_pos hxi]
      rfl
    · rw [if_neg hxi, if_neg hxi]
      rfl

/-- Min-heap order on the first `n` slots. -/
def IsHeapN (h : List node) (n : Nat) : Prop :=
  ∀ p c : Nat, (c = 2 * p + 1 ∨ c = 2 * p + 2) → c < n → key h p ≤ key h c

theorem isHeapN_root_min (h : List node) (n : Nat) (hh : IsHeapN h n) :
    ∀ j, j < n → key h 0 ≤ key h j := by
  intro j
  induction j using Nat.strong_induction_on with
  | _ j ih =>
    intro hj
    cases Nat.eq_zero_or_pos j with
    | inl h0 =>
      rw [h0]
    | inr hpos =>
      have hp : (j - 1) / 2 < j := by omega
      have hedge : j = 2 * ((j - 1) / 2) + 1 ∨ j = 2 * ((j - 1) / 2) + 2 := by omega
      exact le_trans (ih _ hp (lt_trans hp hj)) (hh _ j hedge hj)

/-- One swap of the down sift: the dent moves to the chosen child,
preserving the localized invariant. -/
theorem down_step (h : List node) (d j n i0 : Nat)
    (hn : n ≤ h.length) (hdn : d < n) (hjn : j < n)
    (hjchild : j = 2 * d + 1 ∨ j = 2 * d + 2)
    (hjmin : ∀ c, (c = 2 * d + 1 ∨ c = 2 * d + 2) → c < n → key h j ≤ key h c)
    (hlt : key h j < key h d)
    (hdesc : desc i0 d)
    (ha : ∀ p c, (c = 2 * p + 1 ∨ c = 2 * p + 2) → c < n → desc i0 p → p ≠ d →
      key h p ≤ key h c)
    (hb : ∀ c, (c = 2 * d + 1 ∨ c = 2 * d + 2) → c < n → d ≠ i0 →
      key h (hparent d) ≤ key h c) :
    (∀ p c, (c = 2 * p + 1 ∨ c = 2 * p + 2) → c < n → desc i0 p → p ≠ j →
      key (hswap h d j) p ≤ key (hswap h d j) c)
    ∧ (∀ c, (c = 2 * j + 1 ∨ c = 2 * j + 2) → c < n → j ≠ i0 →
      key (hswap h d j) (hparent j) ≤ key (hswap h d j) c) := by
  have hdl : d < h.length := lt_of_lt_of_le hdn hn
  have hjl : j < h.length := lt_of_lt_of_le hjn hn
  have hkey : ∀ x, key (hswap h d j) x
      = if x = j then key h d else if x = d then key h j else key h x :=
    fun x => key_hswap h d j x hdl hjl
  have hdj : d < j := by omega
  constructor
  · intro p c hc hcn hdp hpj
    rw [hkey p, hkey c]
    by_cases hpd : p = d
    · subst hpd
      rw [if_neg (by omega), if_pos rfl]
      by_cases hcj : c = j
      · rw [if_pos hcj]
        exact le_of_lt hlt
      · rw [if_neg hcj, if_neg (by omega)]
        exact hjmin c hc hcn
    · rw [if_neg hpj, if_neg hpd]
      by_cases hcj : c = j
      · exfalso
        apply hpd
        omega
      · rw [if_neg hcj]
        by_cases hcd : c = d
        · rw [if_pos hcd]
          by_cases hdi : d = i0
          · exfalso
            have hile := desc_le2 i0 p hdp
            omega
          · have hpd2 : p = hparent d := by
              rw [hparent]
              omega
            rw [hpd2]
            exact hb j hjchild hjn hdi
        · rw [if_neg hcd]
          exact ha p c hc hcn hdp hpd
  · intro c hc hcn hji0
    have hpj : hparent j = d := by
      rw [hparent]
      omega
    rw [hpj, hkey d, hkey c]
    rw [if_neg (by omega), if_pos rfl, if_neg (by omega), if_neg (by omega)]
    exact ha j c hc hcn (desc_child i0 d j hdesc hjchild) (by omega)

/-- The down sift restores the heap order inside the subtree of its
start index and touches nothing outside it (or beyond `n`). -/
theorem downAux_spec : ∀ (fuel : Nat) (h : List node) (d n i0 : Nat),
    n ≤ h.length → desc i0 d → n - d ≤ fuel →
    (∀ p c, (c = 2 * p + 1 ∨ c = 2 * p + 2) → c < n → desc i0 p → p ≠ d →
      key h p ≤ key h c) →
    (∀ c, (c = 2 * d + 1 ∨ c = 2 * d + 2) → c < n → d ≠ i0 →
      key h (hparent d) ≤ key h c) →
    (∀ p c, (c = 2 * p + 1 ∨ c = 2 * p + 2) → c < n → desc i0 p →
      key (downAux fuel h d n) p ≤ key (downAux fuel h d n) c)
    ∧ (∀ x, ¬ desc i0 x ∨ n ≤ x →
      (downAux fuel h d n).getD x default = h.getD x default) := by
  intro fuel
  induction fuel with
  | zero =>
    intro h d n i0 hn hdesc hfuel ha hb
    constructor
    · intro p c hc hcn hdp
      by_cases hpd : p = d
      · subst hpd
        exfalso
        omega
      · exact ha p c hc hcn hdp hpd
    · intro x _
      rfl
  | succ fuel ih =>
    intro h d n i0 hn hdesc hfuel ha hb
    simp only [downAux]
    by_cases h1 : 2 * d + 1 < n
    · rw [if_pos h1]
      by_cases h2 : 2 * d + 2 < n ∧ key h (2 * d + 2) < key h (2 * d + 1)
      · rw [if_pos h2]
        by_cases h3 : key h (2 * d + 2) < key h d
        · rw [if_pos h3]
          have hjmin : ∀ c, (c = 2 * d + 1 ∨ c = 2 * d + 2) → c < n →
              key h (2 * d + 2) ≤ key h c := by
            intro c hc hcn
            rcases hc with hc | hc
            · subst hc
              exact le_of_lt h2.2
            · subst hc
              exact le_refl _
          have hst := down_step h d (2 * d + 2) n i0 hn (by omega) h2.1 (Or.inr rfl)
            hjmin h3 hdesc ha hb
          have hrec := ih (hswap h d (2 * d + 2)) (2 * d + 2) n i0
            (by rw [hswap_length]; exact hn)
            (desc_child i0 d _ hdesc (Or.inr rfl)) (by omega) hst.1 hst.2
          refine ⟨hrec.1, ?_⟩
          intro x hx
          rw [hrec.2 x hx]
          have hxd : x ≠ d := by
            rcases hx with hnd | hge
            · intro hcx
              exact hnd (hcx ▸ hdesc)
            · omega
          have hxj : x ≠ 2 * d + 2 := by
            rcases hx with hnd | hge
            · intro hcx
              exact hnd (hcx ▸ desc_child i0 d _ hdesc (Or.inr rfl))
            · omega
          rw [hswap_getD h d (2 * d + 2) x (by omega) (lt_of_lt_of_le h2.1 hn)]
          rw [if_neg hxj, if_neg hxd]
        · rw [if_neg h3]
          refine ⟨?_, fun x _ => rfl⟩
          intro p c hc hcn hdp
          by_cases hpd : p = d
          · subst hpd
            rcases hc with hc | hc
            · subst hc
              have := h2.2
              omega
            · subst hc
              omega
          · exact ha p c hc hcn hdp hpd
      · rw [if_neg h2]
        by_cases h3 : key h (2 * d + 1) < key h d
        · rw [if_pos h3]
          have hjmin : ∀ c, (c = 2 * d + 1 ∨ c = 2 * d + 2) → c < n →
              key h (2 * d + 1) ≤ key h c := by
            intro c hc hcn
            rcases hc with hc | hc
            · subst hc
              exact le_refl _
            · subst hc
              have hnb : ¬ (key h (2 * d + 2) < key h (2 * d + 1)) :=
                fun hB => h2 ⟨hcn, hB⟩
              omega
          have hst := down_step h d (2 * d + 1) n i0 hn (by omega) h1 (Or.inl rfl)
            hjmin h3 hdesc ha hb
          have hrec := ih (hswap h d (2 * d + 1)) (2 * d + 1) n i0
            (by rw [hswap_length]; exact hn)
            (desc_child i0 d _ hdesc (Or.inl rfl)) (by omega) hst.1 hst.2
          refine ⟨hrec.1, ?_⟩
          intro x hx
          rw [hrec.2 x hx]
          have hxd : x ≠ d := by
            rcases hx with hnd | hge
            · intro hcx
              exact hnd (hcx ▸ hdesc)
            · omega
          have hxj : x ≠ 2 * d + 1 := by
            rcases hx with hnd | hge
            · intro hcx
              exact hnd (hcx ▸ desc_child i0 d _ hdesc (Or.inl rfl))
            · omega
          rw [hswap_getD h d (2 * d + 1) x (by omega) (lt_of_lt_of_le h1 hn)]
          rw [if_neg hxj, if_neg hxd]
        · rw [if_neg h3]
          refine ⟨?_, fun x _ => rfl⟩
          intro p c hc hcn hdp
          by_cases hpd : p = d
          · subst hpd
            rcases hc with hc | hc
            · subst hc
              omega
            · subst hc
              have hnb : ¬ (key h (2 * p + 2) < key h (2 * p + 1)) :=
                fun hB => h2 ⟨hcn, hB⟩
              omega
          · exact ha p c hc hcn hdp hpd
    · rw [if_neg h1]
      refine ⟨?_, fun x _ => rfl⟩
      intro p c hc hcn hdp
      by_cases hpd : p = d
      · subst hpd
        exfalso
        omega
      · exact ha p c hc hcn hdp hpd

/-- Specification of `down h i0 n`. -/
theorem down_spec (h : List node) (i0 n : Nat)
    (hn : n ≤ h.length)
    (ha : ∀ p c, (c = 2 * p + 1 ∨ c = 2 * p + 2) → c < n → desc i0 p → p ≠ i0 →
      key h p ≤ key h c) :
    (∀ p c, (c = 2 * p + 1 ∨ c = 2 * p + 2) → c < n → desc i0 p →
      key (down h i0 n) p ≤ key (down h i0 n) c)
    ∧ (∀ x, ¬ desc i0 x ∨ n ≤ x → (down h i0 n).getD x default = h.getD x default) := by
  rw [down]
  exact downAux_spec (n - i0) h i0 n i0 hn (desc_refl i0) (le_refl _) ha
    (fun c hc hcn hne => absurd rfl hne)

theorem key_take (l : List node) (m i : Nat) (h : i < m) : key (l.take m) i = key l i := by
  rw [key, key, List.getD_eq_getElem?_getD, List.getD_eq_getElem?_getD,
    List.getElem?_take, if_pos h]

theorem key_append_left (l l2 : List node) (i : Nat) (h : i < l.length) :
    key (l ++ l2) i = key l i := by
  rw [key, key, List.getD_append l l2 default i h]

/-- Floyd heap construction: running `down` at `k-1, ..., 0` turns the
property "all pairs with parent ≥ k are ordered" into a full heap. -/
theorem initDowns_spec : ∀ (k : Nat) (h : List node) (n : Nat),
    n ≤ h.length →
    (∀ p c, (c = 2 * p + 1 ∨ c = 2 * p + 2) → c < n → k ≤ p → key h p ≤ key h c) →
    (∀ p c, (c = 2 * p + 1 ∨ c = 2 * p + 2) → c < n →
      key (initDowns n h k) p ≤ key (initDowns n h k) c) := by
  intro k
  induction k with
  | zero =>
    intro h n hn hinv p c hc hcn
    exact hinv p c hc hcn (Nat.zero_le _)
  | succ k ih =>
    intro h n hn hinv p c hc hcn
    show key (initDowns n (down h k n) k) p ≤ key (initDowns n (down h k n) k) c
    refine ih (down h k n) n (by rw [down_length]; exact hn) ?_ p c hc hcn
    intro p2 c2 hc2 hc2n hk2
    have hspec := down_spec h k n hn (by
      intro p3 c3 hc3 hc3n hd3 hne3
      have hge : k + 1 ≤ p3 := by
        have := desc_le2 k p3 hd3
        omega
      exact hinv p3 c3 hc3 hc3n hge)
    by_cases hd2 : desc k p2
    · exact hspec.1 p2 c2 hc2 hc2n hd2
    · have hndc : ¬ desc k c2 := by
        intro hdc
        have hcne : c2 ≠ k := by
          have := desc_le2 k p2
          omega
        have := desc_parent_rev k c2 hcne hdc
        have hpar : (c2 - 1) / 2 = p2 := by omega
        rw [hpar] at this
        exact hd2 this
      have hkp : key (down h k n) p2 = key h p2 := by
        rw [key, key, hspec.2 p2 (Or.inl hd2)]
      have hkc : key (down h k n) c2 = key h c2 := by
        rw [key, key, hspec.2 c2 (Or.inl hndc)]
      rw [hkp, hkc]
      have hge : k + 1 ≤ p2 := by
        rcases Nat.lt_or_ge p2 (k + 1) with hlt | hge
        · exfalso
          have : p2 = k := by omega
          rw [this] at hd2
          exact hd2 (desc_refl k)
        · exact hge
      exact hinv p2 c2 hc2 hc2n hge

/-- `heap.Init` establishes the heap invariant. -/
theorem initHeap_isHeap (h : List node) : IsHeapN (initHeap h) h.length := by
  rw [initHeap]
  intro p c hc hcn
  refine initDowns_spec (h.length / 2) h h.length (le_refl _) ?_ p c hc hcn
  intro p2 c2 hc2 hc2n hk2
  exfalso
  omega

/-- The up sift: with the array heap-ordered except at the dent `j`
(whose children are still bounded by `j`'s parent), sifting up restores
the full heap order. -/
theorem upAux_spec : ∀ (fuel : Nat) (h : List node) (j n : Nat),
    n ≤ h.length → j < n → j ≤ fuel →
    (∀ p c, (c = 2 * p + 1 ∨ c = 2 * p + 2) → c < n → c ≠ j → key h p ≤ key h c) →
    (j ≠ 0 → ∀ c, (c = 2 * j + 1 ∨ c = 2 * j + 2) → c < n →
      key h (hparent j) ≤ key h c) →
    IsHeapN (upAux fuel h j) n := by
  intro fuel
  induction fuel with
  | zero =>
    intro h j n hn hjn hfuel ha hcup
    have hj0 : j = 0 := by omega
    intro p c hc hcn
    have hcne : c ≠ j := by omega
    exact ha p c hc hcn hcne
  | succ fuel ih =>
    intro h j n hn hjn hfuel ha hcup
    rw [upAux]
    by_cases hstop : (j - 1) / 2 = j ∨ ¬ key h j < key h ((j - 1) / 2)
    · rw [if_pos hstop]
      intro p c hc hcn
      by_cases hcj : c = j
      · subst hcj
        have hpc : p = (c - 1) / 2 := by omega
        rcases hstop with hs | hs
        · omega
        · rw [hpc]
          omega
      · exact ha p c hc hcn hcj
    · rw [if_neg hstop]
      push_neg at hstop
      obtain ⟨hne, hlt⟩ := hstop
      have hj0 : j ≠ 0 := by
        intro hc
        rw [hc] at hne
        simp at hne
      have hij : (j - 1) / 2 < j := by omega
      have hil : (j - 1) / 2 < h.length := by omega
      have hjl : j < h.length := by omega
      have hkey : ∀ x, key (hswap h ((j - 1) / 2) j) x
          = if x = j then key h ((j - 1) / 2)
            else if x = (j - 1) / 2 then key h j else key h x :=
        fun x => key_hswap h ((j - 1) / 2) j x hil hjl
      refine ih (hswap h ((j - 1) / 2) j) ((j - 1) / 2) n
        (by rw [hswap_length]; exact hn) (by omega) (by omega) ?_ ?_
      · intro p c hc hcn hci
        rw [hkey p, hkey c]
        by_cases hcj : c = j
        · subst hcj
          have hpc : p = (c - 1) / 2 := by omega
          rw [if_pos rfl, hpc, if_neg (by omega), if_pos rfl]
          exact le_of_lt hlt
        · rw [if_neg hcj, if_neg hci]
          by_cases hpj : p = j
          · subst hpj
            rw [if_pos rfl]
            have := hcup hj0 c hc hcn
            rw [hparent] at this
            exact this
          · rw [if_neg hpj]
            by_cases hpi : p = (j - 1) / 2
            · rw [if_pos hpi]
              have h1 : key h ((j - 1) / 2) ≤ key h c := by
                refine ha ((j - 1) / 2) c ?_ hcn hcj
                rw [← hpi]
                exact hc
              omega
            · rw [if_neg hpi]
              exact ha p c hc hcn hcj
      · intro hi0 c hc hcn
        have hpi : hparent ((j - 1) / 2) < (j - 1) / 2 := by
          rw [hparent]
          omega
        rw [hkey, hkey c]
        rw [if_neg (by omega), if_neg (by omega)]
        have hedge : (j - 1) / 2 = 2 * hparent ((j - 1) / 2) + 1
            ∨ (j - 1) / 2 = 2 * hparent ((j - 1) / 2) + 2 := by
          rw [hparent]
          omega
        have hstep1 : key h (hparent ((j - 1) / 2)) ≤ key h ((j - 1) / 2) :=
          ha _ _ hedge (by omega) (by omega)
        by_cases hcj : c = j
        · subst hcj
          rw [if_pos rfl]
          omega
        · rw [if_neg hcj, if_neg (by omega)]
          have hstep2 : key h ((j - 1) / 2) ≤ key h c := by
            refine ha ((j - 1) / 2) c ?_ hcn hcj
            omega
          omega

/-- `heap.Push` preserves the heap invariant. -/
theorem heapPush_isHeap (h : List node) (x : node) (hh : IsHeapN h h.length) :
    IsHeapN (heapPush h x) (h.length + 1) := by
  rw [heapPush, up]
  refine upAux_spec h.length (h ++ [x]) h.length (h.length + 1)
    (by simp) (by omega) (le_refl _) ?_ ?_
  · intro p c hc hcn hcj
    have hcl : c < h.length := by omega
    have hpl : p < h.length := by omega
    rw [key_append_left _ _ _ hcl, key_append_left _ _ _ hpl]
    exact hh p c hc hcl
  · intro hj0 c hc hcn
    omega

/-- `heap.Pop` returns the root — a minimal-key element — and leaves a
heap-ordered remainder. -/
theorem heapPop_spec (h : List node) (hh : IsHeapN h h.length) (hne : 1 ≤ h.length) :
    IsHeapN (heapPop h).2 (h.length - 1)
    ∧ (∀ i, i < h.length → ((heapPop h).1).cnt ≤ key h i) := by
  have hm : h.length - 1 < h.length := by omega
  have h0 : 0 < h.length := hne
  have ha : ∀ p c, (c = 2 * p + 1 ∨ c = 2 * p + 2) → c < h.length - 1 → desc 0 p →
      p ≠ 0 → key (hswap h 0 (h.length - 1)) p ≤ key (hswap h 0 (h.length - 1)) c := by
    intro p c hc hcn hd hp0
    rw [key_hswap h 0 _ p h0 hm, key_hswap h 0 _ c h0 hm]
    rw [if_neg (by omega), if_neg hp0, if_neg (by omega), if_neg (by omega)]
    exact hh p c hc (by omega)
  have hspec := down_spec (hswap h 0 (h.length - 1)) 0 (h.length - 1)
    (by rw [hswap_length]; omega) ha
  constructor
  · intro p c hc hcn
    show key ((down (hswap h 0 (h.length - 1)) 0 (h.length - 1)).take (h.length - 1)) p
      ≤ key ((down (hswap h 0 (h.length - 1)) 0 (h.length - 1)).take (h.length - 1)) c
    rw [key_take _ _ _ (by omega), key_take _ _ _ hcn]
    exact hspec.1 p c hc hcn (desc_zero p)
  · intro i hi
    show ((down (hswap h 0 (h.length - 1)) 0 (h.length - 1)).getD
      (h.length - 1) default).cnt ≤ key h i
    rw [hspec.2 (h.length - 1) (Or.inr (le_refl _))]
    rw [show (hswap h 0 (h.length - 1)).getD (h.length - 1) default = h.getD 0 default from by
      rw [hswap_getD h 0 _ _ h0 hm, if_pos rfl]]
    exact isHeapN_root_min h h.length hh i hi

/-! #### Cost accounting through the merge loop -/

/-- The stored count of a node agrees with the sum of its leaf
counts (true of the leaves the builder starts from and preserved by
every merge, whose count is the sum of the popped counts). -/
def cntOK (t : node) : Prop := t.cnt = ((leafRecs t).map (fun p => p.1.2)).sum

theorem leafRecs_merge (a b : node) (ha : a ≠ node.nil) (cc : Nat) :
    leafRecs (node.mk a b 0 cc)
      = (leafRecs a).map (fun p => (p.1, p.2 + 1))
        ++ (leafRecs b).map (fun p => (p.1, p.2 + 1)) := by
  rw [leafRecs, if_neg (fun hc => ha hc.1)]

theorem wsum_merge (a b : node) (ha : a ≠ node.nil) (cc : Nat) :
    ((leafRecs (node.mk a b 0 cc)).map (fun p => p.1.2)).sum
      = ((leafRecs a).map (fun p => p.1.2)).sum
        + ((leafRecs b).map (fun p => p.1.2)).sum := by
  rw [leafRecs_merge a b ha cc, List.map_append, List.sum_append, List.map_map,
    List.map_map]
  rfl

theorem cntOK_merge (a b : node) (ha : a ≠ node.nil ∧ cntOK a)
    (hb : b ≠ node.nil ∧ cntOK b) :
    node.mk a b 0 (b.cnt + a.cnt) ≠ node.nil ∧ cntOK (node.mk a b 0 (b.cnt + a.cnt)) := by
  refine ⟨by simp, ?_⟩
  rw [cntOK]
  show b.cnt + a.cnt = _
  rw [wsum_merge a b ha.1 _, ← ha.2, ← hb.2]
  omega

theorem map_incr_cost_sum : ∀ (L : List ((Nat × Nat) × Nat)),
    ((L.map (fun p => (p.1, p.2 + 1))).map (fun p => p.1.2 * p.2)).sum
      = (L.map (fun p => p.1.2 * p.2)).sum + (L.map (fun p => p.1.2)).sum := by
  intro L
  induction L with
  | nil => rfl
  | cons x t ih =>
    simp only [List.map_cons, List.sum_cons, ih]
    ring

theorem cost_merge (a b : node) (ha : a ≠ node.nil) (cc : Nat) :
    cost (node.mk a b 0 cc)
      = cost a + cost b + (((leafRecs a).map (fun p => p.1.2)).sum
          + ((leafRecs b).map (fun p => p.1.2)).sum) := by
  rw [cost, leafRecs_merge a b ha cc, List.map_append, List.sum_append,
    map_incr_cost_sum, map_incr_cost_sum, cost, cost]
  ring

theorem cost_leaf (v c : Nat) : cost (node.mk node.nil node.nil v c) = 0 := by
  simp [cost, leafRecs]

/-- Peeling the two smallest elements of a weight multiset matches one
step of the merge recurrence. -/
theorem huffSum_two_min (a b : Nat) (ws ws1 rest2 : List Nat)
    (hp1 : ws.Perm (a :: ws1)) (ha : ∀ y ∈ ws, a ≤ y)
    (hp2 : ws1.Perm (b :: rest2)) (hb : ∀ y ∈ ws1, b ≤ y) :
    huffSum ws = (a + b) + huffSum ((a + b) :: rest2) := by
  have hab : a ≤ b :=
    ha b (hp1.symm.subset (List.mem_cons_of_mem _ (hp2.symm.subset (List.mem_cons_self _ _))))
  have hsorted : List.Sorted (· ≤ ·) (a :: b :: List.insertionSort (· ≤ ·) rest2) := by
    rw [List.sorted_cons]
    refine ⟨?_, ?_⟩
    · intro y hy
      rcases List.mem_cons.1 hy with h | h
      · exact h ▸ hab
      · have h1 : y ∈ rest2 := (List.perm_insertionSort _ _).subset h
        have h2 : y ∈ ws1 := hp2.symm.subset (List.mem_cons_of_mem _ h1)
        exact ha y (hp1.symm.subset (List.mem_cons_of_mem _ h2))
    · rw [List.sorted_cons]
      refine ⟨?_, List.sorted_insertionSort _ _⟩
      intro y hy
      have h1 : y ∈ rest2 := (List.perm_insertionSort _ _).subset hy
      exact hb y (hp2.symm.subset (List.mem_cons_of_mem _ h1))
  have hperm : ws.Perm (a :: b :: List.insertionSort (· ≤ ·) rest2) := by
    refine hp1.trans (List.Perm.cons a ?_)
    refine hp2.trans (List.Perm.cons b ?_)
    exact (List.perm_insertionSort _ _).symm
  rw [huffSum_perm _ _ hperm, huffSum_step a b _ hsorted]
  congr 1
  exact huffSum_perm _ _ (List.Perm.cons _ (List.perm_insertionSort _ _))

/-- The merge loop preserves `Σ cost + huffSum of the live counts`:
each iteration pops the two minimal counts (by the heap invariant) and
the cost of the merged node accounts for exactly the merge charge. -/
theorem buildLoopAux_inv : ∀ (fuel : Nat) (h : List node),
    (∀ x ∈ h, x ≠ node.nil ∧ cntOK x) →
    IsHeapN h h.length →
    h.length ≤ fuel + 1 →
    ((buildLoopAux fuel h).map cost).sum + huffSum ((buildLoopAux fuel h).map node.cnt)
      = (h.map cost).sum + huffSum (h.map node.cnt) := by
  intro fuel
  induction fuel with
  | zero =>
    intro h hinv hheap hlen
    rfl
  | succ fuel ih =>
    intro h hinv hheap hlen
    simp only [buildLoopAux]
    by_cases h2 : 2 ≤ h.length
    · rw [if_pos h2]
      have hne1 : h ≠ [] := by
        intro hc
        rw [hc] at h2
        simp at h2
      have hpop1 := heapPop_spec h hheap (by omega)
      have hperm1 := heapPop_perm h hne1
      have hlen1 : (heapPop h).2.length = h.length - 1 := heapPop_length h
      have hheap2 : IsHeapN (heapPop h).2 ((heapPop h).2.length) := by
        rw [hlen1]
        exact hpop1.1
      have hne2 : (heapPop h).2 ≠ [] := by
        intro hc
        rw [hc] at hlen1
        simp at hlen1
        omega
      have hpop2 := heapPop_spec (heapPop h).2 hheap2 (by rw [hlen1]; omega)
      have hperm2 := heapPop_perm (heapPop h).2 hne2
      have hlen2 : (heapPop (heapPop h).2).2.length = (heapPop h).2.length - 1 :=
        heapPop_length (heapPop h).2
      have hl_mem : (heapPop h).1 ∈ h := hperm1.subset (List.mem_cons_self _ _)
      have hr_mem : (heapPop (heapPop h).2).1 ∈ h := by
        have h1 : (heapPop (heapPop h).2).1 ∈ (heapPop h).2 :=
          hperm2.subset (List.mem_cons_self _ _)
        exact hperm1.subset (List.mem_cons_of_mem _ h1)
      have hrest_mem : ∀ x ∈ (heapPop (heapPop h).2).2, x ∈ h := by
        intro x hx
        have h1 : x ∈ (heapPop h).2 := hperm2.subset (List.mem_cons_of_mem _ hx)
        exact hperm1.subset (List.mem_cons_of_mem _ h1)
      have hinv_l := hinv _ hl_mem
      have hinv_r := hinv _ hr_mem
      have hinv2 : ∀ x ∈ heapPush (heapPop (heapPop h).2).2
          (node.mk (heapPop h).1 (heapPop (heapPop h).2).1 0
            ((heapPop (heapPop h).2).1.cnt + (heapPop h).1.cnt)),
          x ≠ node.nil ∧ cntOK x := by
        intro x hx
        have hmem := (heapPush_perm _ _).subset hx
        rcases List.mem_cons.1 hmem with hx1 | hx1
        · rw [hx1]
          exact cntOK_merge _ _ hinv_l hinv_r
        · exact hinv x (hrest_mem x hx1)
      have hheap3 : IsHeapN (heapPush (heapPop (heapPop h).2).2
          (node.mk (heapPop h).1 (heapPop (heapPop h).2).1 0
            ((heapPop (heapPop h).2).1.cnt + (heapPop h).1.cnt)))
          ((heapPush (heapPop (heapPop h).2).2
            (node.mk (heapPop h).1 (heapPop (heapPop h).2).1 0
              ((heapPop (heapPop h).2).1.cnt + (heapPop h).1.cnt))).length) := by
        rw [heapPush_length]
        refine heapPush_isHeap _ _ ?_
        rw [hlen2]
        exact hpop2.1
      have hlen3 : (heapPush (heapPop (heapPop h).2).2
          (node.mk (heapPop h).1 (heapPop (heapPop h).2).1 0
            ((heapPop (heapPop h).2).1.cnt + (heapPop h).1.cnt))).length ≤ fuel + 1 := by
        rw [heapPush_length]
        omega
      rw [ih _ hinv2 hheap3 hlen3]
      have hcost1 : ((heapPush (heapPop (heapPop h).2).2
          (node.mk (heapPop h).1 (heapPop (heapPop h).2).1 0
            ((heapPop (heapPop h).2).1.cnt + (heapPop h).1.cnt))).map cost).sum
          = cost (node.mk (heapPop h).1 (heapPop (heapPop h).2).1 0
              ((heapPop (heapPop h).2).1.cnt + (heapPop h).1.cnt))
            + (((heapPop (heapPop h).2).2).map cost).sum := by
        have hp := (heapPush_perm (heapPop (heapPop h).2).2
          (node.mk (heapPop h).1 (heapPop (heapPop h).2).1 0
            ((heapPop (heapPop h).2).1.cnt + (heapPop h).1.cnt))).map cost
        rw [hp.sum_eq]
        simp
      have hcnt1 : huffSum ((heapPush (heapPop (heapPop h).2).2
          (node.mk (heapPop h).1 (heapPop (heapPop h).2).1 0
            ((heapPop (heapPop h).2).1.cnt + (heapPop h).1.cnt))).map node.cnt)
          = huffSum (((heapPop (heapPop h).2).1.cnt + (heapPop h).1.cnt)
              :: ((heapPop (heapPop h).2).2).map node.cnt) :=
        huffSum_perm _ _ ((heapPush_perm _ _).map node.cnt)
      have hcost2 : (h.map cost).sum
          = cost (heapPop h).1 + (cost (heapPop (heapPop h).2).1
            + (((heapPop (heapPop h).2).2).map cost).sum) := by
        rw [← (hperm1.map cost).sum_eq]
        simp only [List.map_cons, List.sum_cons]
        rw [← (hperm2.map cost).sum_eq]
        simp
      have hmin1 : ∀ y ∈ h.map node.cnt, ((heapPop h).1).cnt ≤ y := by
        intro y hy
        obtain ⟨x, hx, rfl⟩ := List.mem_map.1 hy
        obtain ⟨i, hi, hgi⟩ := List.getElem_of_mem hx
        have hk := hpop1.2 i hi
        rw [key, List.getD_eq_getElem _ default hi, hgi] at hk
        exact hk
      have hmin2 : ∀ y ∈ ((heapPop h).2).map node.cnt,
          ((heapPop (heapPop h).2).1).cnt ≤ y := by
        intro y hy
        obtain ⟨x, hx, rfl⟩ := List.mem_map.1 hy
        obtain ⟨i, hi, hgi⟩ := List.getElem_of_mem hx
        have hk := hpop2.2 i hi
        rw [key, List.getD_eq_getElem _ default hi, hgi] at hk
        exact hk
      have hcnt2 : huffSum (h.map node.cnt)
          = (((heapPop h).1).cnt + ((heapPop (heapPop h).2).1).cnt)
            + huffSum ((((heapPop h).1).cnt + ((heapPop (heapPop h).2).1).cnt)
              :: ((heapPop (heapPop h).2).2).map node.cnt) := by
        refine huffSum_two_min _ _ _ (((heapPop h).2).map node.cnt) _ ?_ hmin1 ?_ hmin2
        · have := (hperm1.map node.cnt).symm
          simpa using this
        · have := (hperm2.map node.cnt).symm
          simpa using this
      have hcm : cost (node.mk (heapPop h).1 (heapPop (heapPop h).2).1 0
            ((heapPop (heapPop h).2).1.cnt + (heapPop h).1.cnt))
          = cost (heapPop h).1 + cost (heapPop (heapPop h).2).1
            + (((heapPop h).1).cnt + ((heapPop (heapPop h).2).1).cnt) := by
        rw [cost_merge _ _ hinv_l.1 _, ← hinv_l.2, ← hinv_r.2]
      have hcomm : ((heapPop (heapPop h).2).1).cnt + ((heapPop h).1).cnt
          = ((heapPop h).1).cnt + ((heapPop (heapPop h).2).1).cnt := Nat.add_comm _ _
      rw [hcost1, hcnt1, hcost2, hcnt2, hcm, hcomm]
      omega
    · rw [if_neg h2]

theorem heapPop_singleton (b : node) : heapPop [b] = (b, []) := rfl

/-- The tree the writer builds from a non-empty distribution realizes
exactly the optimal (greedy) merge total of the counts. -/
theorem writerRoot_cost (d : Distribution) (hne : d.cnts ≠ []) :
    cost (writerRoot d) = huffSum (d.cnts.map Prod.snd) := by
  have hlen0 : (toHeap d).length = d.cnts.length := by
    rw [toHeap, initHeap_length, List.length_map]
  have hlen1 : 1 ≤ (toHeap d).length := by
    rw [hlen0]
    cases hc : d.cnts with
    | nil => exact absurd hc hne
    | cons a t => simp
  have hinv0 : ∀ x ∈ toHeap d, x ≠ node.nil ∧ cntOK x := by
    intro x hx
    have hmem := (initHeap_perm _).mem_iff.1 hx
    obtain ⟨vc, _, hvc⟩ := List.mem_map.1 hmem
    rw [← hvc]
    refine ⟨by simp, ?_⟩
    rw [cntOK]
    show vc.2 = _
    rw [leafRecs, if_pos ⟨rfl, rfl⟩]
    simp
  have hheap0 : IsHeapN (toHeap d) (toHeap d).length := by
    rw [toHeap, initHeap_length]
    exact initHeap_isHeap _
  have hphi := buildLoopAux_inv (toHeap d).length (toHeap d) hinv0 hheap0 (by omega)
  have hBlen : (buildLoop (toHeap d)).length = 1 := by
    rw [buildLoop]
    exact buildLoopAux_length_one _ _ (by omega) hlen1
  obtain ⟨b, hb⟩ : ∃ b, buildLoop (toHeap d) = [b] := by
    cases hB : buildLoop (toHeap d) with
    | nil =>
      rw [hB] at hBlen
      simp at hBlen
    | cons x t =>
      cases t with
      | nil => exact ⟨x, rfl⟩
      | cons y t2 =>
        rw [hB] at hBlen
        simp at hBlen
  have hroot : writerRoot d = b := by
    rw [writerRoot, buildTree, if_pos hlen1, hb, heapPop_singleton]
  have hcost0 : ((toHeap d).map cost).sum = 0 := by
    refine List.sum_eq_zero ?_
    intro x hx
    obtain ⟨y, hy, rfl⟩ := List.mem_map.1 hx
    rw [toHeap] at hy
    obtain ⟨vc, _, hvc⟩ := List.mem_map.1 ((initHeap_perm _).mem_iff.1 hy)
    rw [← hvc]
    exact cost_leaf vc.1 vc.2
  have hcnt0 : huffSum ((toHeap d).map node.cnt) = huffSum (d.cnts.map Prod.snd) := by
    refine huffSum_perm _ _ ?_
    rw [toHeap]
    refine ((initHeap_perm _).map node.cnt).trans ?_
    rw [List.map_map]
    exact List.Perm.refl _
  rw [buildLoop] at hb
  rw [hb] at hphi
  have hsingle : ([b].map cost).sum = cost b := by simp
  have hhs1 : huffSum ([b].map node.cnt) = 0 := rfl
  rw [hsingle, hhs1, hcost0, hcnt0] at hphi
  rw [hroot]
  omega

/-- Length-only table lookup: every entry's recorded length is the
depth of a leaf of that symbol (no byte-width assumptions needed; only
the wrapped `path` byte loses information, never `len`). -/
theorem expandPaths_len : ∀ (t : node) (path depth : Nat) (m : List (Nat × code))
    (s : Nat) (c : code),
    mapGet (expandPaths path depth t m) s = some c →
    (∃ bs, (s, bs) ∈ treeCodes t ∧ c.len = depth + bs.length) ∨ mapGet m s = some c := by
  intro t
  induction t with
  | nil =>
    intro path depth m s c h
    exact Or.inr h
  | mk l r v cc ihl ihr =>
    intro path depth m s c h
    by_cases hleaf : l = node.nil ∧ r = node.nil
    · rw [expandPaths, if_pos hleaf, mapGet_mupd] at h
      by_cases hvs : v = s
      · rw [if_pos hvs] at h
        refine Or.inl ⟨[], ?_, ?_⟩
        · rw [treeCodes, if_pos hleaf]
          simp [hvs]
        · have hc : c = { path := path, len := depth } := by
            injection h with h2
            exact h2.symm
          simp [hc]
      · rw [if_neg hvs] at h
        exact Or.inr h
    · rw [expandPaths, if_neg hleaf] at h
      rcases ihr _ _ _ _ _ h with ⟨bs, hmem, hlen⟩ | h2
      · refine Or.inl ⟨1 :: bs, ?_, ?_⟩
        · rw [treeCodes, if_neg hleaf]
          refine List.mem_append_right _ ?_
          exact List.mem_map.2 ⟨(s, bs), hmem, rfl⟩
        · rw [hlen, List.length_cons]
          omega
      · rcases ihl _ _ _ _ _ h2 with ⟨bs, hmem, hlen⟩ | h3
        · refine Or.inl ⟨0 :: bs, ?_, ?_⟩
          · rw [treeCodes, if_neg hleaf]
            refine List.mem_append_left _ ?_
            exact List.mem_map.2 ⟨(s, bs), hmem, rfl⟩
          · rw [hlen, List.length_cons]
            omega
        · exact Or.inr h3

theorem leafRecs_code : ∀ (t : node) (s c dep : Nat),
    ((s, c), dep) ∈ leafRecs t → ∃ bs, (s, bs) ∈ treeCodes t ∧ bs.length = dep := by
  intro t
  induction t with
  | nil =>
    intro s c dep h
    simp [leafRecs] at h
  | mk l r v cc ihl ihr =>
    intro s c dep h
    by_cases hleaf : l = node.nil ∧ r = node.nil
    · rw [leafRecs, if_pos hleaf] at h
      simp at h
      obtain ⟨⟨hs, _⟩, hdep⟩ := h
      refine ⟨[], ?_, by simp [hdep]⟩
      rw [treeCodes, if_pos hleaf]
      simp [hs]
    · rw [leafRecs, if_neg hleaf] at h
      rcases List.mem_append.1 h with h1 | h1
      · obtain ⟨x, hx, hxe⟩ := List.mem_map.1 h1
        obtain ⟨hx1, hx2⟩ : x.1 = (s, c) ∧ x.2 + 1 = dep := by
          constructor
          · exact congrArg Prod.fst hxe
          · exact congrArg Prod.snd hxe
        obtain ⟨bs, hmem, hbl⟩ := ihl s c x.2 (by
          rw [← hx1]
          simpa using hx)
        refine ⟨0 :: bs, ?_, by rw [List.length_cons, hbl]; omega⟩
        rw [treeCodes, if_neg hleaf]
        exact List.mem_append_left _ (List.mem_map.2 ⟨(s, bs), hmem, rfl⟩)
      · obtain ⟨x, hx, hxe⟩ := List.mem_map.1 h1
        obtain ⟨hx1, hx2⟩ : x.1 = (s, c) ∧ x.2 + 1 = dep := by
          constructor
          · exact congrArg Prod.fst hxe
          · exact congrArg Prod.snd hxe
        obtain ⟨bs, hmem, hbl⟩ := ihr s c x.2 (by
          rw [← hx1]
          simpa using hx)
        refine ⟨1 :: bs, ?_, by rw [List.length_cons, hbl]; omega⟩
        rw [treeCodes, if_neg hleaf]
        exact List.mem_append_right _ (List.mem_map.2 ⟨(s, bs), hmem, rfl⟩)

theorem leafPairs_leafRecs : ∀ (t : node), leafPairs t = (leafRecs t).map Prod.fst := by
  intro t
  induction t with
  | nil => rfl
  | mk l r v cc ihl ihr =>
    by_cases hleaf : l = node.nil ∧ r = node.nil
    · rw [leafPairs, if_pos hleaf, leafRecs, if_pos hleaf]
      rfl
    · rw [leafPairs, if_neg hleaf, leafRecs, if_neg hleaf]
      rw [List.map_append, List.map_map, List.map_map, ihl, ihr]
      rfl

theorem treeCodes_fst : ∀ (t : node),
    (treeCodes t).map Prod.fst = (leafPairs t).map Prod.fst := by
  intro t
  induction t with
  | nil => rfl
  | mk l r v cc ihl ihr =>
    by_cases hleaf : l = node.nil ∧ r = node.nil
    · rw [treeCodes, if_pos hleaf, leafPairs, if_pos hleaf]
      rfl
    · rw [treeCodes, if_neg hleaf, leafPairs, if_neg hleaf]
      rw [List.map_append, List.map_append, List.map_map, List.map_map, ← ihl, ← ihr]
      rfl

theorem treeCodes_unique : ∀ (L : List (Nat × List Nat)),
    (L.map Prod.fst).Nodup →
    ∀ a x y, (a, x) ∈ L → (a, y) ∈ L → x = y := by
  intro L
  induction L with
  | nil =>
    intro _ a x y hx
    simp at hx
  | cons e rest ih =>
    intro hnd a x y hx hy
    obtain ⟨hnotin, hndr⟩ := List.pairwise_cons.1 hnd
    rcases List.mem_cons.1 hx with hx1 | hx1
    · rcases List.mem_cons.1 hy with hy1 | hy1
      · rw [← hx1] at hy1
        exact (Prod.mk.injEq _ _ _ _ ▸ hy1.symm).2
      · exfalso
        have ha : e.1 = a := by rw [← hx1]
        have : a ∈ rest.map Prod.fst := List.mem_map.2 ⟨(a, y), hy1, rfl⟩
        obtain ⟨b, hb, hbe⟩ := List.mem_map.1 this
        exact hnotin (b.1) (List.mem_map.2 ⟨b, hb, rfl⟩) (by rw [hbe, ha])
    · rcases List.mem_cons.1 hy with hy1 | hy1
      · exfalso
        have ha : e.1 = a := by rw [← hy1]
        exact hnotin a (List.mem_map.2 ⟨(a, x), hx1, rfl⟩) (by rw [ha])
      · exact ih hndr a x y hx1 hy1

/-- Each table entry's length equals the depth of that symbol's leaf
(symbols unique). -/
theorem table_len_at (t : node) (hnd : ((leafPairs t).map Prod.fst).Nodup)
    (s cnt dep : Nat) (hmem : ((s, cnt), dep) ∈ leafRecs t) :
    ((mapGet (getMapping t) s).getD { path := 0, len := 0 }).len = dep := by
  obtain ⟨bs, hbs, hbl⟩ := leafRecs_code t s cnt dep hmem
  have hsmem : s ∈ (leafPairs t).map Prod.fst := by
    rw [leafPairs_leafRecs, List.map_map]
    exact List.mem_map.2 ⟨((s, cnt), dep), hmem, rfl⟩
  have hcov : mapGet (getMapping t) s ≠ none := by
    rw [getMapping]
    exact expandPaths_covers t 0 0 [] s (Or.inl hsmem)
  obtain ⟨c, hc⟩ := Option.ne_none_iff_exists'.1 hcov
  have hlen := expandPaths_len t 0 0 [] s c (by rw [← getMapping]; exact hc)
  rcases hlen with ⟨bs2, hbs2, hlen2⟩ | hfalse
  · have hndt : ((treeCodes t).map Prod.fst).Nodup := by
      rw [treeCodes_fst]
      exact hnd
    have hbeq : bs2 = bs := treeCodes_unique (treeCodes t) hndt s bs2 bs hbs2 hbs
    rw [hc]
    show c.len = dep
    rw [hlen2, hbeq, hbl]
    omega
  · rw [mapGet] at hfalse
    exact absurd hfalse (by simp)

/-- The weighted sum of the produced table lengths is the tree's
weighted path length. -/
theorem table_cost (d : Distribution) (hne : d.cnts ≠ [])
    (hnd : (d.cnts.map Prod.fst).Nodup) :
    (d.cnts.map (fun p =>
        p.2 * ((mapGet (writerMapping d) p.1).getD { path := 0, len := 0 }).len)).sum
      = cost (writerRoot d) := by
  obtain ⟨hperm, hgood⟩ := writerRoot_spec d hne
  have hndlp : ((leafPairs (writerRoot d)).map Prod.fst).Nodup :=
    ((hperm.map Prod.fst).nodup_iff).2 hnd
  have h1 : (d.cnts.map (fun p =>
      p.2 * ((mapGet (writerMapping d) p.1).getD { path := 0, len := 0 }).len)).sum
      = ((leafPairs (writerRoot d)).map (fun p =>
        p.2 * ((mapGet (writerMapping d) p.1).getD { path := 0, len := 0 }).len)).sum :=
    ((hperm.map _).sum_eq).symm
  rw [h1, leafPairs_leafRecs, List.map_map, cost]
  refine congrArg List.sum (List.map_congr_left ?_)
  intro rec hrec
  show rec.1.2 * ((mapGet (writerMapping d) rec.1.1).getD { path := 0, len := 0 }).len
    = rec.1.2 * rec.2
  congr 1
  rw [writerMapping]
  exact table_len_at (writerRoot d) hndlp rec.1.1 rec.1.2 rec.2 (by simpa using hrec)

/-- Any binary prefix-free assignment over the distribution's symbols
costs at least the greedy merge total. -/
theorem assignment_cost_lb (d : Distribution) (hne : d.cnts ≠ []) (f : Nat → List Nat)
    (hfb : ∀ p ∈ d.cnts, ∀ x ∈ f p.1, x ≤ 1)
    (hpf : List.Pairwise (fun p q => ¬ f p.1 <+: f q.1 ∧ ¬ f q.1 <+: f p.1) d.cnts) :
    huffSum (d.cnts.map Prod.snd)
      ≤ (d.cnts.map (fun p => p.2 * (f p.1).length)).sum := by
  obtain ⟨L, hLmem, hLub⟩ := exists_list_max (d.cnts.map (fun p => (f p.1).length))
    (by simpa using hne)
  have hkraft : kraftSum L ((d.cnts.map (fun p => f p.1)).map List.length) ≤ 2 ^ L := by
    refine kraft_of_prefixfree L (d.cnts.map (fun p => f p.1)) ?_ ?_ ?_
    · intro cc hcc x hx
      obtain ⟨p, hp, rfl⟩ := List.mem_map.1 hcc
      exact hfb p hp x hx
    · intro cc hcc
      obtain ⟨p, hp, rfl⟩ := List.mem_map.1 hcc
      exact hLub _ (List.mem_map.2 ⟨p, hp, rfl⟩)
    · exact List.pairwise_map.2 hpf
  have hub : ∀ q ∈ d.cnts.map (fun p => (p.2, (f p.1).length)), q.2 ≤ L := by
    intro q hq
    obtain ⟨p, hp, rfl⟩ := List.mem_map.1 hq
    exact hLub _ (List.mem_map.2 ⟨p, hp, rfl⟩)
  have hk : kraftSum L ((d.cnts.map (fun p => (p.2, (f p.1).length))).map Prod.snd)
      ≤ 2 ^ L := by
    rw [List.map_map]
    rw [List.map_map] at hkraft
    exact hkraft
  have hmain := huff_lb
    ((d.cnts.map (fun p => (p.2, (f p.1).length))).length
      + ((d.cnts.map (fun p => (p.2, (f p.1).length))).map Prod.snd).sum)
    L (d.cnts.map (fun p => (p.2, (f p.1).length))) hub hk (le_refl _)
  rw [List.map_map] at hmain
  have h2 : wcost (d.cnts.map (fun p => (p.2, (f p.1).length)))
      = (d.cnts.map (fun p => p.2 * (f p.1).length)).sum := by
    rw [wcost, List.map_map]
    rfl
  rw [h2] at hmain
  exact hmain

/-- The integer-weighted form of the optimality claim. -/
theorem huffman_optimal_nat (d : Distribution) (hne : d.cnts ≠ [])
    (hnd : (d.cnts.map Prod.fst).Nodup) (f : Nat → List Nat)
    (hfb : ∀ p ∈ d.cnts, ∀ x ∈ f p.1, x ≤ 1)
    (hpf : List.Pairwise (fun p q => ¬ f p.1 <+: f q.1 ∧ ¬ f q.1 <+: f p.1) d.cnts) :
    (d.cnts.map (fun p =>
        p.2 * ((mapGet (writerMapping d) p.1).getD { path := 0, len := 0 }).len)).sum
      ≤ (d.cnts.map (fun p => p.2 * (f p.1).length)).sum := by
  rw [table_cost d hne hnd, writerRoot_cost d hne]
  exact assignment_cost_lb d hne f hfb hpf

theorem sum_div_mul (T : ℚ) (L : List (Nat × Nat)) (g : Nat × Nat → Nat) :
    (L.map (fun p => (p.2 : ℚ) / T * (g p : ℚ))).sum
      = ((L.map (fun p => p.2 * g p)).sum : ℚ) / T := by
  induction L with
  | nil => simp
  | cons x t ih =>
    simp only [List.map_cons, List.sum_cons, ih]
    push_cast
    ring

/-- C9: for a Distribution (a Go map, so distinct symbol keys, with a
positive sample total), the code table built by `buildTree` and
`getMapping` minimizes the probability-weighted average code length:
it is at most that of every binary prefix-free assignment `f` over the
same symbols.  The builder pops the two minimal counts at every merge
(verified heap), realizing the greedy total, which the Kraft inequality
bounds from below for any prefix-free competitor. -/
theorem huffman_optimal (d : Distribution) (f : Nat → List Nat)
    (hnd : (d.cnts.map Prod.fst).Nodup)
    (htot : 0 < d.total)
    (hfb : ∀ p ∈ d.cnts, ∀ x ∈ f p.1, x ≤ 1)
    (hpf : List.Pairwise (fun p q => ¬ f p.1 <+: f q.1 ∧ ¬ f q.1 <+: f p.1) d.cnts) :
    (d.cnts.map (fun p => (p.2 : ℚ) / (d.total : ℚ)
        * (((mapGet (writerMapping d) p.1).getD { path := 0, len := 0 }).len : ℚ))).sum
      ≤ (d.cnts.map (fun p => (p.2 : ℚ) / (d.total : ℚ) * ((f p.1).length : ℚ))).sum := by
  by_cases hne : d.cnts = []
  · rw [hne]
    simp
  · have hnat := huffman_optimal_nat d hne hnd f hfb hpf
    have hL := sum_div_mul (d.total : ℚ) d.cnts
      (fun p => ((mapGet (writerMapping d) p.1).getD { path := 0, len := 0 }).len)
    have hR := sum_div_mul (d.total : ℚ) d.cnts (fun p => (f p.1).length)
    rw [hL, hR]
    have hTpos : (0 : ℚ) < (d.total : ℚ) := by exact_mod_cast htot
    exact (div_le_div_right hTpos).2 (by exact_mod_cast hnat)

theorem huffman_optimal_witness :
    ((NewDistribution [97, 97, 97, 98]).cnts.map (fun p =>
        (p.2 : ℚ) / ((NewDistribution [97, 97, 97, 98]).total : ℚ)
        * (((mapGet (writerMapping (NewDistribution [97, 97, 97, 98])) p.1).getD
            { path := 0, len := 0 }).len : ℚ))).sum
      ≤ ((NewDistribution [97, 97, 97, 98]).cnts.map (fun p =>
        (p.2 : ℚ) / ((NewDistribution [97, 97, 97, 98]).total : ℚ)
        * (((if p.1 = 97 then ([0] : List Nat) else [1]).length : Nat) : ℚ))).sum :=
  huffman_optimal (NewDistribution [97, 97, 97, 98])
    (fun s => if s = 97 then [0] else [1])
    (by decide) (by decide) (by decide) (by decide)

end Huff
